import Mathlib

/-!
# dmng: permission codec, path trie, pruner, store tables and serializer

A shallow embedding of `utils/permission_utils.go`, `utils/truncate_utils.go`,
`utils/serialization_utils.go`, the statements of `utils/db_utils.go` on the
tables RULE, DENY, CACHE and POLICY, the parser of the trace of
`utils/command_utils.go`, and the profile builders of `dmng.go`, followed by
the properties established about them.

Conventions of the embedding.

* A Go `string` is a Lean `String`.  Where the source indexes or measures a
  string by bytes (`len(mask)`, `mask[0]`) the model works on the UTF-8 bytes
  of the string (`goBytes`).  `strings.Split` on `"/"` and `strings.HasPrefix`
  are modelled on characters, which agrees with the byte-level behaviour on
  UTF-8 text.
* A Go `int` is an `Int`; 64-bit wrap-around is made explicit (`wrap64`) where
  the source does arithmetic on a caller-supplied `int`.
* `panic` is the value `none`.
* A `map[string]*Node` is the list of its values; the key of an entry is the
  `name` field of the node (every store in the source is
  `connections[name] = createTrieNode(name, ...)`).  Iteration follows the
  list; new keys are appended.
* In-place mutation through a `*Node` is modelled by returning the updated
  node.
* The parser of the trace (`bytes.Contains`, `strings.Index`, the slice
  `prot[left+1:right]`, `stripQuotes`) is modelled on characters; positions
  and lengths are those of the bytes for the ASCII lines that `strace` prints.
-/

namespace Dmng

/-! ## permission_utils.go -/

/-- Permissions associated with a requirement (`type Permission struct`). -/
structure Permission where
  X : Bool := false
  W : Bool := false
  R : Bool := false
deriving DecidableEq, Repr

/-- The bytes of a Go string. -/
def goBytes (s : String) : List UInt8 :=
  s.data.flatMap String.utf8EncodeChar

/-- Two's-complement wrap-around of a 64-bit Go `int`. -/
def wrap64 (x : Int) : Int :=
  (x + 2 ^ 63) % 2 ^ 64 - 2 ^ 63

/-- Converts an integer permission to a Permission (`IntToPermission`). -/
def IntToPermission (perm : Int) : Permission :=
  let r : Bool := decide (wrap64 (perm - 4) ≥ 0)
  let perm := if r then wrap64 (perm - 4) else perm
  let w : Bool := decide (wrap64 (perm - 2) ≥ 0)
  let perm := if w then wrap64 (perm - 2) else perm
  let x : Bool := decide (wrap64 (perm - 1) = 0)
  { R := r, W := w, X := x }

def Permission.IsExecutable (perm : Permission) : Bool := perm.X

def Permission.IsWritable (perm : Permission) : Bool := perm.W

def Permission.IsReadable (perm : Permission) : Bool := perm.R

/-- The table `map[bool]uint8{true: 1, false: 0}` of `ToUnixInt`. -/
def boolToUint8 (b : Bool) : Nat := if b then 1 else 0

/-- The method `ToUnixInt`; the result type is `uint8`. -/
def Permission.ToUnixInt (perm : Permission) : Nat :=
  (boolToUint8 perm.R * 4 + boolToUint8 perm.W * 2 + boolToUint8 perm.X) % 256

/-- The table `match` of `PermissionMatch`: `r`, `w`, `x` map to `true`,
`-` maps to `false`, and a missing key reads as `false`. -/
def matchTable (b : UInt8) : Bool :=
  b == 114 || b == 119 || b == 120

/-- The body of `PermissionMatch` once the mask is known to have three bytes. -/
def permissionMatchBytes (perm : Permission) (m0 m1 m2 : UInt8) : Bool :=
  if m0 != 95 && matchTable m0 != perm.R then false
  else if m1 != 95 && matchTable m1 != perm.W then false
  else if m2 != 95 && matchTable m2 != perm.X then false
  else true

/-- The method `PermissionMatch`: `none` is the panic on a mask whose length
is not 3. -/
def Permission.PermissionMatch (perm : Permission) (mask : String) : Option Bool :=
  match goBytes mask with
  | [m0, m1, m2] => some (permissionMatchBytes perm m0 m1 m2)
  | _ => none

/-- The bit of a permission at a mask position: R, W, X in that order. -/
def Permission.bitAt (perm : Permission) (i : Nat) : Bool :=
  match i with
  | 0 => perm.R
  | 1 => perm.W
  | _ => perm.X

/-- The characters a mask is written with. -/
def maskAlphabet : List Char := ['r', 'w', 'x', '-', '_']

/-! ## db_utils.go: rows and origin labels -/

/-- A row of a policy (`type PolicyRow struct`). -/
structure PolicyRow where
  Req : String
  Perm : Permission
  Origin : String
deriving DecidableEq, Repr

def LINK : String := "LINK"
def EXECUTABLE : String := "EXECUTABLE"
def SHARED_LIBS : String := "SHARED_LIB"
def USER_INPUT : String := "USER_INPUT_FILE"
def STRACE_FILE : String := "STRACE_FILE"
def PRUNING_RX : String := "PRUNING_RX"
def PRUNING_RW : String := "PRUNING_RW"
def EXCEPTION : String := "EXCEPTION"

/-! ## truncate_utils.go: the trie -/

/-- A node of the trie (`type Node struct`). -/
structure Node where
  name : String
  path : String
  perm : Permission
  origin : String
  permissioned : Bool
  connections : List Node
deriving Repr

/-- The two package-level maps `ALLOW_COARSE_READ` and `ALLOW_COARSE_WRITE`,
as the lists of their keys.  `CreateTrie` adds keys to both, so the pruner
takes their current value as an argument. -/
structure AllowSets where
  read : List String
  write : List String
deriving Repr

def ALLOW_COARSE_READ : List String :=
  ["/bin", "/lib", "/lib32", "/lib64", "/libx32", "/sbin", "/opt", "/usr", "/etc/fonts"]

def ALLOW_COARSE_WRITE : List String :=
  ["/dev", "/var", "/sys"]

/-- The allow-sets as the package initialises them. -/
def initialAllowSets : AllowSets :=
  { read := ALLOW_COARSE_READ, write := ALLOW_COARSE_WRITE }

def IGNORED_PATHS : List String := ["/proc"]

/-- The function `strings.HasPrefix`. -/
def HasPrefix (s pre : String) : Bool :=
  pre.data.isPrefixOf s.data

/-- The pieces of a character list between the occurrences of `/`. -/
def splitSlash : List Char → List (List Char)
  | [] => [[]]
  | c :: cs =>
    match splitSlash cs with
    | [] => [[c]]
    | piece :: pieces => if c = '/' then [] :: piece :: pieces else (c :: piece) :: pieces

/-- The call `strings.Split(req, "/")`. -/
def Split (req : String) : List String :=
  (splitSlash req.data).map String.mk

/-- Setting a key of a map that may already hold it. -/
def mapSet (m : List String) (key : String) : List String :=
  if m.contains key then m else m ++ [key]

/-- Creates a new Node with an empty map of `connections`. -/
def createTrieNode (name path : String) (perm : Permission) (origin : String)
    (permissioned : Bool) : Node :=
  { name := name, path := path, perm := perm, origin := origin,
    permissioned := permissioned, connections := [] }

/-- The lookup `currnode.connections[name]`. -/
def lookupChild (name : String) (connections : List Node) : Option Node :=
  connections.find? (fun c => c.name == name)

/-- The map after the node stored under `name` has been mutated into `child`. -/
def storeChild (name : String) (child : Node) : List Node → List Node
  | [] => []
  | c :: cs => if c.name == name then child :: cs else c :: storeChild name child cs

/-- The loop `for _, name := range names` of `addRequirement`, started at
`currnode` with the running `incremental_path`; the result is `currnode` as the
loop leaves it. -/
def addRequirementLoop (last_name : String) (perm : Permission) (origin : String) :
    List String → String → Node → Node
  | [], _, currnode => currnode
  | name :: names, incremental_path, currnode =>
    match lookupChild name currnode.connections with
    | some child =>
      let child : Node :=
        if last_name == name then
          { child with perm := perm, permissioned := true, origin := origin }
        else child
      let child := addRequirementLoop last_name perm origin names child.path child
      { currnode with connections := storeChild name child currnode.connections }
    | none =>
      let incremental_path := incremental_path ++ "/" ++ name
      let child := createTrieNode name incremental_path {} "" false
      let child : Node :=
        if name == last_name then
          { child with perm := perm, origin := origin, permissioned := true }
        else child
      let child := addRequirementLoop last_name perm origin names incremental_path child
      { currnode with connections := currnode.connections ++ [child] }

/-- Adds a requirement (`req`, `perm`, `origin`) to a command Trie
(`addRequirement`). -/
def addRequirement (root : Node) (req : String) (perm : Permission) (origin : String) : Node :=
  if IGNORED_PATHS.any (fun ignp => HasPrefix req ignp) then root
  else
    let names := Split req
    let names :=
      if names.length > 1 then
        (if names.head? = some "" then names.tail else names)
      else names
    let last_name : String := names.getLast?.getD ""
    addRequirementLoop last_name perm origin names root.path root

/-- Creates the Trie of a command out of a slice of `requirements`
(`CreateTrie`); `username` is `user.Current().Username`.  The result carries
the allow-sets as the call leaves them. -/
def CreateTrie (A : AllowSets) (username command : String) (requirements : List PolicyRow) :
    AllowSets × Node :=
  let read := mapSet A.read ("/home/" ++ username ++ "/.local/share")
  let read := mapSet read ("/home/" ++ username ++ "/.cache/fontconfig")
  let write := mapSet A.write ("/home/" ++ username ++ "/.cache/" ++ command)
  let write := mapSet write ("/home/" ++ username ++ "/.config/" ++ command)
  let write := mapSet write ("/tmp/" ++ command)
  let write := mapSet write "/tmp/"
  let trie := createTrieNode "/" "" {} "" false
  ({ read := read, write := write },
    requirements.foldl
      (fun trie requirement =>
        addRequirement trie requirement.Req requirement.Perm requirement.Origin)
      trie)

/-- Returns `true` if a node is a leaf (`isLeaf`). -/
def Node.isLeaf (root : Node) : Bool :=
  root.connections.length == 0

mutual
/-- Counts the number of nodes in the Trie associated with a permission
(`CountPermissionedNodes`). -/
def CountPermissionedNodes : Node → Int
  | ⟨_, _, _, _, permissioned, connections⟩ =>
    CountPermissionedConnections connections + (if permissioned then 1 else 0)
/-- The loop of `CountPermissionedNodes` over the children. -/
def CountPermissionedConnections : List Node → Int
  | [] => 0
  | child :: rest => CountPermissionedNodes child + CountPermissionedConnections rest
end

mutual
/-- Reads the security profile from a Trie (`GetSecurityProfile`): the rows
appended to `profile`. -/
def GetSecurityProfile : Node → List PolicyRow
  | ⟨_, path, perm, origin, permissioned, connections⟩ =>
    (if permissioned then [{ Req := path, Perm := perm, Origin := origin }] else [])
      ++ GetSecurityProfileConnections connections
/-- The loop of `GetSecurityProfile` over the children. -/
def GetSecurityProfileConnections : List Node → List PolicyRow
  | [] => []
  | node :: rest => GetSecurityProfile node ++ GetSecurityProfileConnections rest
end

/-- Returns `true` if `path` belong to the ALLOW_COARSE_READ. -/
def isAllowCoarseRead (A : AllowSets) (path : String) : Bool :=
  A.read.contains path

/-- Returns `true` if `path` is a valid ALLOW_COARSE_READ prefix. -/
def isAllowCoarseReadPrefix (A : AllowSets) (path : String) : Bool :=
  A.read.any (fun p => HasPrefix p path)

/-- Returns `true` if `path` belong to the ALLOW_COARSE_WRITE. -/
def isAllowCoarseWrite (A : AllowSets) (path : String) : Bool :=
  A.write.contains path

/-- Returns `true` if `path` is a valid ALLOW_COARSE_WRITE prefix. -/
def isAllowCoarseWritePrefix (A : AllowSets) (path : String) : Bool :=
  A.write.any (fun p => HasPrefix p path)

/-- The loops `for name := range nodes { delete(root.connections, name) }`,
given the keys of `nodes`. -/
def deleteKeys (keys : List String) (connections : List Node) : List Node :=
  connections.filter (fun c => !(keys.contains c.name))

/-- The watermark loop: some node of `nodes` is readable. -/
def watermarkR (nodes : List Node) : Bool :=
  nodes.any (fun tn => tn.perm.IsReadable)

/-- The watermark loop: some node of `nodes` is executable. -/
def watermarkX (nodes : List Node) : Bool :=
  nodes.any (fun tn => tn.perm.IsExecutable)

/-- The part of `_pruneRX` that follows the recursive calls ("prune `root`"),
on a root whose children have been pruned. -/
def pruneRXRoot (root : Node) : Node :=
  let rx_nodes := root.connections.filter (fun node =>
    !(node.connections.length != 0) && (node.perm.PermissionMatch "_-_" == some true))
  if rx_nodes.length ≤ 1 then root
  else
    { root with
      perm := { root.perm with R := watermarkR rx_nodes, X := watermarkX rx_nodes }
      permissioned := true
      origin := PRUNING_RX
      connections := deleteKeys (rx_nodes.map (fun n => n.name)) root.connections }

mutual
/-- Applies pruning to the Trie rooted in `root` (`_pruneRX`). -/
def _pruneRX : Node → Node
  | ⟨name, path, perm, origin, permissioned, connections⟩ =>
    if connections.length == 0 then
      ⟨name, path, perm, origin, permissioned, connections⟩
    else
      pruneRXRoot ⟨name, path, perm, origin, permissioned, _pruneRXConnections connections⟩
/-- The loop "prune `root.connections`" of `_pruneRX`. -/
def _pruneRXConnections : List Node → List Node
  | [] => []
  | node :: rest =>
    (if !node.isLeaf then _pruneRX node else node) :: _pruneRXConnections rest
end

/-- The part of `_pruneRW` that follows the recursive calls, on a root whose
children have been pruned. -/
def pruneRWRoot (root : Node) : Node :=
  let rn_nodes := root.connections.filter (fun node =>
    (node.perm.PermissionMatch "r-_" == some true) && node.connections.length == 0)
  let rw_nodes := root.connections.filter (fun node =>
    !(node.perm.PermissionMatch "r-_" == some true)
      && (node.perm.PermissionMatch "rw-" == some true) && node.connections.length == 0)
  if rn_nodes.length + rw_nodes.length ≤ 1 then
    if rw_nodes.length == 0 then
      { root with
        perm := rn_nodes.foldl (fun _ nt => nt.perm) root.perm
        permissioned := true
        origin := PRUNING_RW
        connections := deleteKeys (rn_nodes.map (fun n => n.name)) root.connections }
    else root
  else
    { root with
      perm := { R := watermarkR rn_nodes, X := watermarkX rn_nodes, W := true }
      permissioned := true
      origin := PRUNING_RW
      connections :=
        deleteKeys (rw_nodes.map (fun n => n.name))
          (deleteKeys (rn_nodes.map (fun n => n.name)) root.connections) }

mutual
/-- Applies the write pruning to the Trie rooted in `root` (`_pruneRW`). -/
def _pruneRW : Node → Node
  | ⟨name, path, perm, origin, permissioned, connections⟩ =>
    if connections.length == 0 then
      ⟨name, path, perm, origin, permissioned, connections⟩
    else
      pruneRWRoot ⟨name, path, perm, origin, permissioned, _pruneRWConnections connections⟩
/-- The loop "prune `root.connections`" of `_pruneRW`. -/
def _pruneRWConnections : List Node → List Node
  | [] => []
  | node :: rest =>
    (if !node.isLeaf then _pruneRW node else node) :: _pruneRWConnections rest
end

mutual
/-- The method `PruneRX`: the returned flag and the trie as the call leaves it. -/
def PruneRX (A : AllowSets) (goal : Int) : Node → Bool × Node
  | ⟨name, path, perm, origin, permissioned, connections⟩ =>
    let root : Node :=
      ⟨name, path, perm, origin, permissioned, PruneRXConnections A goal connections⟩
    (decide (CountPermissionedNodes root ≤ goal), root)
/-- The loop of `PruneRX` over `root.connections`. -/
def PruneRXConnections (A : AllowSets) (goal : Int) : List Node → List Node
  | [] => []
  | node :: rest =>
    (if isAllowCoarseRead A node.path then _pruneRX node
      else if isAllowCoarseReadPrefix A node.path then (PruneRX A goal node).2
      else node) :: PruneRXConnections A goal rest
end

mutual
/-- The method `PruneRW`: the returned flag and the trie as the call leaves it. -/
def PruneRW (A : AllowSets) (goal : Int) : Node → Bool × Node
  | ⟨name, path, perm, origin, permissioned, connections⟩ =>
    let root : Node :=
      ⟨name, path, perm, origin, permissioned, PruneRWConnections A goal connections⟩
    (decide (CountPermissionedNodes root ≤ goal), root)
/-- The loop of `PruneRW` over `root.connections`. -/
def PruneRWConnections (A : AllowSets) (goal : Int) : List Node → List Node
  | [] => []
  | node :: rest =>
    (if isAllowCoarseWrite A node.path then _pruneRW node
      else if isAllowCoarseWritePrefix A node.path then (PruneRW A goal node).2
      else node) :: PruneRWConnections A goal rest
end

/-- Prunes the Trie until it contains a number of permissioned nodes less or
equal than `goal` (`PruneTrie`): `none` is the panic on `goal <= 0`, otherwise
the returned flag and the trie as the call leaves it. -/
def PruneTrie (A : AllowSets) (goal : Int) (root : Node) : Option (Bool × Node) :=
  if goal ≤ 0 then none
  else if goal ≥ CountPermissionedNodes root then some (true, root)
  else
    let rx := PruneRX A goal root
    if rx.1 then some (true, rx.2)
    else
      let rw := PruneRW A goal rx.2
      if rw.1 then some (true, rw.2) else some (false, rw.2)


/-! ## Vocabulary of the trie properties -/

mutual
/-- Every node of the trie rooted in a node, the root first. -/
def allNodes : Node → List Node
  | ⟨name, path, perm, origin, permissioned, connections⟩ =>
    ⟨name, path, perm, origin, permissioned, connections⟩ :: allNodesConnections connections
/-- Every node of the tries rooted in the nodes of a list. -/
def allNodesConnections : List Node → List Node
  | [] => []
  | node :: rest => allNodes node ++ allNodesConnections rest
end

mutual
/-- The `path` field of every child is the `path` of its parent, a `/` and the
child's `name`, as `addRequirement` computes it. -/
def pathsConsistent : Node → Bool
  | ⟨_, path, _, _, _, connections⟩ => pathsConsistentConnections path connections
/-- The children of a node of path `parent` and their subtrees have consistent paths. -/
def pathsConsistentConnections (parent : String) : List Node → Bool
  | [] => true
  | node :: rest =>
    (node.path == parent ++ "/" ++ node.name) && pathsConsistent node
      && pathsConsistentConnections parent rest
end

/-- The path `path` is `entry` itself or lies below the directory `entry`. -/
def isSelfOrAncestor (entry path : String) : Bool :=
  path == entry || HasPrefix path (entry ++ "/")

/-- Some entry of ALLOW_COARSE_READ or ALLOW_COARSE_WRITE is `path` itself or
an ancestor directory of it. -/
def underAllowEntry (A : AllowSets) (path : String) : Bool :=
  (A.read ++ A.write).any (fun entry => isSelfOrAncestor entry path)

/-- The node `n'` carries the labels of `n`. -/
def sameLabels (n n' : Node) : Prop :=
  n'.path = n.path ∧ n'.name = n.name ∧ n'.perm = n.perm ∧ n'.origin = n.origin
    ∧ n'.permissioned = n.permissioned

/-- The child that the loop of `PruneRX` leaves in place of `node`. -/
def pruneRXChild (A : AllowSets) (goal : Int) (node : Node) : Node :=
  if isAllowCoarseRead A node.path then _pruneRX node
  else if isAllowCoarseReadPrefix A node.path then (PruneRX A goal node).2
  else node

/-- The child that the loop of `PruneRW` leaves in place of `node`. -/
def pruneRWChild (A : AllowSets) (goal : Int) (node : Node) : Node :=
  if isAllowCoarseWrite A node.path then _pruneRW node
  else if isAllowCoarseWritePrefix A node.path then (PruneRW A goal node).2
  else node

/-- Every node of `n` whose path is outside the allow-sets is found in `n'`
with its labels. -/
def keepsOutside (A : AllowSets) (n n' : Node) : Prop :=
  ∀ m ∈ allNodes n, underAllowEntry A m.path = false →
    ∃ m' ∈ allNodes n', sameLabels m m'

/-! ## db_utils.go: the table RULE -/

/-- A row of the table `RULE(rule, pol, req, perm, origin)`; `rule` is the
`integer PRIMARY KEY AUTOINCREMENT` column. -/
structure RuleRow where
  rule : Nat
  pol : Int
  req : String
  perm : Int
  origin : String
deriving DecidableEq, Repr

/-- The table RULE: its rows in storage order and the AUTOINCREMENT counter
(the largest `rule` ever handed out). -/
structure RuleTable where
  rows : List RuleRow
  seq : Nat
deriving Repr

/-- The SQL aggregate `max(perm)`: `none` is NULL, the value over no rows. -/
def sqlMax : List Int → Option Int
  | [] => none
  | x :: xs => some (xs.foldl max x)

/-- The SQL comparison `perm < (SELECT max(perm) ...)`; a comparison with NULL
does not select the row. -/
def sqlLess (perm : Int) (m : Option Int) : Bool :=
  match m with
  | none => false
  | some mx => decide (perm < mx)

/-- The first statement of `ruleTablePostProcessing`:
`DELETE FROM RULE WHERE rule IN (SELECT R.rule from RULE R WHERE R.perm <
(SELECT max(perm) from RULE WHERE req=R.req AND pol=R.pol AND pol=?))`. -/
def remove_leastp (pol : Int) (rows : List RuleRow) : List RuleRow :=
  let selected : List Nat :=
    (rows.filter (fun R =>
      sqlLess R.perm
        (sqlMax ((rows.filter (fun r => r.req == R.req && r.pol == R.pol && r.pol == pol)).map
          (fun r => r.perm))))).map (fun R => R.rule)
  rows.filter (fun r => !(selected.contains r.rule))

/-- The rows that `GROUP BY pol, req, perm` puts in the group of `R`. -/
def groupOf (rows : List RuleRow) (R : RuleRow) : List RuleRow :=
  rows.filter (fun r => r.pol == R.pol && r.req == R.req && r.perm == R.perm)

/-- The second statement of `ruleTablePostProcessing`:
`DELETE FROM RULE WHERE rule NOT IN (SELECT rule FROM RULE GROUP BY pol, req, perm)`.
The bare column `rule` of the grouped query takes its value from a row of the
group that SQLite chooses; `bareColumn` is that choice. -/
def remove_dups (bareColumn : List RuleRow → Nat) (rows : List RuleRow) : List RuleRow :=
  let selected : List Nat := rows.map (fun R => bareColumn (groupOf rows R))
  rows.filter (fun r => selected.contains r.rule)

/-- Removes the duplicates keeping only the highest permission for each
(pol, req) entry (`ruleTablePostProcessing`). -/
def ruleTablePostProcessing (bareColumn : List RuleRow → Nat) (pol : Int)
    (rows : List RuleRow) : List RuleRow :=
  remove_dups bareColumn (remove_leastp pol rows)

/-- The `rule` that AUTOINCREMENT gives to the next inserted row: one more than
the largest `rule` in the table or ever handed out. -/
def nextRule (T : RuleTable) : Nat :=
  max T.seq (T.rows.foldl (fun m r => max m r.rule) 0) + 1

/-- Adds a single `req` of a `pol` to the profiles-DB (`AddRequirement`). -/
def AddRequirement (bareColumn : List RuleRow → Nat) (T : RuleTable)
    (pol : Int) (req : String) (perm : Int) (origin : String) : RuleTable :=
  let row : RuleRow :=
    { rule := nextRule T, pol := pol, req := req, perm := perm, origin := origin }
  { rows := ruleTablePostProcessing bareColumn pol (T.rows ++ [row]), seq := nextRule T }

/-- The table RULE as `createTables` leaves it. -/
def emptyRuleTable : RuleTable := { rows := [], seq := 0 }

/-- The arguments of one call of `AddRequirement`. -/
structure AddCall where
  pol : Int
  req : String
  perm : Int
  origin : String
deriving DecidableEq, Repr

/-- The table after a sequence of `AddRequirement` calls on the empty table. -/
def runAddCalls (bareColumn : List RuleRow → Nat) (calls : List AddCall) : RuleTable :=
  calls.foldl (fun T c => AddRequirement bareColumn T c.pol c.req c.perm c.origin) emptyRuleTable

/-- The choice of the bare column is the `rule` of some row of the group. -/
def bareColumnValid (bareColumn : List RuleRow → Nat) : Prop :=
  ∀ g : List RuleRow, g ≠ [] → ∃ r ∈ g, bareColumn g = r.rule

/-- A choice of the bare column: the first row of the group. -/
def firstOfGroup (g : List RuleRow) : Nat :=
  match g with
  | [] => 0
  | r :: _ => r.rule

/-- A choice of the bare column: the last row of the group. -/
def lastOfGroup (g : List RuleRow) : Nat :=
  match g.getLast? with
  | none => 0
  | some r => r.rule

/-- The rows of a table for the pair `(pol, req)`. -/
def rowsOf (rows : List RuleRow) (pol : Int) (req : String) : List RuleRow :=
  rows.filter (fun r => r.pol == pol && r.req == req)

/-- The permissions that a sequence of calls inserted for the pair `(pol, req)`. -/
def insertedPerms (calls : List AddCall) (pol : Int) (req : String) : List Int :=
  (calls.filter (fun c => c.pol == pol && c.req == req)).map (fun c => c.perm)

/-- The rows that the first statement deletes. -/
def isLeastp (pol : Int) (rows : List RuleRow) (R : RuleRow) : Bool :=
  sqlLess R.perm
    (sqlMax ((rows.filter (fun r => r.req == R.req && r.pol == R.pol && r.pol == pol)).map
      (fun r => r.perm)))

/-! ## Concrete inputs used below -/

/-- The permission `rw-`. -/
def permRW : Permission := { R := true, W := true }

/-- The permission `r--`. -/
def permR : Permission := { R := true }

/-- The permission `r-x`. -/
def permRX : Permission := { R := true, X := true }

/-- The root that `CreateTrie` starts from. -/
def emptyTrie : Node := createTrieNode "/" "" {} "" false

/-- The trie of `/dev/null` and `/dev/zero`, both `rw-`. -/
def devTrie : AllowSets × Node :=
  CreateTrie initialAllowSets "alice" "cat"
    [⟨"/dev/null", permRW, STRACE_FILE⟩, ⟨"/dev/zero", permRW, STRACE_FILE⟩]

/-- The trie of two `rw-` files three levels below `/dev`. -/
def deepDevTrie : AllowSets × Node :=
  CreateTrie initialAllowSets "alice" "cat"
    [⟨"/dev/bus/usb/f1", permRW, STRACE_FILE⟩, ⟨"/dev/bus/usb/f2", permRW, STRACE_FILE⟩]

/-- The trie of `/opt/x`, `/opt/y` (both `r-x`) and `/home/u/data` (`r--`). -/
def optHomeTrie : AllowSets × Node :=
  CreateTrie initialAllowSets "alice" "cat"
    [⟨"/opt/x", permRX, STRACE_FILE⟩, ⟨"/opt/y", permRX, STRACE_FILE⟩,
      ⟨"/home/u/data", permR, USER_INPUT⟩]

/-- Two calls of `AddRequirement` for one pair: `r-x` (5), then `rw-` (6). -/
def toolCalls : List AddCall :=
  [⟨1, "/bin/tool", 5, EXECUTABLE⟩, ⟨1, "/bin/tool", 6, STRACE_FILE⟩]

/-- A table RULE with three rows for one pair and a row of another policy. -/
def sampleRules : List RuleRow :=
  [⟨1, 1, "/etc/ssl/cert", 4, USER_INPUT⟩, ⟨2, 1, "/etc/ssl/cert", 6, STRACE_FILE⟩,
    ⟨3, 1, "/etc/ssl/cert", 6, USER_INPUT⟩, ⟨4, 2, "/etc/ssl/cert", 4, USER_INPUT⟩]

/-! ## permission_utils.go: literals -/

/-- The rune mapping of `strings.ToLower`: ASCII letters are lowered as the
source of `strings.ToLower` does, every other rune goes through the library
table `unicode.ToLower`, here the argument `unicodeToLower`. -/
def lowerRune (unicodeToLower : Char → Char) (c : Char) : Char :=
  if c.val ≤ 0x7f then c.toLower else unicodeToLower c

/-- The function `strings.ToLower`. -/
def ToLower (unicodeToLower : Char → Char) (s : String) : String :=
  String.mk (s.data.map (lowerRune unicodeToLower))

/-- The check of one position of `InitPermission`: the bit when the byte is
`yes`, no bit when it is `-`, a panic otherwise. -/
def permissionBit (b yes : UInt8) : Option Bool :=
  if b == yes then some true
  else if b != 45 then none
  else some false

/-- Gets a permission string and returns a `Permission` instance
(`InitPermission`); `none` is a panic, the explicit one or the one of an index
out of range. -/
def InitPermission (unicodeToLower : Char → Char) (perm : String) : Option Permission :=
  if (goBytes perm).length != 3 then none
  else
    let perm := ToLower unicodeToLower perm
    match (goBytes perm)[0]? with
    | none => none
    | some b0 =>
      match permissionBit b0 114 with
      | none => none
      | some r =>
        match (goBytes perm)[1]? with
        | none => none
        | some b1 =>
          match permissionBit b1 119 with
          | none => none
          | some w =>
            match (goBytes perm)[2]? with
            | none => none
            | some b2 =>
              match permissionBit b2 120 with
              | none => none
              | some x => some { R := r, W := w, X := x }

/-- Returns `true` if the permission input by the user is valid (`IsValidPerm`). -/
def IsValidPerm (perm : String) : Bool :=
  match goBytes perm with
  | [b0, b1, b2] =>
    if b0 != 114 && b0 != 45 then false
    else if b1 != 119 && b1 != 45 then false
    else if b2 != 120 && b2 != 45 then false
    else true
  | _ => false

/-! ## db_utils.go: the tables DENY, CACHE and POLICY -/

/-- A row of the table `DENY(deny, pol, req)` with `UNIQUE(pol, req)`; `deny`
is the `integer PRIMARY KEY AUTOINCREMENT` column. -/
structure DenyRow where
  deny : Nat
  pol : Int
  req : String
deriving DecidableEq, Repr

/-- The table DENY: its rows in storage order and the AUTOINCREMENT counter. -/
structure DenyTable where
  rows : List DenyRow
  seq : Nat
deriving DecidableEq, Repr

/-- The outcome of a store call: whether the call returned (`false` is a
panic) and the table as the call leaves it; a statement that fails changes
nothing. -/
structure StoreResult (σ : Type) where
  completed : Bool
  table : σ
deriving Repr

/-- The `deny` that AUTOINCREMENT gives to the next inserted row. -/
def nextDeny (T : DenyTable) : Nat :=
  max T.seq (T.rows.foldl (fun m r => max m r.deny) 0) + 1

/-- Adds a single `req` for `pol` in the deny list (`AddDenial`):
`INSERT INTO DENY(pol, req) VALUES (?,?)`, which fails on `UNIQUE(pol, req)`,
followed by `if err != nil { panic(...) }`. -/
def AddDenial (T : DenyTable) (pol : Int) (req : String) : StoreResult DenyTable :=
  if T.rows.any (fun r => r.pol == pol && r.req == req) then
    { completed := false, table := T }
  else
    { completed := true,
      table := { rows := T.rows ++ [{ deny := nextDeny T, pol := pol, req := req }],
                 seq := nextDeny T } }

/-- The denials of a policy (`GetDenials`): `SELECT req FROM DENY WHERE pol == ?`,
each `req` in a fresh `PolicyRow`.  The query has no ORDER BY; the rows come in
the order of the list `rows`. -/
def GetDenials (T : DenyTable) (pol : Int) : List PolicyRow :=
  (T.rows.filter (fun r => r.pol == pol)).map
    (fun r => { Req := r.req, Perm := {}, Origin := "" })

/-- A row of the table `CACHE(cmd PRIMARY KEY, ctx)`. -/
structure CacheRow where
  cmd : String
  ctx : String
deriving DecidableEq, Repr

/-- A policy identifier (`type PolicyIdentifier struct`), also a row of the
table `POLICY(pol, cmd, ctx)` with `UNIQUE(cmd, ctx)`. -/
structure PolicyIdentifier where
  Pol : Int
  Cmd : String
  Ctx : String
deriving DecidableEq, Repr

/-- The table POLICY: its rows in storage order and the AUTOINCREMENT counter. -/
structure PolicyTable where
  rows : List PolicyIdentifier
  seq : Int
deriving Repr

/-- The tables CACHE and POLICY of the store. -/
structure ContextStore where
  cache : List CacheRow
  policy : PolicyTable
deriving Repr

/-- Updates the cache in the profiles-DB (`UpdateCacheContext`):
`DELETE FROM CACHE WHERE cmd = ?` followed by `INSERT INTO CACHE VALUES (?, ?)`,
which fails on the primary key `cmd`. -/
def UpdateCacheContext (cache : List CacheRow) (cmd ctx : String) :
    StoreResult (List CacheRow) :=
  let popped := cache.filter (fun r => !(r.cmd == cmd))
  if popped.any (fun r => r.cmd == cmd) then
    { completed := false, table := popped }
  else
    { completed := true, table := popped ++ [{ cmd := cmd, ctx := ctx }] }

/-- The `pol` that AUTOINCREMENT gives to the next inserted row. -/
def nextPol (T : PolicyTable) : Int :=
  max T.seq (T.rows.foldl (fun m r => max m r.Pol) 0) + 1

/-- Updates the active policy in the profiles-DB (`UpdatePolicyContext`):
`INSERT OR IGNORE INTO POLICY (cmd, ctx) VALUES (?, ?)`. -/
def UpdatePolicyContext (T : PolicyTable) (cmd ctx : String) : PolicyTable :=
  if T.rows.any (fun r => r.Cmd == cmd && r.Ctx == ctx) then T
  else { rows := T.rows ++ [{ Pol := nextPol T, Cmd := cmd, Ctx := ctx }], seq := nextPol T }

/-- The two store calls of `updateContext` (dmng.go), in order. -/
def updateContextStore (S : ContextStore) (cmd ctx : String) : StoreResult ContextStore :=
  let c := UpdateCacheContext S.cache cmd ctx
  if c.completed then
    { completed := true,
      table := { cache := c.table, policy := UpdatePolicyContext S.policy cmd ctx } }
  else
    { completed := false, table := { cache := c.table, policy := S.policy } }

/-! ## serialization_utils.go -/

/-- The entries of a profile (`type SecurityProfile struct`). -/
structure SecurityProfile where
  Entries : List PolicyRow
deriving DecidableEq, Repr

/-- The policy of one command (`type CmdPolicy struct`). -/
structure CmdPolicy where
  Policy_name : String
  Read : List String
  Write : List String
  Exec : List String
  Deny : List String
deriving DecidableEq, Repr

/-- The struct storing all the policies to be serialized (`type Policy struct`),
the value of the package variable `P` and the content of a policy document. -/
structure Policy where
  Policies : List CmdPolicy
  Max_depth : Int
deriving DecidableEq, Repr

/-- The depth of one path in `maxDenialsDepth` and `FixDepth`:
`parts := strings.Split(req, "/"); parts = parts[1:]; len(parts)`. -/
def pathDepth (req : String) : Int :=
  (((Split req).drop 1).length : Int)

/-- The function `maxDenialsDepth`. -/
def maxDenialsDepth (denials : List PolicyRow) : Int :=
  if denials.length == 0 then -1
  else
    denials.foldl
      (fun maxDepth d => if pathDepth d.Req > maxDepth then pathDepth d.Req else maxDepth) 0

/-- The function `addCmdPolicy`, given the table DENY, the package variables
`POLICY_DIR` and `P`: the policy it returns and `P` as it leaves it. -/
def addCmdPolicy (store : DenyTable) (POLICY_DIR : String) (P : Policy)
    (pid : PolicyIdentifier) (perms : SecurityProfile) : CmdPolicy × Policy :=
  let denials := GetDenials store pid.Pol
  let cmdp : CmdPolicy :=
    { Policy_name := pid.Cmd ++ "_" ++ pid.Ctx, Read := [], Write := [], Exec := [], Deny := [] }
  let cmdp := perms.Entries.foldl
    (fun (cmdp : CmdPolicy) r =>
      let cmdp := if r.Perm.R then { cmdp with Read := cmdp.Read ++ [r.Req] } else cmdp
      let cmdp := if r.Perm.W then { cmdp with Write := cmdp.Write ++ [r.Req] } else cmdp
      if r.Perm.X then { cmdp with Exec := cmdp.Exec ++ [r.Req] } else cmdp)
    cmdp
  let policy_dir_denial : PolicyRow := { Req := POLICY_DIR, Perm := {}, Origin := "" }
  let denials := denials ++ [policy_dir_denial]
  let cmdp := denials.foldl
    (fun (cmdp : CmdPolicy) r => { cmdp with Deny := cmdp.Deny ++ [r.Req] }) cmdp
  let curr_max_depth := maxDenialsDepth denials
  let P := if curr_max_depth > P.Max_depth then { P with Max_depth := curr_max_depth } else P
  (cmdp, P)

/-- The loop `for i, sp := range sps` of `SerializePolicy`, with the policy
identifiers from index `i` on; `none` is the panic of `pids[i]` out of range. -/
def serializeLoop (store : DenyTable) (POLICY_DIR : String) :
    List PolicyIdentifier → List SecurityProfile → Policy → Option Policy
  | _, [], P => some P
  | [], _ :: _, _ => none
  | pid :: pids, sp :: sps, P =>
    let r := addCmdPolicy store POLICY_DIR P pid sp
    let cmdPolicy : CmdPolicy := { r.1 with Policy_name := pid.Cmd ++ "_" ++ pid.Ctx }
    serializeLoop store POLICY_DIR pids sps
      { r.2 with Policies := r.2.Policies ++ [cmdPolicy] }

/-- Serializes all the policies available into the policyfile
(`SerializePolicy`): the document that `writePolicy` writes. -/
def SerializePolicy (store : DenyTable) (pids : List PolicyIdentifier)
    (sps : List SecurityProfile) (pdir : String) : Option Policy :=
  serializeLoop store pdir pids sps { Policies := [], Max_depth := 0 }

/-- Updates the content of `max_depth` for a given policy (`FixDepth`):
`document` is what `deserializePolicy` reads into `P`, the result is what
`writePolicy` writes back. -/
def FixDepth (document : Policy) : Policy :=
  let max_d : Int :=
    document.Policies.foldl
      (fun max_d p =>
        p.Deny.foldl
          (fun max_d deny => if pathDepth deny > max_d then pathDepth deny else max_d) max_d)
      0
  { document with Max_depth := max_d }

/-- The count that the specification gives as the depth of a path: its
non-empty segments after the leading `/`. -/
def nonEmptySegments (req : String) : Int :=
  ((((Split req).drop 1).filter (fun part => part != "")).length : Int)

/-! ## dmng.go: the profile builder -/

/-- Builds the security profile of a command (`BuildSecurityProfile`), given
the allow-sets, the user name, the command `CMD` and the requirements `lof`
that `GetCommandRequirements(POL)` returns: the entries it stores and returns.
`none` is `failure()` or a panic. -/
def BuildSecurityProfile (A : AllowSets) (username CMD : String) (lof : List PolicyRow)
    (goal : Int) : Option SecurityProfile :=
  if goal < 0 then none
  else
    let goal := if goal == 0 then 50 else goal
    let commandTrie := CreateTrie A username CMD lof
    match PruneTrie commandTrie.1 goal commandTrie.2 with
    | none => none
    | some pruned => some { Entries := GetSecurityProfile pruned.2 }

/-- The requirements `/lib/f0`, ..., `/lib/f(n-1)`, each `r-x`. -/
def libFiles (n : Nat) : List PolicyRow :=
  (List.range n).map (fun i => { Req := "/lib/f" ++ toString i, Perm := permRX, Origin := SHARED_LIBS })

/-- A table DENY with one denial of policy 1. -/
def sampleDeny : DenyTable :=
  { rows := [{ deny := 1, pol := 1, req := "/etc/shadow" }], seq := 1 }

/-- The row that `addCmdPolicy` appends to the denials of a policy. -/
def policyDirDenial (POLICY_DIR : String) : PolicyRow :=
  { Req := POLICY_DIR, Perm := {}, Origin := "" }

/-- The policy that `addCmdPolicy` returns for an identifier and a profile, in
closed form. -/
def cmdPolicyOf (store : DenyTable) (POLICY_DIR : String) (pid : PolicyIdentifier)
    (perms : SecurityProfile) : CmdPolicy :=
  { Policy_name := pid.Cmd ++ "_" ++ pid.Ctx
    Read := (perms.Entries.filter (fun r => r.Perm.R)).map (fun r => r.Req)
    Write := (perms.Entries.filter (fun r => r.Perm.W)).map (fun r => r.Req)
    Exec := (perms.Entries.filter (fun r => r.Perm.X)).map (fun r => r.Req)
    Deny := (GetDenials store pid.Pol).map (fun r => r.Req) ++ [POLICY_DIR] }

/-- The value `curr_max_depth` of `addCmdPolicy` for a policy identifier. -/
def policyDepth (store : DenyTable) (POLICY_DIR : String) (pid : PolicyIdentifier) : Int :=
  maxDenialsDepth (GetDenials store pid.Pol ++ [policyDirDenial POLICY_DIR])

/-- The document of one policy `ls_dev` with the denial `/etc/shadow`. -/
def sampleDocument : Policy :=
  { Policies :=
      [{ Policy_name := "ls_dev", Read := ["/bin/ls"], Write := [], Exec := ["/bin/ls"],
         Deny := ["/etc/shadow", "/home/alice/.dmng_profiles"] }]
    Max_depth := 3 }

/-- A store with the commands `ls` and `cat`, both in the context `dev`. -/
def sampleContextStore : ContextStore :=
  { cache := [⟨"ls", "dev"⟩, ⟨"cat", "dev"⟩]
    policy := { rows := [⟨1, "ls", "dev"⟩, ⟨2, "cat", "dev"⟩], seq := 2 } }

/-! ## command_utils.go: the parser of the trace -/

/-- The flags associated with WRITE permission (`rw_flags`), as the list of the
keys of the map. -/
def rw_flags : List String := ["O_WRONLY", "O_RDWR", "O_APPEND", "O_CREAT"]

/-- The flags associated with READ permission (`ro_flags`), as the list of the
keys of the map. -/
def ro_flags : List String := ["O_RDONLY", "O_EXCL"]

/-- The pieces of a character list between the occurrences of the non-empty
separator `sep`, found from the left; `skip` counts the characters of a found
separator that are still to be passed. -/
def splitSep (sep : List Char) : Nat → List Char → List (List Char)
  | _, [] => [[]]
  | skip + 1, _ :: cs => splitSep sep skip cs
  | 0, c :: cs =>
    if sep.isPrefixOf (c :: cs) then [] :: splitSep sep (sep.length - 1) cs
    else
      match splitSep sep 0 cs with
      | [] => [[c]]
      | piece :: pieces => (c :: piece) :: pieces

/-- The call `strings.Split(s, sep)` for a non-empty `sep`. -/
def SplitOn (s sep : String) : List String :=
  (splitSep sep.data 0 s.data).map String.mk

/-- The call `bytes.Contains(l, sub)`. -/
def Contains (l sub : String) : Bool :=
  l.data.tails.any (fun t => sub.data.isPrefixOf t)

/-- The call `strings.Index(s, c)` for a one-character `c`: the position of its
first occurrence, or -1. -/
def Index (s : String) (c : Char) : Int :=
  match s.data.indexOf? c with
  | some i => (i : Int)
  | none => -1

/-- The call `strings.TrimPrefix(s, pre)`. -/
def TrimPrefix (s pre : String) : String :=
  if HasPrefix s pre then String.mk (s.data.drop pre.data.length) else s

/-- The first loop of `getPermission_open_syscall`: it returns at the first
flag of `rw_flags`. -/
def rwFlagLoop : List String → Option Permission
  | [] => none
  | f :: flags => if rw_flags.contains f then some { R := true, W := true } else rwFlagLoop flags

/-- The second loop of `getPermission_open_syscall`: it returns at the first
flag of `ro_flags`. -/
def roFlagLoop : List String → Option Permission
  | [] => none
  | f :: flags => if ro_flags.contains f then some { R := true } else roFlagLoop flags

/-- The function `getPermission_open_syscall`; `none` is the `nil` result. -/
def getPermission_open_syscall (flags_arg : String) : Option Permission :=
  let flags := SplitOn flags_arg "|"
  match rwFlagLoop flags with
  | some perm => some perm
  | none => roFlagLoop flags

/-- Extracts the arguments of a successful syscall (`getSyscallArguments`):
`none` is the panic of the slice `prot[left+1:right]` out of range, `some []`
the `nil` result. -/
def getSyscallArguments (prototype : String) : Option (List String) :=
  if Contains prototype "= -1" then some []
  else
    let left := Index prototype '('
    let right := Index prototype ')'
    if right < 0 ∨ left + 1 > right then none
    else
      let arguments :=
        SplitOn (String.mk ((prototype.data.take right.toNat).drop (left + 1).toNat)) ", "
      match arguments with
      | [] => some []
      | first :: others =>
        if HasPrefix first "#!" then some (TrimPrefix first "#!" :: others)
        else some (first :: others)

/-- The function `stripQuotes`. -/
def stripQuotes (quotedPath : String) : String :=
  if (goBytes quotedPath).length > 2 then
    String.mk ((quotedPath.data.drop 1).take (quotedPath.data.length - 2))
  else ""

/-- The number that `extractRequirements` gives to a line by its signature:
execve=1, open=2, openat=2, creat=3, link=4, mkdir=5, none=-1. -/
def syscallOf (l : String) : Int :=
  if Contains l "execve(" then 1
  else if Contains l "open(" || Contains l "openat(" then 2
  else if Contains l "creat(" then 3
  else if Contains l "link(" then 4
  else if Contains l "mkdir(" || Contains l "mkdirat(" then 5
  else -1

/-- The body of the loop of `extractRequirements` for one line: `none` is a
panic (of `getSyscallArguments` or of an index out of range), `some none` a
line that appends nothing, `some (some pms)` a line that appends `pms` to
`requirements`. -/
def extractLine (l : String) : Option (Option PolicyRow) :=
  let syscall := syscallOf l
  let pms : PolicyRow := { Req := "", Perm := {}, Origin := "" }
  match (if syscall != -1 then getSyscallArguments l else some []) with
  | none => none
  | some args =>
    if args.length == 0 then some none
    else
      let filled : Option PolicyRow :=
        if syscall == 1 then
          match args[0]? with
          | none => none
          | some a0 => some { pms with Req := stripQuotes a0, Perm := { R := true, X := true } }
        else if syscall == 2 then
          match args[1]? with
          | none => none
          | some a1 =>
            match args[2]? with
            | none => none
            | some flags =>
              match getPermission_open_syscall flags with
              | some perm => some { pms with Req := stripQuotes a1, Perm := perm }
              | none => some pms
        else if syscall == 3 then
          match args[1]? with
          | none => none
          | some a1 => some { pms with Req := stripQuotes a1, Perm := { R := true, W := true } }
        else if syscall == 4 then some pms
        else if syscall == 5 then
          match args[0]? with
          | none => none
          | some a0 => some { pms with Req := stripQuotes a0, Perm := { R := true, W := true } }
        else some pms
      match filled with
      | none => none
      | some pms => if syscall != -1 then some (some pms) else some none

/-- The loop of `extractRequirements` over the lines of the trace: the list
`requirements` that is passed to `AddStraceRequirements`, `none` when a line
panics. -/
def extractRequirements : List String → Option (List PolicyRow)
  | [] => some []
  | l :: lines =>
    match extractLine l with
    | none => none
    | some row =>
      match extractRequirements lines with
      | none => none
      | some rows =>
        match row with
        | none => some rows
        | some pms => some (pms :: rows)

/-! ## dmng.go: building the profiles of all the policies -/

/-- The loop of `BuildProfiles` over the policies, each given by its command
and the requirements `GetCommandRequirements` returns for it: the profiles in
order.  The package-level allow-sets are those that the previous calls of
`CreateTrie` left. -/
def buildProfilesLoop (username : String) (goal : Int) :
    AllowSets → List (String × List PolicyRow) → Option (List SecurityProfile)
  | _, [] => some []
  | A, (CMD, lof) :: policies =>
    match BuildSecurityProfile A username CMD lof goal with
    | none => none
    | some profile =>
      match buildProfilesLoop username goal (CreateTrie A username CMD lof).1 policies with
      | none => none
      | some profiles => some (profile :: profiles)

/-- The profiles that `BuildProfiles` builds in a fresh process. -/
def BuildProfiles (username : String) (goal : Int)
    (policies : List (String × List PolicyRow)) : Option (List SecurityProfile) :=
  buildProfilesLoop username goal initialAllowSets policies

/-! ## Vocabulary of the pruning steps -/

/-- A child that `_pruneRX` puts in `rx_nodes`: no children and a perm that
matches `_-_`. -/
def isRXTerminal (node : Node) : Bool :=
  !(node.connections.length != 0) && (node.perm.PermissionMatch "_-_" == some true)

/-- A child that `_pruneRW` puts in `rn_nodes`: a perm that matches `r-_` and
no children. -/
def isRNTerminal (node : Node) : Bool :=
  (node.perm.PermissionMatch "r-_" == some true) && node.connections.length == 0

/-- A child that `_pruneRW` puts in `rw_nodes`: a perm that matches `rw-` and
no children. -/
def isRWTerminal (node : Node) : Bool :=
  !(node.perm.PermissionMatch "r-_" == some true)
    && (node.perm.PermissionMatch "rw-" == some true) && node.connections.length == 0

mutual
/-- The keys of every map of the trie are distinct: no two children of a node
have the same name. -/
def keysUnique : Node → Bool
  | ⟨_, _, _, _, _, connections⟩ =>
    decide ((connections.map (fun c => c.name)).Nodup) && keysUniqueConnections connections
/-- The tries rooted in the nodes of a list have distinct keys. -/
def keysUniqueConnections : List Node → Bool
  | [] => true
  | node :: rest => keysUnique node && keysUniqueConnections rest
end

/-- The paths of the nodes of a trie whose perm has W, the root first. -/
def wPaths (n : Node) : List String :=
  ((allNodes n).filter (fun m => m.perm.W)).map (fun m => m.path)

/-- The path and W bit of every node of a trie, the root first. -/
def pathBits (n : Node) : List (String × Bool) :=
  (allNodes n).map (fun m => (m.path, m.perm.W))

mutual
/-- Every node of a trie with the child names that lead to it from the root,
after the names `pre` that lead to the root itself. -/
def nodesWithNames (pre : List String) : Node → List (List String × Node)
  | ⟨name, path, perm, origin, permissioned, connections⟩ =>
    (pre, ⟨name, path, perm, origin, permissioned, connections⟩)
      :: nodesWithNamesConnections pre connections
/-- The nodes of the tries rooted in the children of a node reached by `pre`. -/
def nodesWithNamesConnections (pre : List String) : List Node → List (List String × Node)
  | [] => []
  | node :: rest =>
    nodesWithNames (pre ++ [node.name]) node ++ nodesWithNamesConnections pre rest
end

/-- The path `"/" + n1 + "/" + ... + "/" + nk` of the names `n1, ..., nk`. -/
def pathOfNames (names : List String) : String :=
  names.foldl (fun p n => p ++ "/" ++ n) ""

/-- The trie of `/opt/app` (`rw-`) with the files `a` and `b` (`r-x`) in it. -/
def optAppTrie : AllowSets × Node :=
  CreateTrie initialAllowSets "alice" "cat"
    [⟨"/opt/app", permRW, USER_INPUT⟩, ⟨"/opt/app/a", permRX, STRACE_FILE⟩,
      ⟨"/opt/app/b", permRX, STRACE_FILE⟩]

/-- The trie of `/lib/a`, `/lib/b` and `/lib/c`, all `r-x`. -/
def libTrie : AllowSets × Node :=
  CreateTrie initialAllowSets "alice" "cat"
    [⟨"/lib/a", permRX, SHARED_LIBS⟩, ⟨"/lib/b", permRX, SHARED_LIBS⟩,
      ⟨"/lib/c", permRX, SHARED_LIBS⟩]

/-- The node `/lib` of `libTrie`. -/
def libNode : Node :=
  { name := "lib", path := "/lib", perm := {}, origin := "", permissioned := false,
    connections :=
      [createTrieNode "a" "/lib/a" permRX SHARED_LIBS true,
        createTrieNode "b" "/lib/b" permRX SHARED_LIBS true,
        createTrieNode "c" "/lib/c" permRX SHARED_LIBS true] }

/-- The trie of `/dev/null`, `/dev/zero` (both `rw-`) and `/dev/random` (`r--`). -/
def devMixedTrie : AllowSets × Node :=
  CreateTrie initialAllowSets "alice" "cat"
    [⟨"/dev/null", permRW, STRACE_FILE⟩, ⟨"/dev/zero", permRW, STRACE_FILE⟩,
      ⟨"/dev/random", permR, STRACE_FILE⟩]

/-- The node `/dev` of `devMixedTrie`. -/
def devMixedNode : Node :=
  { name := "dev", path := "/dev", perm := {}, origin := "", permissioned := false,
    connections :=
      [createTrieNode "null" "/dev/null" permRW STRACE_FILE true,
        createTrieNode "zero" "/dev/zero" permRW STRACE_FILE true,
        createTrieNode "random" "/dev/random" permR STRACE_FILE true] }

/-- The trie of one `rw-` file three levels below `/dev` and of `/etc/hostname`. -/
def usbHostTrie : AllowSets × Node :=
  CreateTrie initialAllowSets "alice" "cat"
    [⟨"/dev/bus/usb/f1", permRW, STRACE_FILE⟩, ⟨"/etc/hostname", permR, STRACE_FILE⟩]

/-- The trie of `/dev/random` and `/dev/urandom`, both `r--`. -/
def devReadTrie : AllowSets × Node :=
  CreateTrie initialAllowSets "alice" "cat"
    [⟨"/dev/random", permR, STRACE_FILE⟩, ⟨"/dev/urandom", permR, STRACE_FILE⟩]

/-- The requirements of a command that writes two files of `/tmp/editor`. -/
def viewerRules : List PolicyRow :=
  [⟨"/tmp/editor/x", permRW, STRACE_FILE⟩, ⟨"/tmp/editor/y", permRW, STRACE_FILE⟩]

/-! ## The flags that the passes return -/

theorem PruneRX_fst (A : AllowSets) (goal : Int) (root : Node) :
    (PruneRX A goal root).1 = decide (CountPermissionedNodes (PruneRX A goal root).2 ≤ goal) := by
  cases root
  simp [PruneRX]

theorem PruneRW_fst (A : AllowSets) (goal : Int) (root : Node) :
    (PruneRW A goal root).1 = decide (CountPermissionedNodes (PruneRW A goal root).2 ≤ goal) := by
  cases root
  simp [PruneRW]

/-! ## Structure lemmas for the trie -/

mutual
theorem Node.induction {P : Node → Prop}
    (h : ∀ n : Node, (∀ c ∈ n.connections, P c) → P n) : ∀ n : Node, P n
  | ⟨_, _, _, _, _, connections⟩ => h _ (Node.induction_connections h connections)
theorem Node.induction_connections {P : Node → Prop}
    (h : ∀ n : Node, (∀ c ∈ n.connections, P c) → P n) :
    ∀ connections : List Node, ∀ c ∈ connections, P c
  | [], _, hc => absurd hc (List.not_mem_nil _)
  | node :: rest, c, hc => by
    rcases List.mem_cons.1 hc with hc | hc
    · rw [hc]
      exact Node.induction h node
    · exact Node.induction_connections h rest c hc
end

theorem allNodes_eq (n : Node) : allNodes n = n :: allNodesConnections n.connections := by
  cases n
  simp [allNodes]

theorem mem_allNodesConnections (m : Node) (cs : List Node) :
    m ∈ allNodesConnections cs ↔ ∃ c ∈ cs, m ∈ allNodes c := by
  induction cs with
  | nil => simp [allNodesConnections]
  | cons c cs ih => simp [allNodesConnections, ih]

theorem mem_allNodes (m n : Node) :
    m ∈ allNodes n ↔ m = n ∨ ∃ c ∈ n.connections, m ∈ allNodes c := by
  rw [allNodes_eq, List.mem_cons, mem_allNodesConnections]

theorem pathsConsistent_eq (n : Node) :
    pathsConsistent n = pathsConsistentConnections n.path n.connections := by
  cases n
  simp [pathsConsistent]

theorem pathsConsistentConnections_iff (parent : String) (cs : List Node) :
    pathsConsistentConnections parent cs = true ↔
      ∀ c ∈ cs, c.path = parent ++ "/" ++ c.name ∧ pathsConsistent c = true := by
  induction cs with
  | nil => simp [pathsConsistentConnections]
  | cons c cs ih => simp [pathsConsistentConnections, ih, and_assoc]

theorem pathsConsistent_iff (n : Node) :
    pathsConsistent n = true ↔
      ∀ c ∈ n.connections, c.path = n.path ++ "/" ++ c.name ∧ pathsConsistent c = true := by
  rw [pathsConsistent_eq, pathsConsistentConnections_iff]

theorem HasPrefix_iff (s pre : String) : HasPrefix s pre = true ↔ pre.data <+: s.data := by
  simp [HasPrefix]

/-- In a trie with consistent paths every node lies at or below the root's path. -/
theorem path_of_mem_allNodes :
    ∀ n : Node, pathsConsistent n = true → ∀ m ∈ allNodes n,
      isSelfOrAncestor n.path m.path = true := by
  intro n
  induction n using Node.induction with
  | h n ih =>
    intro hwf m hm
    rcases (mem_allNodes m n).1 hm with rfl | ⟨c, hc, hmc⟩
    · simp [isSelfOrAncestor]
    · obtain ⟨hpath, hcwf⟩ := (pathsConsistent_iff n).1 hwf c hc
      have hrec := ih c hc hcwf m hmc
      simp only [isSelfOrAncestor, Bool.or_eq_true, beq_iff_eq, HasPrefix_iff] at hrec ⊢
      right
      have hbase : (n.path ++ "/").data <+: c.path.data := by
        rw [hpath]
        simp [String.data_append]
      rcases hrec with h | h
      · rw [h]; exact hbase
      · refine List.IsPrefix.trans ?_ h
        refine List.IsPrefix.trans hbase ?_
        simp [String.data_append]

/-! ## The pruner keeps paths consistent -/

theorem pathsConsistent_of_connections_subset (r r' : Node) (hwf : pathsConsistent r = true)
    (hpath : r'.path = r.path) (hsub : ∀ c ∈ r'.connections, c ∈ r.connections) :
    pathsConsistent r' = true := by
  rw [pathsConsistent_iff] at hwf ⊢
  intro c hc
  rw [hpath]
  exact hwf c (hsub c hc)

theorem pathsConsistent_of_connections_map (path : String) (cs cs' : List Node) (f : Node → Node)
    (hcs : cs' = cs.map f)
    (hf : ∀ c ∈ cs, (f c).path = c.path ∧ (f c).name = c.name ∧ pathsConsistent (f c) = true)
    (hwf : pathsConsistentConnections path cs = true) :
    pathsConsistentConnections path cs' = true := by
  rw [pathsConsistentConnections_iff] at hwf ⊢
  intro c' hc'
  rw [hcs, List.mem_map] at hc'
  obtain ⟨c, hc, rfl⟩ := hc'
  obtain ⟨h1, h2, h3⟩ := hf c hc
  refine ⟨?_, h3⟩
  rw [h1, h2]
  exact (hwf c hc).1

theorem mem_deleteKeys (keys : List String) (cs : List Node) (c : Node)
    (h : c ∈ deleteKeys keys cs) : c ∈ cs := by
  unfold deleteKeys at h
  exact (List.mem_filter.1 h).1

theorem pruneRXRoot_path (r : Node) : (pruneRXRoot r).path = r.path := by
  unfold pruneRXRoot
  dsimp only
  split <;> rfl

theorem pruneRXRoot_name (r : Node) : (pruneRXRoot r).name = r.name := by
  unfold pruneRXRoot
  dsimp only
  split <;> rfl

theorem pruneRXRoot_connections (r : Node) :
    ∀ c ∈ (pruneRXRoot r).connections, c ∈ r.connections := by
  unfold pruneRXRoot
  dsimp only
  split
  · exact fun c hc => hc
  · exact fun c hc => mem_deleteKeys _ _ c hc

theorem pruneRWRoot_path (r : Node) : (pruneRWRoot r).path = r.path := by
  unfold pruneRWRoot
  dsimp only
  split
  · split <;> rfl
  · rfl

theorem pruneRWRoot_name (r : Node) : (pruneRWRoot r).name = r.name := by
  unfold pruneRWRoot
  dsimp only
  split
  · split <;> rfl
  · rfl

theorem pruneRWRoot_connections (r : Node) :
    ∀ c ∈ (pruneRWRoot r).connections, c ∈ r.connections := by
  unfold pruneRWRoot
  dsimp only
  split
  · split
    · exact fun c hc => mem_deleteKeys _ _ c hc
    · exact fun c hc => hc
  · exact fun c hc => mem_deleteKeys _ _ c (mem_deleteKeys _ _ c hc)

theorem _pruneRXConnections_eq (cs : List Node) :
    _pruneRXConnections cs = cs.map (fun node => if !node.isLeaf then _pruneRX node else node) := by
  induction cs with
  | nil => simp [_pruneRXConnections]
  | cons c cs ih => simp [_pruneRXConnections, ih]

theorem _pruneRWConnections_eq (cs : List Node) :
    _pruneRWConnections cs = cs.map (fun node => if !node.isLeaf then _pruneRW node else node) := by
  induction cs with
  | nil => simp [_pruneRWConnections]
  | cons c cs ih => simp [_pruneRWConnections, ih]

theorem _pruneRX_eq (n : Node) :
    _pruneRX n =
      if n.connections.length == 0 then n
      else pruneRXRoot { n with connections := _pruneRXConnections n.connections } := by
  cases n
  simp [_pruneRX]

theorem _pruneRW_eq (n : Node) :
    _pruneRW n =
      if n.connections.length == 0 then n
      else pruneRWRoot { n with connections := _pruneRWConnections n.connections } := by
  cases n
  simp [_pruneRW]

theorem _pruneRX_path (n : Node) : (_pruneRX n).path = n.path := by
  rw [_pruneRX_eq]
  split
  · rfl
  · rw [pruneRXRoot_path]

theorem _pruneRX_name (n : Node) : (_pruneRX n).name = n.name := by
  rw [_pruneRX_eq]
  split
  · rfl
  · rw [pruneRXRoot_name]

theorem _pruneRW_path (n : Node) : (_pruneRW n).path = n.path := by
  rw [_pruneRW_eq]
  split
  · rfl
  · rw [pruneRWRoot_path]

theorem _pruneRW_name (n : Node) : (_pruneRW n).name = n.name := by
  rw [_pruneRW_eq]
  split
  · rfl
  · rw [pruneRWRoot_name]

theorem pathsConsistent__pruneRX :
    ∀ n : Node, pathsConsistent n = true → pathsConsistent (_pruneRX n) = true := by
  intro n
  induction n using Node.induction with
  | h n ih =>
    intro hwf
    rw [_pruneRX_eq]
    split
    · exact hwf
    · refine pathsConsistent_of_connections_subset _ _ ?_ (pruneRXRoot_path _)
        (pruneRXRoot_connections _)
      rw [pathsConsistent_eq] at hwf ⊢
      refine pathsConsistent_of_connections_map _ n.connections _ _
        (_pruneRXConnections_eq n.connections) ?_ hwf
      intro c hc
      have hc' := ((pathsConsistentConnections_iff _ _).1 hwf c hc).2
      split
      · exact ⟨_pruneRX_path c, _pruneRX_name c, ih c hc hc'⟩
      · exact ⟨rfl, rfl, hc'⟩

theorem pathsConsistent__pruneRW :
    ∀ n : Node, pathsConsistent n = true → pathsConsistent (_pruneRW n) = true := by
  intro n
  induction n using Node.induction with
  | h n ih =>
    intro hwf
    rw [_pruneRW_eq]
    split
    · exact hwf
    · refine pathsConsistent_of_connections_subset _ _ ?_ (pruneRWRoot_path _)
        (pruneRWRoot_connections _)
      rw [pathsConsistent_eq] at hwf ⊢
      refine pathsConsistent_of_connections_map _ n.connections _ _
        (_pruneRWConnections_eq n.connections) ?_ hwf
      intro c hc
      have hc' := ((pathsConsistentConnections_iff _ _).1 hwf c hc).2
      split
      · exact ⟨_pruneRW_path c, _pruneRW_name c, ih c hc hc'⟩
      · exact ⟨rfl, rfl, hc'⟩

theorem PruneRXConnections_eq (A : AllowSets) (goal : Int) (cs : List Node) :
    PruneRXConnections A goal cs = cs.map (pruneRXChild A goal) := by
  induction cs with
  | nil => simp [PruneRXConnections]
  | cons c cs ih => simp [PruneRXConnections, ih, pruneRXChild]

theorem PruneRWConnections_eq (A : AllowSets) (goal : Int) (cs : List Node) :
    PruneRWConnections A goal cs = cs.map (pruneRWChild A goal) := by
  induction cs with
  | nil => simp [PruneRWConnections]
  | cons c cs ih => simp [PruneRWConnections, ih, pruneRWChild]

theorem PruneRX_snd (A : AllowSets) (goal : Int) (n : Node) :
    (PruneRX A goal n).2 = { n with connections := n.connections.map (pruneRXChild A goal) } := by
  cases n
  simp [PruneRX, PruneRXConnections_eq]

theorem PruneRW_snd (A : AllowSets) (goal : Int) (n : Node) :
    (PruneRW A goal n).2 = { n with connections := n.connections.map (pruneRWChild A goal) } := by
  cases n
  simp [PruneRW, PruneRWConnections_eq]

theorem pathsConsistent_PruneRX (A : AllowSets) (goal : Int) :
    ∀ n : Node, pathsConsistent n = true → pathsConsistent (PruneRX A goal n).2 = true := by
  intro n
  induction n using Node.induction with
  | h n ih =>
    intro hwf
    rw [PruneRX_snd, pathsConsistent_eq]
    rw [pathsConsistent_eq] at hwf
    refine pathsConsistent_of_connections_map _ n.connections _ _ rfl ?_ hwf
    intro c hc
    have hc' := ((pathsConsistentConnections_iff _ _).1 hwf c hc).2
    unfold pruneRXChild
    split
    · exact ⟨_pruneRX_path c, _pruneRX_name c, pathsConsistent__pruneRX c hc'⟩
    · split
      · refine ⟨?_, ?_, ih c hc hc'⟩ <;> rw [PruneRX_snd]
      · exact ⟨rfl, rfl, hc'⟩

theorem pathsConsistent_PruneRW (A : AllowSets) (goal : Int) :
    ∀ n : Node, pathsConsistent n = true → pathsConsistent (PruneRW A goal n).2 = true := by
  intro n
  induction n using Node.induction with
  | h n ih =>
    intro hwf
    rw [PruneRW_snd, pathsConsistent_eq]
    rw [pathsConsistent_eq] at hwf
    refine pathsConsistent_of_connections_map _ n.connections _ _ rfl ?_ hwf
    intro c hc
    have hc' := ((pathsConsistentConnections_iff _ _).1 hwf c hc).2
    unfold pruneRWChild
    split
    · exact ⟨_pruneRW_path c, _pruneRW_name c, pathsConsistent__pruneRW c hc'⟩
    · split
      · refine ⟨?_, ?_, ih c hc hc'⟩ <;> rw [PruneRW_snd]
      · exact ⟨rfl, rfl, hc'⟩

/-! ## The pruner leaves the nodes outside the allow-sets alone -/

theorem underAllowEntry_of_mem_allNodes (A : AllowSets) (c m : Node)
    (hc : c.path ∈ A.read ++ A.write) (hwf : pathsConsistent c = true) (hm : m ∈ allNodes c) :
    underAllowEntry A m.path = true := by
  unfold underAllowEntry
  rw [List.any_eq_true]
  exact ⟨c.path, hc, path_of_mem_allNodes c hwf m hm⟩

theorem sameLabels_refl (n : Node) : sameLabels n n :=
  ⟨rfl, rfl, rfl, rfl, rfl⟩

theorem keepsOutside_refl (A : AllowSets) (n : Node) : keepsOutside A n n :=
  fun m hm _ => ⟨m, hm, sameLabels_refl m⟩

theorem keepsOutside_trans (A : AllowSets) (n₁ n₂ n₃ : Node)
    (h₁ : keepsOutside A n₁ n₂) (h₂ : keepsOutside A n₂ n₃) : keepsOutside A n₁ n₃ := by
  intro m hm hout
  obtain ⟨m₂, hm₂, hl₂⟩ := h₁ m hm hout
  have hout₂ : underAllowEntry A m₂.path = false := by rw [hl₂.1]; exact hout
  obtain ⟨m₃, hm₃, hl₃⟩ := h₂ m₂ hm₂ hout₂
  refine ⟨m₃, hm₃, ?_⟩
  obtain ⟨a1, a2, a3, a4, a5⟩ := hl₂
  obtain ⟨b1, b2, b3, b4, b5⟩ := hl₃
  exact ⟨b1.trans a1, b2.trans a2, b3.trans a3, b4.trans a4, b5.trans a5⟩

theorem keepsOutside_PruneRX (A : AllowSets) (goal : Int) :
    ∀ n : Node, pathsConsistent n = true → keepsOutside A n (PruneRX A goal n).2 := by
  intro n
  induction n using Node.induction with
  | h n ih =>
    intro hwf m hm hout
    rcases (mem_allNodes m n).1 hm with rfl | ⟨c, hc, hmc⟩
    · refine ⟨(PruneRX A goal m).2, ?_, ?_⟩
      · exact (mem_allNodes _ _).2 (Or.inl rfl)
      · rw [PruneRX_snd]
        exact ⟨rfl, rfl, rfl, rfl, rfl⟩
    · have hcwf := ((pathsConsistent_iff n).1 hwf c hc).2
      have hchild : ∃ m' ∈ allNodes (pruneRXChild A goal c), sameLabels m m' := by
        unfold pruneRXChild
        split
        · rename_i hallow
          have hmem : c.path ∈ A.read ++ A.write := by
            simp [isAllowCoarseRead] at hallow
            exact List.mem_append_left _ hallow
          rw [underAllowEntry_of_mem_allNodes A c m hmem hcwf hmc] at hout
          exact absurd hout (by decide)
        · split
          · exact ih c hc hcwf m hmc hout
          · exact ⟨m, hmc, sameLabels_refl m⟩
      obtain ⟨m', hm', hl⟩ := hchild
      refine ⟨m', ?_, hl⟩
      rw [PruneRX_snd]
      exact (mem_allNodes _ _).2 (Or.inr ⟨_, List.mem_map_of_mem _ hc, hm'⟩)

theorem keepsOutside_PruneRW (A : AllowSets) (goal : Int) :
    ∀ n : Node, pathsConsistent n = true → keepsOutside A n (PruneRW A goal n).2 := by
  intro n
  induction n using Node.induction with
  | h n ih =>
    intro hwf m hm hout
    rcases (mem_allNodes m n).1 hm with rfl | ⟨c, hc, hmc⟩
    · refine ⟨(PruneRW A goal m).2, ?_, ?_⟩
      · exact (mem_allNodes _ _).2 (Or.inl rfl)
      · rw [PruneRW_snd]
        exact ⟨rfl, rfl, rfl, rfl, rfl⟩
    · have hcwf := ((pathsConsistent_iff n).1 hwf c hc).2
      have hchild : ∃ m' ∈ allNodes (pruneRWChild A goal c), sameLabels m m' := by
        unfold pruneRWChild
        split
        · rename_i hallow
          have hmem : c.path ∈ A.read ++ A.write := by
            simp [isAllowCoarseWrite] at hallow
            exact List.mem_append_right _ hallow
          rw [underAllowEntry_of_mem_allNodes A c m hmem hcwf hmc] at hout
          exact absurd hout (by decide)
        · split
          · exact ih c hc hcwf m hmc hout
          · exact ⟨m, hmc, sameLabels_refl m⟩
      obtain ⟨m', hm', hl⟩ := hchild
      refine ⟨m', ?_, hl⟩
      rw [PruneRW_snd]
      exact (mem_allNodes _ _).2 (Or.inr ⟨_, List.mem_map_of_mem _ hc, hm'⟩)

/-! ## Tries built by `CreateTrie` have consistent paths -/

theorem mem_storeChild (name : String) (child : Node) (cs : List Node) (x : Node)
    (hx : x ∈ storeChild name child cs) : x = child ∨ x ∈ cs := by
  induction cs with
  | nil => simp [storeChild] at hx
  | cons c cs ih =>
    unfold storeChild at hx
    split at hx
    · rcases List.mem_cons.1 hx with h | h
      · exact Or.inl h
      · exact Or.inr (List.mem_cons_of_mem _ h)
    · rcases List.mem_cons.1 hx with h | h
      · exact Or.inr (h ▸ List.mem_cons_self _ _)
      · rcases ih h with h | h
        · exact Or.inl h
        · exact Or.inr (List.mem_cons_of_mem _ h)

theorem addRequirementLoop_found (last_name : String) (perm : Permission) (origin : String)
    (name : String) (names : List String) (incremental_path : String) (currnode child : Node)
    (h : lookupChild name currnode.connections = some child) :
    ∃ c : Node, c.path = child.path ∧ c.name = child.name ∧ c.connections = child.connections ∧
      addRequirementLoop last_name perm origin (name :: names) incremental_path currnode
        = { currnode with
            connections :=
              storeChild name (addRequirementLoop last_name perm origin names c.path c)
                currnode.connections } := by
  rw [addRequirementLoop]
  simp only [h]
  by_cases hl : (last_name == name) = true
  · simp only [hl, if_true]
    exact ⟨{ child with perm := perm, permissioned := true, origin := origin },
      rfl, rfl, rfl, rfl⟩
  · simp only [hl]
    exact ⟨child, rfl, rfl, rfl, rfl⟩

theorem addRequirementLoop_missing (last_name : String) (perm : Permission) (origin : String)
    (name : String) (names : List String) (incremental_path : String) (currnode : Node)
    (h : lookupChild name currnode.connections = none) :
    ∃ c : Node, c.path = incremental_path ++ "/" ++ name ∧ c.name = name ∧ c.connections = [] ∧
      addRequirementLoop last_name perm origin (name :: names) incremental_path currnode
        = { currnode with
            connections := currnode.connections ++
              [addRequirementLoop last_name perm origin names
                (incremental_path ++ "/" ++ name) c] } := by
  rw [addRequirementLoop]
  simp only [h]
  by_cases hl : (name == last_name) = true
  · simp only [hl, if_true]
    exact ⟨{ createTrieNode name (incremental_path ++ "/" ++ name) {} "" false with
        perm := perm, origin := origin, permissioned := true }, rfl, rfl, rfl, rfl⟩
  · simp only [hl]
    exact ⟨createTrieNode name (incremental_path ++ "/" ++ name) {} "" false,
      rfl, rfl, rfl, rfl⟩

theorem pathsConsistent_addRequirementLoop (last_name : String) (perm : Permission)
    (origin : String) :
    ∀ (names : List String) (incremental_path : String) (currnode : Node),
      incremental_path = currnode.path → pathsConsistent currnode = true →
      (addRequirementLoop last_name perm origin names incremental_path currnode).path
          = currnode.path
        ∧ (addRequirementLoop last_name perm origin names incremental_path currnode).name
          = currnode.name
        ∧ pathsConsistent
          (addRequirementLoop last_name perm origin names incremental_path currnode) = true := by
  intro names
  induction names with
  | nil =>
    intro ip node _ hwf
    exact ⟨rfl, rfl, hwf⟩
  | cons name rest ih =>
    intro ip node hip hwf
    cases hfind : lookupChild name node.connections with
    | some child =>
      have hmem : child ∈ node.connections := List.mem_of_find?_eq_some hfind
      obtain ⟨hcpath, hcwf⟩ := (pathsConsistent_iff node).1 hwf child hmem
      obtain ⟨c, h1, h2, h3, heq⟩ :=
        addRequirementLoop_found last_name perm origin name rest ip node child hfind
      have hc : pathsConsistent c = true := by
        rw [pathsConsistent_eq, h1, h3, ← pathsConsistent_eq]
        exact hcwf
      obtain ⟨a, b, d⟩ := ih c.path c rfl hc
      rw [heq]
      refine ⟨rfl, rfl, ?_⟩
      rw [pathsConsistent_iff]
      intro x hx
      rcases mem_storeChild _ _ _ x hx with hx | hx
      · rw [hx]
        refine ⟨?_, d⟩
        rw [a, b, h1, h2]
        exact hcpath
      · exact (pathsConsistent_iff node).1 hwf x hx
    | none =>
      obtain ⟨c, h1, h2, h3, heq⟩ :=
        addRequirementLoop_missing last_name perm origin name rest ip node hfind
      have hc : pathsConsistent c = true := by
        rw [pathsConsistent_eq, h3]
        rfl
      obtain ⟨a, b, d⟩ := ih (ip ++ "/" ++ name) c h1.symm hc
      rw [heq]
      refine ⟨rfl, rfl, ?_⟩
      rw [pathsConsistent_iff]
      intro x hx
      rcases List.mem_append.1 hx with hx | hx
      · exact (pathsConsistent_iff node).1 hwf x hx
      · rw [List.mem_singleton] at hx
        rw [hx]
        refine ⟨?_, d⟩
        rw [a, b, h1, h2, hip]

theorem pathsConsistent_addRequirement (root : Node) (req : String) (perm : Permission)
    (origin : String) (hwf : pathsConsistent root = true) :
    pathsConsistent (addRequirement root req perm origin) = true := by
  unfold addRequirement
  split
  · exact hwf
  · exact (pathsConsistent_addRequirementLoop _ perm origin _ root.path root rfl hwf).2.2

/-- Every trie that `CreateTrie` builds has consistent paths. -/
theorem pathsConsistent_CreateTrie (A : AllowSets) (username command : String)
    (requirements : List PolicyRow) :
    pathsConsistent (CreateTrie A username command requirements).2 = true := by
  unfold CreateTrie
  dsimp only
  generalize hroot : createTrieNode "/" "" {} "" false = root
  have hwf : pathsConsistent root = true := by rw [← hroot]; rfl
  clear hroot
  induction requirements generalizing root with
  | nil => exact hwf
  | cons r rs ih =>
    rw [List.foldl_cons]
    exact ih _ (pathsConsistent_addRequirement root r.Req r.Perm r.Origin hwf)

/-! ## The dedup pass of the table RULE -/

theorem foldl_max_ge_init (xs : List Int) (x : Int) : x ≤ xs.foldl max x := by
  induction xs generalizing x with
  | nil => exact le_refl x
  | cons y ys ih => exact le_trans (le_max_left x y) (ih (max x y))

theorem foldl_max_ge_mem (xs : List Int) (x : Int) : ∀ y ∈ xs, y ≤ xs.foldl max x := by
  induction xs generalizing x with
  | nil => intro y hy; exact absurd hy (List.not_mem_nil y)
  | cons z zs ih =>
    intro y hy
    rcases List.mem_cons.1 hy with rfl | hy
    · exact le_trans (le_max_right x y) (foldl_max_ge_init zs (max x y))
    · exact ih (max x z) y hy

theorem foldl_max_mem (xs : List Int) (x : Int) : xs.foldl max x ∈ x :: xs := by
  induction xs generalizing x with
  | nil => simp
  | cons z zs ih =>
    have h := ih (max x z)
    rcases List.mem_cons.1 h with h | h
    · rw [List.foldl_cons, h]
      rcases max_choice x z with hx | hz
      · rw [hx]; simp
      · rw [hz]; simp
    · exact List.mem_cons_of_mem _ (List.mem_cons_of_mem _ h)

theorem sqlMax_eq_some_iff (l : List Int) (m : Int) :
    sqlMax l = some m ↔ m ∈ l ∧ ∀ x ∈ l, x ≤ m := by
  cases l with
  | nil => simp [sqlMax]
  | cons x xs =>
    simp only [sqlMax, Option.some.injEq]
    constructor
    · rintro rfl
      refine ⟨foldl_max_mem xs x, ?_⟩
      intro y hy
      rcases List.mem_cons.1 hy with rfl | hy
      · exact foldl_max_ge_init xs y
      · exact foldl_max_ge_mem xs x y hy
    · rintro ⟨hm, hle⟩
      apply le_antisymm
      · exact hle _ (foldl_max_mem xs x)
      · rcases List.mem_cons.1 hm with rfl | hm
        · exact foldl_max_ge_init xs m
        · exact foldl_max_ge_mem xs x m hm

theorem sqlMax_isSome (l : List Int) (h : l ≠ []) : ∃ m, sqlMax l = some m := by
  cases l with
  | nil => exact absurd rfl h
  | cons x xs => exact ⟨_, rfl⟩

theorem sqlLess_sqlMax_iff (v : Int) (l : List Int) :
    sqlLess v (sqlMax l) = true ↔ ∃ x ∈ l, v < x := by
  cases hm : sqlMax l with
  | none =>
    cases l with
    | nil => simp [sqlLess]
    | cons x xs => simp [sqlMax] at hm
  | some m =>
    obtain ⟨hmem, hle⟩ := (sqlMax_eq_some_iff l m).1 hm
    simp only [sqlLess, decide_eq_true_eq]
    constructor
    · intro h; exact ⟨m, hmem, h⟩
    · rintro ⟨x, hx, hlt⟩; exact lt_of_lt_of_le hlt (hle x hx)

theorem isLeastp_iff (pol : Int) (rows : List RuleRow) (R : RuleRow) :
    isLeastp pol rows R = true ↔
      R.pol = pol ∧ ∃ r ∈ rows, r.req = R.req ∧ r.pol = R.pol ∧ R.perm < r.perm := by
  unfold isLeastp
  rw [sqlLess_sqlMax_iff]
  constructor
  · rintro ⟨x, hx, hlt⟩
    rw [List.mem_map] at hx
    obtain ⟨r, hr, rfl⟩ := hx
    rw [List.mem_filter] at hr
    obtain ⟨hr, hp⟩ := hr
    simp only [Bool.and_eq_true, beq_iff_eq] at hp
    exact ⟨hp.1.2 ▸ hp.2, r, hr, hp.1.1, hp.1.2, hlt⟩
  · rintro ⟨hpol, r, hr, h1, h2, hlt⟩
    refine ⟨r.perm, ?_, hlt⟩
    rw [List.mem_map]
    refine ⟨r, ?_, rfl⟩
    rw [List.mem_filter]
    refine ⟨hr, ?_⟩
    simp only [Bool.and_eq_true, beq_iff_eq]
    exact ⟨⟨h1, h2⟩, h2.trans hpol⟩

theorem rule_injOn (rows : List RuleRow) (hpk : (rows.map (fun r => r.rule)).Nodup) :
    ∀ r ∈ rows, ∀ r' ∈ rows, r.rule = r'.rule → r = r' :=
  fun _ hr _ hr' h => List.inj_on_of_nodup_map hpk hr hr' h

theorem remove_leastp_eq (pol : Int) (rows : List RuleRow)
    (hpk : (rows.map (fun r => r.rule)).Nodup) :
    remove_leastp pol rows = rows.filter (fun r => !(isLeastp pol rows r)) := by
  unfold remove_leastp
  apply List.filter_congr
  intro x hx
  congr 1
  rw [Bool.eq_iff_iff, List.contains_iff_exists_mem_beq]
  constructor
  · rintro ⟨i, hi, hbeq⟩
    rw [List.mem_map] at hi
    obtain ⟨R, hR, rfl⟩ := hi
    rw [List.mem_filter] at hR
    have : x = R := rule_injOn rows hpk x hx R hR.1 (by simpa using hbeq)
    rw [this]
    exact hR.2
  · intro h
    exact ⟨x.rule, List.mem_map.2 ⟨x, List.mem_filter.2 ⟨hx, h⟩, rfl⟩, by simp⟩

theorem groupOf_congr (rows : List RuleRow) (R R' : RuleRow) (h1 : R.pol = R'.pol)
    (h2 : R.req = R'.req) (h3 : R.perm = R'.perm) : groupOf rows R = groupOf rows R' := by
  unfold groupOf
  rw [h1, h2, h3]

theorem mem_groupOf (rows : List RuleRow) (R r : RuleRow) :
    r ∈ groupOf rows R ↔ r ∈ rows ∧ r.pol = R.pol ∧ r.req = R.req ∧ r.perm = R.perm := by
  unfold groupOf
  rw [List.mem_filter]
  simp only [Bool.and_eq_true, beq_iff_eq, and_assoc]

theorem bareColumn_groupOf (bareColumn : List RuleRow → Nat) (hpick : bareColumnValid bareColumn)
    (rows : List RuleRow) (R : RuleRow) (hR : R ∈ rows) :
    ∃ s ∈ rows, s.pol = R.pol ∧ s.req = R.req ∧ s.perm = R.perm
      ∧ bareColumn (groupOf rows R) = s.rule := by
  have hne : groupOf rows R ≠ [] := by
    intro h
    have : R ∈ groupOf rows R := (mem_groupOf rows R R).2 ⟨hR, rfl, rfl, rfl⟩
    rw [h] at this
    exact absurd this (List.not_mem_nil R)
  obtain ⟨s, hs, hp⟩ := hpick _ hne
  obtain ⟨h0, h1, h2, h3⟩ := (mem_groupOf rows R s).1 hs
  exact ⟨s, h0, h1, h2, h3, hp⟩

theorem remove_dups_eq (bareColumn : List RuleRow → Nat) (hpick : bareColumnValid bareColumn)
    (rows : List RuleRow) (hpk : (rows.map (fun r => r.rule)).Nodup) :
    remove_dups bareColumn rows
      = rows.filter (fun r => bareColumn (groupOf rows r) == r.rule) := by
  unfold remove_dups
  apply List.filter_congr
  intro x hx
  rw [Bool.eq_iff_iff, List.contains_iff_exists_mem_beq]
  constructor
  · rintro ⟨i, hi, hbeq⟩
    rw [List.mem_map] at hi
    obtain ⟨R, hR, rfl⟩ := hi
    obtain ⟨s, hs, h1, h2, h3, hp⟩ := bareColumn_groupOf bareColumn hpick rows R hR
    have hxs : x = s := rule_injOn rows hpk x hx s hs (by rw [← hp]; simpa using hbeq)
    rw [groupOf_congr rows x R (hxs ▸ h1) (hxs ▸ h2) (hxs ▸ h3), hp, hxs]
    simp
  · intro h
    exact ⟨_, List.mem_map.2 ⟨x, hx, rfl⟩, by rw [beq_iff_eq] at h ⊢; exact h.symm⟩

theorem nodup_of_nodup_rule (rows : List RuleRow) (hpk : (rows.map (fun r => r.rule)).Nodup) :
    rows.Nodup :=
  List.Nodup.of_map _ hpk

theorem nodup_rule_filter (rows : List RuleRow) (p : RuleRow → Bool)
    (hpk : (rows.map (fun r => r.rule)).Nodup) :
    ((rows.filter p).map (fun r => r.rule)).Nodup :=
  List.Nodup.sublist (List.Sublist.map _ (List.filter_sublist rows)) hpk

theorem nodup_rule_remove_leastp (pol : Int) (rows : List RuleRow)
    (hpk : (rows.map (fun r => r.rule)).Nodup) :
    ((remove_leastp pol rows).map (fun r => r.rule)).Nodup := by
  unfold remove_leastp
  exact nodup_rule_filter rows _ hpk

theorem nodup_rule_remove_dups (bareColumn : List RuleRow → Nat) (rows : List RuleRow)
    (hpk : (rows.map (fun r => r.rule)).Nodup) :
    ((remove_dups bareColumn rows).map (fun r => r.rule)).Nodup := by
  unfold remove_dups
  exact nodup_rule_filter rows _ hpk

theorem nodup_rule_ruleTablePostProcessing (bareColumn : List RuleRow → Nat) (pol : Int)
    (rows : List RuleRow) (hpk : (rows.map (fun r => r.rule)).Nodup) :
    ((ruleTablePostProcessing bareColumn pol rows).map (fun r => r.rule)).Nodup := by
  unfold ruleTablePostProcessing
  exact nodup_rule_remove_dups _ _ (nodup_rule_remove_leastp pol rows hpk)

/-- Membership in the table after the dedup pass. -/
theorem mem_ruleTablePostProcessing (bareColumn : List RuleRow → Nat)
    (hpick : bareColumnValid bareColumn) (pol : Int) (rows : List RuleRow)
    (hpk : (rows.map (fun r => r.rule)).Nodup) (r : RuleRow) :
    r ∈ ruleTablePostProcessing bareColumn pol rows ↔
      r ∈ rows ∧ isLeastp pol rows r = false
        ∧ bareColumn (groupOf (remove_leastp pol rows) r) = r.rule := by
  unfold ruleTablePostProcessing
  rw [remove_dups_eq bareColumn hpick _ (nodup_rule_remove_leastp pol rows hpk), List.mem_filter]
  rw [remove_leastp_eq pol rows hpk, List.mem_filter]
  simp only [Bool.not_eq_true', beq_iff_eq, and_assoc]

theorem eq_singleton_of_nodup {α : Type} (l : List α) (s : α) (hnd : l.Nodup)
    (hall : ∀ x ∈ l, x = s) (hs : s ∈ l) : l = [s] := by
  match l, hnd, hall, hs with
  | [], _, _, hs => exact absurd hs (List.not_mem_nil s)
  | [a], _, hall, _ => rw [hall a (by simp)]
  | a :: b :: t, hnd, hall, _ =>
    have ha := hall a (by simp)
    have hb := hall b (by simp)
    rw [List.nodup_cons] at hnd
    exact absurd (by rw [ha, hb]; simp) hnd.1

theorem mem_rowsOf (rows : List RuleRow) (pol : Int) (req : String) (r : RuleRow) :
    r ∈ rowsOf rows pol req ↔ r ∈ rows ∧ r.pol = pol ∧ r.req = req := by
  unfold rowsOf
  rw [List.mem_filter]
  simp only [Bool.and_eq_true, beq_iff_eq]

/-- After the dedup pass the pair `(pol, req)` of the processed policy has
exactly one row, and it carries the largest perm the pair had. -/
theorem rowsOf_ruleTablePostProcessing (bareColumn : List RuleRow → Nat)
    (hpick : bareColumnValid bareColumn) (pol : Int) (rows : List RuleRow)
    (hpk : (rows.map (fun r => r.rule)).Nodup) (req : String)
    (hex : ∃ r ∈ rows, r.pol = pol ∧ r.req = req) :
    ∃ s, rowsOf (ruleTablePostProcessing bareColumn pol rows) pol req = [s]
      ∧ sqlMax ((rowsOf rows pol req).map (fun r => r.perm)) = some s.perm := by
  -- the largest perm of the pair and a row that carries it
  have hne : (rowsOf rows pol req).map (fun r => r.perm) ≠ [] := by
    obtain ⟨r, hr, h1, h2⟩ := hex
    intro h
    have : r.perm ∈ (rowsOf rows pol req).map (fun r => r.perm) :=
      List.mem_map.2 ⟨r, (mem_rowsOf rows pol req r).2 ⟨hr, h1, h2⟩, rfl⟩
    rw [h] at this
    exact absurd this (List.not_mem_nil _)
  obtain ⟨M, hM⟩ := sqlMax_isSome _ hne
  obtain ⟨hMmem, hMle⟩ := (sqlMax_eq_some_iff _ M).1 hM
  rw [List.mem_map] at hMmem
  obtain ⟨t, ht, htM⟩ := hMmem
  obtain ⟨htrows, htpol, htreq⟩ := (mem_rowsOf rows pol req t).1 ht
  -- rows of the pair that survive the first statement carry the largest perm
  have hsurv : ∀ r ∈ rows, r.pol = pol → r.req = req → isLeastp pol rows r = false →
      r.perm = M := by
    intro r hr h1 h2 hl
    have hle := hMle r.perm (List.mem_map.2 ⟨r, (mem_rowsOf rows pol req r).2 ⟨hr, h1, h2⟩, rfl⟩)
    rcases lt_or_eq_of_le hle with hlt | heq
    · have : isLeastp pol rows r = true :=
        (isLeastp_iff pol rows r).2
          ⟨h1, t, htrows, htreq.trans h2.symm, htpol.trans h1.symm, htM ▸ hlt⟩
      rw [this] at hl
      exact absurd hl (by decide)
    · exact heq
  have htkeep : isLeastp pol rows t = false := by
    rw [Bool.eq_false_iff]
    intro h
    obtain ⟨_, r, hr, h1, h2, hlt⟩ := (isLeastp_iff pol rows t).1 h
    have hle := hMle r.perm (List.mem_map.2
      ⟨r, (mem_rowsOf rows pol req r).2 ⟨hr, h2.trans htpol, h1.trans htreq⟩, rfl⟩)
    rw [htM] at hlt
    exact absurd hlt (not_lt.mpr hle)
  have ht1 : t ∈ remove_leastp pol rows := by
    rw [remove_leastp_eq pol rows hpk, List.mem_filter]
    exact ⟨htrows, by rw [htkeep]; rfl⟩
  -- the row of the group of `t` that the second statement keeps
  obtain ⟨s, hs1, hspol, hsreq, hsperm, hsp⟩ :=
    bareColumn_groupOf bareColumn hpick (remove_leastp pol rows) t ht1
  have hs1' := hs1
  rw [remove_leastp_eq pol rows hpk, List.mem_filter] at hs1'
  have hsmem : s ∈ ruleTablePostProcessing bareColumn pol rows := by
    rw [mem_ruleTablePostProcessing bareColumn hpick pol rows hpk]
    refine ⟨hs1'.1, by simpa using hs1'.2, ?_⟩
    rw [groupOf_congr _ s t hspol hsreq hsperm]
    exact hsp
  refine ⟨s, ?_, ?_⟩
  · apply eq_singleton_of_nodup
    · unfold rowsOf
      exact List.Nodup.filter _ (nodup_of_nodup_rule _
        (nodup_rule_ruleTablePostProcessing bareColumn pol rows hpk))
    · intro x hx
      obtain ⟨hxmem, hxpol, hxreq⟩ := (mem_rowsOf _ pol req x).1 hx
      obtain ⟨hxrows, hxl, hxp⟩ :=
        (mem_ruleTablePostProcessing bareColumn hpick pol rows hpk x).1 hxmem
      have hxM := hsurv x hxrows hxpol hxreq hxl
      rw [groupOf_congr _ x t (hxpol.trans htpol.symm) (hxreq.trans htreq.symm)
        (hxM.trans htM.symm), hsp] at hxp
      exact (rule_injOn rows hpk x hxrows s hs1'.1 hxp.symm)
    · exact (mem_rowsOf _ pol req s).2 ⟨hsmem, hspol.trans htpol, hsreq.trans htreq⟩
  · rw [hM, hsperm, htM]

/-- No two rows of the table agree on `(pol, req, perm)` after the dedup pass. -/
theorem nodup_key_ruleTablePostProcessing (bareColumn : List RuleRow → Nat)
    (hpick : bareColumnValid bareColumn) (pol : Int) (rows : List RuleRow)
    (hpk : (rows.map (fun r => r.rule)).Nodup) :
    ((ruleTablePostProcessing bareColumn pol rows).map
      (fun r => (r.pol, r.req, r.perm))).Nodup := by
  apply List.Nodup.map_on
  · intro x hx y hy hxy
    simp only [Prod.mk.injEq] at hxy
    obtain ⟨hxrows, _, hxp⟩ := (mem_ruleTablePostProcessing bareColumn hpick pol rows hpk x).1 hx
    obtain ⟨hyrows, _, hyp⟩ := (mem_ruleTablePostProcessing bareColumn hpick pol rows hpk y).1 hy
    rw [groupOf_congr _ x y hxy.1 hxy.2.1 hxy.2.2, hyp] at hxp
    exact rule_injOn rows hpk x hxrows y hyrows hxp.symm
  · exact nodup_of_nodup_rule _ (nodup_rule_ruleTablePostProcessing bareColumn pol rows hpk)

/-- A pair `(pol', req)` with at most one row keeps its row through the dedup
pass of any policy. -/
theorem rowsOf_ruleTablePostProcessing_of_single (bareColumn : List RuleRow → Nat)
    (hpick : bareColumnValid bareColumn) (pol : Int) (rows : List RuleRow)
    (hpk : (rows.map (fun r => r.rule)).Nodup) (pol' : Int) (req : String)
    (hsingle : ∀ a ∈ rows, ∀ b ∈ rows, a.pol = pol' → a.req = req → b.pol = pol' →
      b.req = req → a = b) :
    rowsOf (ruleTablePostProcessing bareColumn pol rows) pol' req = rowsOf rows pol' req := by
  have hkeep : ∀ x ∈ rows, x.pol = pol' → x.req = req →
      x ∈ ruleTablePostProcessing bareColumn pol rows := by
    intro x hx hxpol hxreq
    have hq1 : isLeastp pol rows x = false := by
      rw [Bool.eq_false_iff]
      intro h
      obtain ⟨_, r, hr, h1, h2, hlt⟩ := (isLeastp_iff pol rows x).1 h
      have : r = x := hsingle r hr x hx (h2.trans hxpol) (h1.trans hxreq) hxpol hxreq
      rw [this] at hlt
      exact absurd hlt (lt_irrefl _)
    have hx1 : x ∈ remove_leastp pol rows := by
      rw [remove_leastp_eq pol rows hpk, List.mem_filter]
      exact ⟨hx, by rw [hq1]; rfl⟩
    rw [mem_ruleTablePostProcessing bareColumn hpick pol rows hpk]
    refine ⟨hx, hq1, ?_⟩
    obtain ⟨s, hs1, hspol, hsreq, _, hsp⟩ :=
      bareColumn_groupOf bareColumn hpick (remove_leastp pol rows) x hx1
    rw [remove_leastp_eq pol rows hpk, List.mem_filter] at hs1
    have : s = x :=
      hsingle s hs1.1 x hx (hspol.trans hxpol) (hsreq.trans hxreq) hxpol hxreq
    rw [hsp, this]
  have hform : ∃ q : RuleRow → Bool, ruleTablePostProcessing bareColumn pol rows = rows.filter q := by
    refine ⟨fun a => (!(isLeastp pol rows a)) &&
      (bareColumn (groupOf (remove_leastp pol rows) a) == a.rule), ?_⟩
    unfold ruleTablePostProcessing
    rw [remove_dups_eq bareColumn hpick _ (nodup_rule_remove_leastp pol rows hpk)]
    rw [remove_leastp_eq pol rows hpk, List.filter_filter]
    apply List.filter_congr
    intro x _
    rw [Bool.and_comm]
  obtain ⟨q, hq⟩ := hform
  unfold rowsOf
  rw [hq, List.filter_filter]
  apply List.filter_congr
  intro x hx
  cases hpair : (x.pol == pol' && x.req == req) with
  | false => rfl
  | true =>
    simp only [Bool.and_eq_true, beq_iff_eq] at hpair
    have := hkeep x hx hpair.1 hpair.2
    rw [hq, List.mem_filter] at this
    rw [this.2]
    rfl

theorem foldl_max_rule_ge_init (rows : List RuleRow) (m : Nat) :
    m ≤ rows.foldl (fun m r => max m r.rule) m := by
  induction rows generalizing m with
  | nil => exact le_refl m
  | cons r rs ih => exact le_trans (le_max_left m r.rule) (ih (max m r.rule))

theorem foldl_max_rule_ge_mem (rows : List RuleRow) (m : Nat) :
    ∀ r ∈ rows, r.rule ≤ rows.foldl (fun m r => max m r.rule) m := by
  induction rows generalizing m with
  | nil => intro r hr; exact absurd hr (List.not_mem_nil r)
  | cons z zs ih =>
    intro r hr
    rcases List.mem_cons.1 hr with rfl | hr
    · exact le_trans (le_max_right m r.rule) (foldl_max_rule_ge_init zs (max m r.rule))
    · exact ih (max m z.rule) r hr

theorem rule_lt_nextRule (T : RuleTable) : ∀ r ∈ T.rows, r.rule < nextRule T := by
  intro r hr
  unfold nextRule
  exact Nat.lt_succ_of_le (le_trans (foldl_max_rule_ge_mem T.rows 0 r hr) (le_max_right _ _))

theorem sqlMax_toList_append (l : List Int) (v : Int) :
    sqlMax ((sqlMax l).toList ++ [v]) = sqlMax (l ++ [v]) := by
  cases hl : sqlMax l with
  | none =>
    cases l with
    | nil => rfl
    | cons x xs => simp [sqlMax] at hl
  | some m =>
    obtain ⟨hmem, hle⟩ := (sqlMax_eq_some_iff l m).1 hl
    symm
    have hlhs : sqlMax ((some m).toList ++ [v]) = some (max m v) := by
      simp [sqlMax]
    rw [hlhs, sqlMax_eq_some_iff]
    constructor
    · rcases max_choice m v with h | h
      · rw [h]; exact List.mem_append_left _ hmem
      · rw [h]; simp
    · intro x hx
      rcases List.mem_append.1 hx with hx | hx
      · exact le_trans (hle x hx) (le_max_left m v)
      · rw [List.mem_singleton] at hx
        rw [hx]; exact le_max_right m v

theorem runAddCalls_append (bareColumn : List RuleRow → Nat) (calls : List AddCall)
    (c : AddCall) :
    runAddCalls bareColumn (calls ++ [c])
      = AddRequirement bareColumn (runAddCalls bareColumn calls) c.pol c.req c.perm c.origin := by
  simp [runAddCalls, List.foldl_append]

theorem length_le_one_of_map_eq_toList {α β : Type} (l : List α) (f : α → β) (o : Option β)
    (h : l.map f = o.toList) : ∀ a ∈ l, ∀ b ∈ l, a = b := by
  have hlen : l.length ≤ 1 := by
    have := congrArg List.length h
    rw [List.length_map] at this
    rw [this]
    cases o <;> simp
  match l, hlen with
  | [], _ => intro a ha; exact absurd ha (List.not_mem_nil a)
  | [x], _ =>
    intro a ha b hb
    rw [List.mem_singleton] at ha hb
    rw [ha, hb]
  | _ :: _ :: _, hlen => simp at hlen

/-- The invariant of the table RULE under `AddRequirement`: the `rule` column
has no duplicates, and every pair `(pol, req)` has as its rows' perms the
largest perm inserted for it (no row when none was inserted). -/
theorem runAddCalls_invariant (bareColumn : List RuleRow → Nat)
    (hpick : bareColumnValid bareColumn) (calls : List AddCall) :
    ((runAddCalls bareColumn calls).rows.map (fun r => r.rule)).Nodup ∧
      ∀ (pol : Int) (req : String),
        (rowsOf (runAddCalls bareColumn calls).rows pol req).map (fun r => r.perm)
          = (sqlMax (insertedPerms calls pol req)).toList := by
  induction calls using List.reverseRecOn with
  | nil =>
    refine ⟨by simp [runAddCalls, emptyRuleTable], ?_⟩
    intro pol req
    simp [runAddCalls, emptyRuleTable, rowsOf, insertedPerms, sqlMax]
  | append_singleton calls c ih =>
    obtain ⟨ihpk, ihrows⟩ := ih
    rw [runAddCalls_append]
    generalize runAddCalls bareColumn calls = T at ihpk ihrows
    have hpk : ((T.rows ++ [(⟨nextRule T, c.pol, c.req, c.perm, c.origin⟩ : RuleRow)]).map
        (fun r => r.rule)).Nodup := by
      rw [List.map_append, List.nodup_append]
      refine ⟨ihpk, by simp, ?_⟩
      intro a ha hb
      rw [List.mem_map] at ha
      obtain ⟨r, hr, rfl⟩ := ha
      simp only [List.map_cons, List.map_nil, List.mem_singleton] at hb
      exact Nat.ne_of_lt (rule_lt_nextRule T r hr) hb
    refine ⟨nodup_rule_ruleTablePostProcessing bareColumn c.pol _ hpk, ?_⟩
    intro pol req
    show (rowsOf (ruleTablePostProcessing bareColumn c.pol
      (T.rows ++ [(⟨nextRule T, c.pol, c.req, c.perm, c.origin⟩ : RuleRow)])) pol req).map
        (fun r => r.perm) = _
    by_cases hpair : c.pol = pol ∧ c.req = req
    · obtain ⟨rfl, rfl⟩ := hpair
      obtain ⟨s, hs, hmax⟩ := rowsOf_ruleTablePostProcessing bareColumn hpick c.pol _ hpk c.req
        ⟨_, List.mem_append_right _ (List.mem_singleton.2 rfl), rfl, rfl⟩
      have hin : (rowsOf (T.rows ++ [(⟨nextRule T, c.pol, c.req, c.perm, c.origin⟩ : RuleRow)])
          c.pol c.req).map (fun r => r.perm)
          = (sqlMax (insertedPerms calls c.pol c.req)).toList ++ [c.perm] := by
        rw [← ihrows c.pol c.req]
        simp [rowsOf, List.filter_append]
      have hins : insertedPerms (calls ++ [c]) c.pol c.req
          = insertedPerms calls c.pol c.req ++ [c.perm] := by
        simp [insertedPerms, List.filter_append]
      rw [hs, hins, ← sqlMax_toList_append, ← hin, hmax]
      rfl
    · have hnew : rowsOf (T.rows ++ [(⟨nextRule T, c.pol, c.req, c.perm, c.origin⟩ : RuleRow)])
          pol req = rowsOf T.rows pol req := by
        unfold rowsOf
        rw [List.filter_append]
        have : ([(⟨nextRule T, c.pol, c.req, c.perm, c.origin⟩ : RuleRow)].filter
            (fun r => r.pol == pol && r.req == req)) = [] := by
          rw [List.filter_eq_nil_iff]
          intro a ha
          rw [List.mem_singleton] at ha
          rw [ha]
          simpa using hpair
        rw [this, List.append_nil]
      have hins : insertedPerms (calls ++ [c]) pol req = insertedPerms calls pol req := by
        unfold insertedPerms
        rw [List.filter_append]
        have : ([c].filter (fun c => c.pol == pol && c.req == req)) = [] := by
          rw [List.filter_eq_nil_iff]
          intro a ha
          rw [List.mem_singleton] at ha
          rw [ha]
          simpa using hpair
        rw [this, List.append_nil]
      rw [rowsOf_ruleTablePostProcessing_of_single bareColumn hpick c.pol _ hpk pol req, hnew,
        hins, ihrows]
      intro a ha b hb hapol hareq hbpol hbreq
      have ha' : a ∈ rowsOf T.rows pol req := by
        rw [← hnew]; exact (mem_rowsOf _ pol req a).2 ⟨ha, hapol, hareq⟩
      have hb' : b ∈ rowsOf T.rows pol req := by
        rw [← hnew]; exact (mem_rowsOf _ pol req b).2 ⟨hb, hbpol, hbreq⟩
      exact length_le_one_of_map_eq_toList _ _ _ (ihrows pol req) a ha' b hb'

/-! ## Settled properties -/

theorem bareColumnValid_firstOfGroup : bareColumnValid firstOfGroup := by
  intro g hg
  cases g with
  | nil => exact absurd rfl hg
  | cons r rs => exact ⟨r, List.mem_cons_self r rs, rfl⟩

/-- C1. Code defect: a node that was readable before `PruneTrie` is not covered
by a readable node afterwards.  The trie holds `/dev/null` and `/dev/zero`,
both `rw-`; after `PruneTrie` with goal 1 the only permissioned node is `/dev`
with perm `-w-`, because the RW pass takes the R bit of the parent from the
`r--` children only. -/
theorem PruneTrie_loses_read_of_rw_children :
    GetSecurityProfile devTrie.2
        = [⟨"/dev/null", permRW, STRACE_FILE⟩, ⟨"/dev/zero", permRW, STRACE_FILE⟩]
      ∧ (PruneTrie devTrie.1 1 devTrie.2).map (fun r => (r.1, GetSecurityProfile r.2))
        = some (true, [⟨"/dev", { W := true }, PRUNING_RW⟩]) := by
  decide

/-- C2. Code defect: `PruneTrie` can raise the number of permissioned nodes.
The trie holds two `rw-` files below `/dev/bus/usb`: it has 2 permissioned
nodes before `PruneTrie` with goal 1 and 3 afterwards (`/dev`, `/dev/bus` and
`/dev/bus/usb`), because the RW pass marks a node without any `r--` or `rw-`
leaf child as permissioned. -/
theorem PruneTrie_raises_permissioned_count :
    CountPermissionedNodes deepDevTrie.2 = 2
      ∧ (PruneTrie deepDevTrie.1 1 deepDevTrie.2).map
          (fun r => (r.1, CountPermissionedNodes r.2, GetSecurityProfile r.2))
        = some (false, 3,
            [⟨"/dev", {}, PRUNING_RW⟩, ⟨"/dev/bus", {}, PRUNING_RW⟩,
              ⟨"/dev/bus/usb", { W := true }, PRUNING_RW⟩]) := by
  decide

/-- C3. Prune scope: for every trie with consistent paths and every goal > 0,
`PruneTrie` returns, and every node whose path has no entry of
ALLOW_COARSE_READ or ALLOW_COARSE_WRITE as itself or as an ancestor directory
is still in the trie afterwards with the same path, name, perm, origin and
permissioned flag. -/
theorem PruneTrie_scope (A : AllowSets) (goal : Int) (hg : 0 < goal) (root : Node)
    (hwf : pathsConsistent root = true) :
    ∃ b root', PruneTrie A goal root = some (b, root') ∧
      ∀ n ∈ allNodes root, underAllowEntry A n.path = false →
        ∃ n' ∈ allNodes root', n'.path = n.path ∧ n'.name = n.name ∧ n'.perm = n.perm
          ∧ n'.origin = n.origin ∧ n'.permissioned = n.permissioned := by
  have hrx := keepsOutside_PruneRX A goal root hwf
  have hrw := keepsOutside_PruneRW A goal _ (pathsConsistent_PruneRX A goal root hwf)
  have hboth := keepsOutside_trans A _ _ _ hrx hrw
  unfold PruneTrie
  rw [if_neg (not_le.mpr hg)]
  by_cases h1 : goal ≥ CountPermissionedNodes root
  · rw [if_pos h1]
    exact ⟨true, root, rfl, keepsOutside_refl A root⟩
  · rw [if_neg h1]
    by_cases h2 : (PruneRX A goal root).1 = true
    · simp only [h2, if_true]
      exact ⟨true, _, rfl, hrx⟩
    · simp only [h2]
      by_cases h3 : (PruneRW A goal (PruneRX A goal root).2).1 = true
      · simp only [h3, if_true]
        exact ⟨true, _, rfl, hboth⟩
      · simp only [h3]
        exact ⟨false, _, rfl, hboth⟩

theorem PruneTrie_scope_witness :
    (0 : Int) < 1 ∧ pathsConsistent optHomeTrie.2 = true ∧
      ∃ b root', PruneTrie optHomeTrie.1 1 optHomeTrie.2 = some (b, root') ∧
        ∀ n ∈ allNodes optHomeTrie.2, underAllowEntry optHomeTrie.1 n.path = false →
          ∃ n' ∈ allNodes root', n'.path = n.path ∧ n'.name = n.name ∧ n'.perm = n.perm
            ∧ n'.origin = n.origin ∧ n'.permissioned = n.permissioned :=
  ⟨by decide, by decide,
    PruneTrie_scope optHomeTrie.1 1 (by decide) optHomeTrie.2 (by decide)⟩

/-- C4. For every trie and every goal > 0, `PruneTrie` returns; it returns true
if and only if `CountPermissionedNodes` of the trie after the call is at most
the goal, and when it returns false the trie is the one that the RX pass
followed by the RW pass produces. -/
theorem PruneTrie_true_iff_goal_reached (A : AllowSets) (goal : Int) (hg : 0 < goal)
    (root : Node) :
    ∃ b root', PruneTrie A goal root = some (b, root') ∧
      (b = true ↔ CountPermissionedNodes root' ≤ goal) ∧
      (b = false → root' = (PruneRW A goal (PruneRX A goal root).2).2) := by
  unfold PruneTrie
  rw [if_neg (not_le.mpr hg)]
  by_cases h1 : goal ≥ CountPermissionedNodes root
  · rw [if_pos h1]
    exact ⟨true, root, rfl, by simpa using h1, by simp⟩
  · rw [if_neg h1]
    by_cases h2 : (PruneRX A goal root).1 = true
    · simp only [h2, if_true]
      refine ⟨true, _, rfl, ?_, by simp⟩
      rw [PruneRX_fst] at h2
      simpa using h2
    · simp only [h2]
      by_cases h3 : (PruneRW A goal (PruneRX A goal root).2).1 = true
      · simp only [h3, if_true]
        refine ⟨true, _, rfl, ?_, by simp⟩
        rw [PruneRW_fst] at h3
        simpa using h3
      · simp only [h3]
        refine ⟨false, _, rfl, ?_, fun _ => rfl⟩
        rw [PruneRW_fst] at h3
        simpa using h3

theorem PruneTrie_true_iff_goal_reached_witness :
    (0 : Int) < 1 ∧
      ∃ b root', PruneTrie optHomeTrie.1 1 optHomeTrie.2 = some (b, root') ∧
        (b = true ↔ CountPermissionedNodes root' ≤ 1) ∧
        (b = false →
          root' = (PruneRW optHomeTrie.1 1 (PruneRX optHomeTrie.1 1 optHomeTrie.2).2).2) :=
  ⟨by decide, PruneTrie_true_iff_goal_reached optHomeTrie.1 1 (by decide) optHomeTrie.2⟩

/-- C5. Code defect: `GetSecurityProfile` returns a row for a path that was
never inserted.  After the single insertion of `/data/app/data` into the empty
trie the profile has two rows, `/data` and `/data/app/data`: `addRequirement`
compares each segment with the name of the last segment, so the first segment
`data` is marked as well. -/
theorem GetSecurityProfile_row_of_repeated_segment :
    GetSecurityProfile (addRequirement emptyTrie "/data/app/data" permR USER_INPUT)
      = [⟨"/data", permR, USER_INPUT⟩, ⟨"/data/app/data", permR, USER_INPUT⟩] := by
  decide

/-- C6. Code defect: `addRequirement` marks an intermediate node it creates.
Inserting `/data/app/data` into the empty trie creates the intermediate node
`/data` with the inserted perm and origin and `permissioned = true`, because
its name equals the name of the final segment. -/
theorem addRequirement_marks_repeated_segment :
    (addRequirement emptyTrie "/data/app/data" permR USER_INPUT).connections.map
        (fun c => (c.path, c.perm, c.origin, c.permissioned, c.connections.map (fun d => d.path)))
      = [("/data", permR, USER_INPUT, true, ["/data/app"])] := by
  decide

/-- C7, as stated, fails: after `AddRequirement` with perm 5 (`r-x`) and then
perm 6 (`rw-`) for one pair, the row of the pair does not hold the bitwise OR
7 of the inserted permissions. -/
theorem AddRequirement_perm_not_bitwise_or :
    ¬ (∀ r ∈ rowsOf (runAddCalls firstOfGroup toolCalls).rows 1 "/bin/tool",
        r.perm = ((5 ||| 6 : Nat) : Int)) := by
  decide

/-- C7, amended. Monotonic permission: whichever row of a group the second
DELETE keeps, after any sequence of `AddRequirement` calls on the empty table
the rows of a pair `(pol, req)` have as their perms the list that is empty when
no call inserted for the pair and otherwise consists of the single largest
perm inserted for it; so the table holds at most one row for the pair and its
perm is the maximum of the permissions inserted. -/
theorem AddRequirement_monotonic_max (bareColumn : List RuleRow → Nat)
    (hpick : bareColumnValid bareColumn) (calls : List AddCall) (pol : Int) (req : String) :
    (rowsOf (runAddCalls bareColumn calls).rows pol req).map (fun r => r.perm)
        = (sqlMax (insertedPerms calls pol req)).toList
      ∧ (rowsOf (runAddCalls bareColumn calls).rows pol req).length ≤ 1 := by
  have h := (runAddCalls_invariant bareColumn hpick calls).2 pol req
  refine ⟨h, ?_⟩
  have hlen := congrArg List.length h
  rw [List.length_map] at hlen
  rw [hlen]
  cases sqlMax (insertedPerms calls pol req) <;> simp

theorem AddRequirement_monotonic_max_witness :
    bareColumnValid firstOfGroup ∧
      (rowsOf (runAddCalls firstOfGroup toolCalls).rows 1 "/bin/tool").map (fun r => r.perm)
        = (sqlMax (insertedPerms toolCalls 1 "/bin/tool")).toList
      ∧ (rowsOf (runAddCalls firstOfGroup toolCalls).rows 1 "/bin/tool").length ≤ 1 :=
  ⟨bareColumnValid_firstOfGroup,
    AddRequirement_monotonic_max firstOfGroup bareColumnValid_firstOfGroup toolCalls 1
      "/bin/tool"⟩

/-- C8. Rule dedup pass: for every table RULE (its `rule` column without
duplicates) and policy `pol`, whichever row of a group the second DELETE keeps,
after `ruleTablePostProcessing(pol)` every pair `(pol, req)` that had a row has
exactly one row, its perm is the largest perm among the rows the pair had, and
no two rows of the table have the same `(pol, req, perm)`. -/
theorem ruleTablePostProcessing_dedup (bareColumn : List RuleRow → Nat)
    (hpick : bareColumnValid bareColumn) (rows : List RuleRow)
    (hpk : (rows.map (fun r => r.rule)).Nodup) (pol : Int) :
    (∀ req : String, (∃ r ∈ rows, r.pol = pol ∧ r.req = req) →
        ∃ s, rowsOf (ruleTablePostProcessing bareColumn pol rows) pol req = [s]
          ∧ (∃ r ∈ rows, r.pol = pol ∧ r.req = req ∧ r.perm = s.perm)
          ∧ ∀ r ∈ rows, r.pol = pol → r.req = req → r.perm ≤ s.perm)
      ∧ ((ruleTablePostProcessing bareColumn pol rows).map
          (fun r => (r.pol, r.req, r.perm))).Nodup := by
  refine ⟨?_, nodup_key_ruleTablePostProcessing bareColumn hpick pol rows hpk⟩
  intro req hex
  obtain ⟨s, hs, hmax⟩ := rowsOf_ruleTablePostProcessing bareColumn hpick pol rows hpk req hex
  obtain ⟨hmem, hle⟩ := (sqlMax_eq_some_iff _ _).1 hmax
  refine ⟨s, hs, ?_, ?_⟩
  · rw [List.mem_map] at hmem
    obtain ⟨r, hr, hrp⟩ := hmem
    obtain ⟨h0, h1, h2⟩ := (mem_rowsOf rows pol req r).1 hr
    exact ⟨r, h0, h1, h2, hrp⟩
  · intro r hr h1 h2
    exact hle r.perm (List.mem_map.2 ⟨r, (mem_rowsOf rows pol req r).2 ⟨hr, h1, h2⟩, rfl⟩)

theorem ruleTablePostProcessing_dedup_witness :
    bareColumnValid firstOfGroup ∧ (sampleRules.map (fun r => r.rule)).Nodup ∧
      (∀ req : String, (∃ r ∈ sampleRules, r.pol = 1 ∧ r.req = req) →
          ∃ s, rowsOf (ruleTablePostProcessing firstOfGroup 1 sampleRules) 1 req = [s]
            ∧ (∃ r ∈ sampleRules, r.pol = 1 ∧ r.req = req ∧ r.perm = s.perm)
            ∧ ∀ r ∈ sampleRules, r.pol = 1 → r.req = req → r.perm ≤ s.perm)
        ∧ ((ruleTablePostProcessing firstOfGroup 1 sampleRules).map
            (fun r => (r.pol, r.req, r.perm))).Nodup :=
  ⟨bareColumnValid_firstOfGroup, by decide,
    ruleTablePostProcessing_dedup firstOfGroup bareColumnValid_firstOfGroup sampleRules
      (by decide) 1⟩

/-- C9. Mask semantics: for every permission `p` and every 3-character mask
`m` over the characters r, w, x, -, _, `p.PermissionMatch(m)` returns, and it
is true if and only if at each position `i` with `m[i] != '_'` the bit of `p`
at position `i` (R, W, X in that order) equals `(m[i] != '-')`. -/
theorem PermissionMatch_mask_semantics (p : Permission) (m : List Char)
    (hlen : m.length = 3) (halpha : ∀ c ∈ m, c ∈ maskAlphabet) :
    ∃ b, p.PermissionMatch (String.mk m) = some b ∧
      (b = true ↔
        ∀ i (hi : i < m.length), m[i] ≠ '_' → p.bitAt i = decide (m[i] ≠ '-')) := by
  match m, hlen with
  | [c0, c1, c2], _ =>
    have h0 : c0 ∈ maskAlphabet := halpha c0 (by simp)
    have h1 : c1 ∈ maskAlphabet := halpha c1 (by simp)
    have h2 : c2 ∈ maskAlphabet := halpha c2 (by simp)
    have key : (∀ i (hi : i < [c0, c1, c2].length), [c0, c1, c2][i] ≠ '_' →
        p.bitAt i = decide ([c0, c1, c2][i] ≠ '-')) ↔
        ((c0 ≠ '_' → p.R = decide (c0 ≠ '-')) ∧ (c1 ≠ '_' → p.W = decide (c1 ≠ '-')) ∧
          (c2 ≠ '_' → p.X = decide (c2 ≠ '-'))) := by
      constructor
      · intro h
        exact ⟨h 0 (by simp), h 1 (by simp), h 2 (by simp)⟩
      · rintro ⟨a, b, c⟩ i hi
        match i, hi with
        | 0, _ => exact a
        | 1, _ => exact b
        | 2, _ => exact c
    rw [key]
    obtain ⟨x, w, r⟩ := p
    simp only [maskAlphabet, List.mem_cons, List.mem_singleton, List.not_mem_nil,
      or_false] at h0 h1 h2
    rcases h0 with rfl | rfl | rfl | rfl | rfl <;>
    rcases h1 with rfl | rfl | rfl | rfl | rfl <;>
    rcases h2 with rfl | rfl | rfl | rfl | rfl <;>
    cases x <;> cases w <;> cases r <;>
    exact ⟨_, rfl, by decide⟩

theorem PermissionMatch_mask_semantics_witness :
    ['r', '-', '_'].length = 3 ∧ (∀ c ∈ ['r', '-', '_'], c ∈ maskAlphabet) ∧
      ∃ b, permRX.PermissionMatch (String.mk ['r', '-', '_']) = some b ∧
        (b = true ↔
          ∀ i (hi : i < ['r', '-', '_'].length), ['r', '-', '_'][i] ≠ '_' →
            permRX.bitAt i = decide (['r', '-', '_'][i] ≠ '-')) :=
  ⟨by decide, by decide,
    PermissionMatch_mask_semantics permRX ['r', '-', '_'] (by decide) (by decide)⟩

/-- C10. Permission bit codec round trip: for every integer `p` with
`0 <= p <= 7`, `IntToPermission(p).ToUnixInt() == p`, and `ToUnixInt` of any
permission is at most 7. -/
theorem IntToPermission_ToUnixInt_round_trip (p : Int) (h0 : 0 ≤ p) (h7 : p ≤ 7) :
    ((IntToPermission p).ToUnixInt : Int) = p ∧ ∀ perm : Permission, perm.ToUnixInt ≤ 7 := by
  constructor
  · interval_cases p <;> decide
  · rintro ⟨x, w, r⟩
    cases x <;> cases w <;> cases r <;> decide

theorem IntToPermission_ToUnixInt_round_trip_witness :
    (0 : Int) ≤ 5 ∧ (5 : Int) ≤ 7 ∧
      ((IntToPermission 5).ToUnixInt : Int) = 5 ∧ ∀ perm : Permission, perm.ToUnixInt ≤ 7 :=
  ⟨by decide, by decide, IntToPermission_ToUnixInt_round_trip 5 (by decide) (by decide)⟩


/-! ## Permission literals -/

set_option maxRecDepth 100000 in
theorem lead2_ge (f : Fin 256) : (128 : UInt8) ≤ (UInt8.mk (BitVec.ofFin f) &&& 0x1f ||| 0xc0) := by
  revert f
  decide

set_option maxRecDepth 100000 in
theorem lead3_ge (f : Fin 256) : (128 : UInt8) ≤ (UInt8.mk (BitVec.ofFin f) &&& 0x0f ||| 0xe0) := by
  revert f
  decide

set_option maxRecDepth 100000 in
theorem lead4_ge (f : Fin 256) : (128 : UInt8) ≤ (UInt8.mk (BitVec.ofFin f) &&& 0x07 ||| 0xf0) := by
  revert f
  decide

theorem utf8EncodeChar_ascii (c : Char) (h : c.val ≤ 0x7f) :
    String.utf8EncodeChar c = [c.val.toUInt8] := by
  unfold String.utf8EncodeChar
  simp only [h, if_true]

theorem utf8EncodeChar_nonascii (c : Char) (h : ¬ c.val ≤ 0x7f) :
    ∃ b t, String.utf8EncodeChar c = b :: t ∧ 128 ≤ b ∧ t ≠ [] := by
  unfold String.utf8EncodeChar
  simp only [h, if_false]
  split
  · refine ⟨_, _, rfl, ?_, by simp⟩
    generalize (c.val >>> 6).toUInt8 = y
    obtain ⟨⟨f⟩⟩ := y
    exact lead2_ge f
  · split
    · refine ⟨_, _, rfl, ?_, by simp⟩
      generalize (c.val >>> 12).toUInt8 = y
      obtain ⟨⟨f⟩⟩ := y
      exact lead3_ge f
    · refine ⟨_, _, rfl, ?_, by simp⟩
      generalize (c.val >>> 18).toUInt8 = y
      obtain ⟨⟨f⟩⟩ := y
      exact lead4_ge f

theorem toUInt8_lt_of_ascii (c : Char) (h : c.val ≤ 0x7f) : c.val.toUInt8 < 128 := by
  have h1 : c.val.toNat ≤ 127 := h
  have h2 : c.val.toUInt8.toNat = c.val.toNat % 256 := by
    simp [UInt32.toUInt8, Nat.toUInt8, UInt8.ofNat, UInt8.toNat]
  show c.val.toUInt8.toNat < 128
  omega

/-- The encoding of a character starts with a byte below 128 only when the
character is ASCII, and then that byte is the whole encoding. -/
theorem utf8EncodeChar_head (c : Char) (b : UInt8) (t : List UInt8)
    (h : String.utf8EncodeChar c = b :: t) (hb : b < 128) :
    c.val ≤ 0x7f ∧ t = [] ∧ b = c.val.toUInt8 := by
  by_cases hc : c.val ≤ 0x7f
  · rw [utf8EncodeChar_ascii c hc] at h
    simp only [List.cons.injEq] at h
    exact ⟨hc, h.2.symm, h.1.symm⟩
  · obtain ⟨b', t', h', hge, _⟩ := utf8EncodeChar_nonascii c hc
    rw [h'] at h
    simp only [List.cons.injEq] at h
    rw [h.1] at hge
    have hb' : b.toNat < 128 := hb
    have hge' : 128 ≤ b.toNat := hge
    omega

theorem utf8EncodeChar_ne_nil (c : Char) : String.utf8EncodeChar c ≠ [] := by
  intro h
  have := String.length_utf8EncodeChar c
  rw [h] at this
  have hpos := Char.utf8Size_pos c
  simp at this
  omega

theorem length_utf8EncodeChar_eq_one (c : Char) (h : (String.utf8EncodeChar c).length = 1) :
    c.val ≤ 0x7f := by
  by_contra hc
  obtain ⟨b, t, h', _, ht⟩ := utf8EncodeChar_nonascii c hc
  rw [h'] at h
  cases t with
  | nil => exact ht rfl
  | cons x xs => simp at h

theorem length_utf8EncodeChar_pos (c : Char) : 1 ≤ (String.utf8EncodeChar c).length := by
  rw [String.length_utf8EncodeChar]
  exact Char.utf8Size_pos c

/-- Three leading bytes below 128 in the encoding of the mapped characters of
a string of three bytes: the string is three ASCII characters. -/
theorem three_ascii_chars (f : Char → Char) (cs : List Char) (b0 b1 b2 : UInt8)
    (rest : List UInt8)
    (hlen : (cs.flatMap String.utf8EncodeChar).length = 3)
    (hbytes : (cs.map f).flatMap String.utf8EncodeChar = b0 :: b1 :: b2 :: rest)
    (h0 : b0 < 128) (h1 : b1 < 128) (h2 : b2 < 128) :
    ∃ c0 c1 c2, cs = [c0, c1, c2] ∧ c0.val ≤ 0x7f ∧ c1.val ≤ 0x7f ∧ c2.val ≤ 0x7f
      ∧ b0 = (f c0).val.toUInt8 ∧ b1 = (f c1).val.toUInt8 ∧ b2 = (f c2).val.toUInt8
      ∧ rest = [] := by
  have hstep : ∀ (l : List Char) (b : UInt8) (tl : List UInt8),
      (l.map f).flatMap String.utf8EncodeChar = b :: tl → b < 128 →
      ∃ c l', l = c :: l' ∧ b = (f c).val.toUInt8
        ∧ (l'.map f).flatMap String.utf8EncodeChar = tl := by
    intro l b tl h hb
    cases l with
    | nil => simp at h
    | cons c l' =>
      rw [List.map_cons, List.flatMap_cons] at h
      cases henc : String.utf8EncodeChar (f c) with
      | nil => exact absurd henc (utf8EncodeChar_ne_nil (f c))
      | cons x xs =>
        rw [henc, List.cons_append, List.cons.injEq] at h
        obtain ⟨hx, htl⟩ := h
        obtain ⟨_, hxs, hbx⟩ := utf8EncodeChar_head (f c) x xs henc (hx ▸ hb)
        rw [hxs, List.nil_append] at htl
        exact ⟨c, l', rfl, hx ▸ hbx, htl⟩
  obtain ⟨c0, l0, rfl, e0, hb0⟩ := hstep cs b0 _ hbytes h0
  obtain ⟨c1, l1, rfl, e1, hb1⟩ := hstep l0 b1 _ hb0 h1
  obtain ⟨c2, l2, rfl, e2, hb2⟩ := hstep l1 b2 _ hb1 h2
  simp only [List.flatMap_cons, List.length_append] at hlen
  have p0 := length_utf8EncodeChar_pos c0
  have p1 := length_utf8EncodeChar_pos c1
  have p2 := length_utf8EncodeChar_pos c2
  have hl2 : l2 = [] := by
    cases l2 with
    | nil => rfl
    | cons c3 l3 =>
      have p3 := length_utf8EncodeChar_pos c3
      simp only [List.flatMap_cons, List.length_append] at hlen
      omega
  subst hl2
  simp only [List.flatMap_nil, List.length_nil] at hlen
  refine ⟨c0, c1, c2, rfl, length_utf8EncodeChar_eq_one c0 (by omega),
    length_utf8EncodeChar_eq_one c1 (by omega), length_utf8EncodeChar_eq_one c2 (by omega),
    e0, e1, e2, ?_⟩
  rw [← hb2]
  rfl

set_option maxRecDepth 100000 in
theorem ascii_literal_bytes (n : Fin 128) :
    (((Char.ofNat n).toLower.val.toUInt8 = 114 → Char.ofNat n = 'r' ∨ Char.ofNat n = 'R')
      ∧ ((Char.ofNat n).toLower.val.toUInt8 = 119 → Char.ofNat n = 'w' ∨ Char.ofNat n = 'W')
      ∧ ((Char.ofNat n).toLower.val.toUInt8 = 120 → Char.ofNat n = 'x' ∨ Char.ofNat n = 'X')
      ∧ ((Char.ofNat n).toLower.val.toUInt8 = 45 → Char.ofNat n = '-'))
    ∧ (((Char.ofNat n).val.toUInt8 = 114 → Char.ofNat n = 'r')
      ∧ ((Char.ofNat n).val.toUInt8 = 119 → Char.ofNat n = 'w')
      ∧ ((Char.ofNat n).val.toUInt8 = 120 → Char.ofNat n = 'x')
      ∧ ((Char.ofNat n).val.toUInt8 = 45 → Char.ofNat n = '-')) := by
  revert n
  decide

/-- The ASCII characters whose byte, lowered or as it is, is a byte of a
permission literal. -/
theorem ascii_literal_char (c : Char) (h : c.val ≤ 0x7f) :
    ((c.toLower.val.toUInt8 = 114 → c = 'r' ∨ c = 'R')
      ∧ (c.toLower.val.toUInt8 = 119 → c = 'w' ∨ c = 'W')
      ∧ (c.toLower.val.toUInt8 = 120 → c = 'x' ∨ c = 'X')
      ∧ (c.toLower.val.toUInt8 = 45 → c = '-'))
    ∧ ((c.val.toUInt8 = 114 → c = 'r')
      ∧ (c.val.toUInt8 = 119 → c = 'w')
      ∧ (c.val.toUInt8 = 120 → c = 'x')
      ∧ (c.val.toUInt8 = 45 → c = '-')) := by
  have h1 : c.toNat < 128 := Nat.lt_succ_of_le h
  have := ascii_literal_bytes ⟨c.toNat, h1⟩
  simpa only [Char.ofNat_toNat] using this

theorem permissionBit_isSome_iff (b yes : UInt8) :
    (∃ v, permissionBit b yes = some v) ↔ (b = yes ∨ b = 45) := by
  unfold permissionBit
  split
  · rename_i h
    exact ⟨fun _ => Or.inl (by simpa using h), fun _ => ⟨true, rfl⟩⟩
  · rename_i h
    split
    · rename_i h'
      constructor
      · rintro ⟨v, hv⟩
        exact absurd hv (by simp)
      · rintro (rfl | rfl)
        · simp at h
        · simp at h'
    · rename_i h'
      exact ⟨fun _ => Or.inr (by simpa using h'), fun _ => ⟨false, rfl⟩⟩

theorem InitPermission_isSome_bytes (unicodeToLower : Char → Char) (s : String) :
    (InitPermission unicodeToLower s).isSome = true ↔
      (goBytes s).length = 3 ∧ ∃ b0 b1 b2 rest,
        goBytes (ToLower unicodeToLower s) = b0 :: b1 :: b2 :: rest
          ∧ (b0 = 114 ∨ b0 = 45) ∧ (b1 = 119 ∨ b1 = 45) ∧ (b2 = 120 ∨ b2 = 45) := by
  unfold InitPermission
  by_cases hlen : (goBytes s).length = 3
  · simp only [hlen, bne_self_eq_false, Bool.false_eq_true, if_false, true_and]
    rcases hb : goBytes (ToLower unicodeToLower s) with _ | ⟨b0, _ | ⟨b1, _ | ⟨b2, rest⟩⟩⟩
    · simp
    · simp only [List.getElem?_cons_zero, List.getElem?_cons_succ, List.getElem?_nil]
      cases permissionBit b0 114 <;> simp
    · simp only [List.getElem?_cons_zero, List.getElem?_cons_succ, List.getElem?_nil]
      cases permissionBit b0 114 <;> cases permissionBit b1 119 <;> simp
    · simp only [List.getElem?_cons_zero, List.getElem?_cons_succ]
      have e0 := permissionBit_isSome_iff b0 114
      have e1 := permissionBit_isSome_iff b1 119
      have e2 := permissionBit_isSome_iff b2 120
      cases h0 : permissionBit b0 114 with
      | none =>
        rw [h0] at e0
        simp only [List.cons.injEq]
        constructor
        · intro h; simp at h
        · rintro ⟨_, _, _, _, ⟨rfl, _⟩, hv, _⟩
          exact absurd (e0.2 hv) (by simp)
      | some r =>
        cases h1 : permissionBit b1 119 with
        | none =>
          rw [h1] at e1
          simp only [List.cons.injEq]
          constructor
          · intro h; simp at h
          · rintro ⟨_, _, _, _, ⟨_, rfl, _⟩, _, hv, _⟩
            exact absurd (e1.2 hv) (by simp)
        | some w =>
          cases h2 : permissionBit b2 120 with
          | none =>
            rw [h2] at e2
            simp only [List.cons.injEq]
            constructor
            · intro h; simp at h
            · rintro ⟨_, _, _, _, ⟨_, _, rfl, _⟩, _, _, hv⟩
              exact absurd (e2.2 hv) (by simp)
          | some x =>
            rw [h0] at e0
            rw [h1] at e1
            rw [h2] at e2
            simp only [Option.isSome_some, true_iff]
            exact ⟨b0, b1, b2, rest, rfl, e0.1 ⟨_, rfl⟩, e1.1 ⟨_, rfl⟩, e2.1 ⟨_, rfl⟩⟩
  · have hne : ((goBytes s).length != 3) = true := by simpa using hlen
    simp only [hne, if_true]
    simp [hlen]

theorem IsValidPerm_bytes (s : String) :
    IsValidPerm s = true ↔
      ∃ b0 b1 b2, goBytes s = [b0, b1, b2]
        ∧ (b0 = 114 ∨ b0 = 45) ∧ (b1 = 119 ∨ b1 = 45) ∧ (b2 = 120 ∨ b2 = 45) := by
  unfold IsValidPerm
  rcases hb : goBytes s with _ | ⟨b0, _ | ⟨b1, _ | ⟨b2, _ | ⟨b3, rest⟩⟩⟩⟩
  · simp
  · simp
  · simp
  · simp only [List.cons.injEq, and_true]
    constructor
    · intro h
      refine ⟨b0, b1, b2, ⟨rfl, rfl, rfl⟩, ?_⟩
      by_cases h0 : b0 = 114 ∨ b0 = 45
      · by_cases h1 : b1 = 119 ∨ b1 = 45
        · by_cases h2 : b2 = 120 ∨ b2 = 45
          · exact ⟨h0, h1, h2⟩
          · simp only [not_or] at h2
            simp [h2.1, h2.2] at h
        · simp only [not_or] at h1
          simp [h1.1, h1.2] at h
      · simp only [not_or] at h0
        simp [h0.1, h0.2] at h
    · rintro ⟨_, _, _, ⟨rfl, rfl, rfl⟩, h0, h1, h2⟩
      rcases h0 with rfl | rfl <;> rcases h1 with rfl | rfl <;> rcases h2 with rfl | rfl <;>
        decide
  · simp

theorem literal_byte_lt (b k : UInt8) (hk : k = 114 ∨ k = 119 ∨ k = 120)
    (h : b = k ∨ b = 45) : b < 128 := by
  rcases h with rfl | rfl
  · rcases hk with rfl | rfl | rfl <;> decide
  · decide

theorem InitPermission_isSome_iff (unicodeToLower : Char → Char) (s : String) :
    (InitPermission unicodeToLower s).isSome = true ↔
      ∃ c0 c1 c2, s = String.mk [c0, c1, c2] ∧ (c0 = 'r' ∨ c0 = 'R' ∨ c0 = '-')
        ∧ (c1 = 'w' ∨ c1 = 'W' ∨ c1 = '-') ∧ (c2 = 'x' ∨ c2 = 'X' ∨ c2 = '-') := by
  constructor
  · intro h
    obtain ⟨hlen, b0, b1, b2, rest, hbytes, v0, v1, v2⟩ :=
      (InitPermission_isSome_bytes unicodeToLower s).1 h
    obtain ⟨c0, c1, c2, hcs, a0, a1, a2, e0, e1, e2, _⟩ :=
      three_ascii_chars (lowerRune unicodeToLower) s.data b0 b1 b2 rest hlen hbytes
        (literal_byte_lt b0 114 (by simp) v0) (literal_byte_lt b1 119 (by simp) v1)
        (literal_byte_lt b2 120 (by simp) v2)
    have l0 : lowerRune unicodeToLower c0 = c0.toLower := by unfold lowerRune; rw [if_pos a0]
    have l1 : lowerRune unicodeToLower c1 = c1.toLower := by unfold lowerRune; rw [if_pos a1]
    have l2 : lowerRune unicodeToLower c2 = c2.toLower := by unfold lowerRune; rw [if_pos a2]
    rw [l0] at e0
    rw [l1] at e1
    rw [l2] at e2
    obtain ⟨⟨r0, _, _, d0⟩, _⟩ := ascii_literal_char c0 a0
    obtain ⟨⟨_, w1, _, d1⟩, _⟩ := ascii_literal_char c1 a1
    obtain ⟨⟨_, _, x2, d2⟩, _⟩ := ascii_literal_char c2 a2
    refine ⟨c0, c1, c2, ?_, ?_, ?_, ?_⟩
    · obtain ⟨data⟩ := s
      simp only at hcs
      rw [hcs]
    · rcases v0 with v | v
      · rcases r0 (e0 ▸ v) with h | h
        · exact Or.inl h
        · exact Or.inr (Or.inl h)
      · exact Or.inr (Or.inr (d0 (e0 ▸ v)))
    · rcases v1 with v | v
      · rcases w1 (e1 ▸ v) with h | h
        · exact Or.inl h
        · exact Or.inr (Or.inl h)
      · exact Or.inr (Or.inr (d1 (e1 ▸ v)))
    · rcases v2 with v | v
      · rcases x2 (e2 ▸ v) with h | h
        · exact Or.inl h
        · exact Or.inr (Or.inl h)
      · exact Or.inr (Or.inr (d2 (e2 ▸ v)))
  · rintro ⟨c0, c1, c2, rfl, h0, h1, h2⟩
    rcases h0 with rfl | rfl | rfl <;> rcases h1 with rfl | rfl | rfl <;>
      rcases h2 with rfl | rfl | rfl <;> rfl

theorem IsValidPerm_iff (s : String) :
    IsValidPerm s = true ↔
      ∃ c0 c1 c2, s = String.mk [c0, c1, c2] ∧ (c0 = 'r' ∨ c0 = '-')
        ∧ (c1 = 'w' ∨ c1 = '-') ∧ (c2 = 'x' ∨ c2 = '-') := by
  constructor
  · intro h
    obtain ⟨b0, b1, b2, hbytes, v0, v1, v2⟩ := (IsValidPerm_bytes s).1 h
    have hlen : (s.data.flatMap String.utf8EncodeChar).length = 3 := by
      have := congrArg List.length hbytes
      simpa [goBytes] using this
    have hmap : (s.data.map id).flatMap String.utf8EncodeChar = b0 :: b1 :: b2 :: [] := by
      rw [List.map_id]
      exact hbytes
    obtain ⟨c0, c1, c2, hcs, a0, a1, a2, e0, e1, e2, _⟩ :=
      three_ascii_chars id s.data b0 b1 b2 [] hlen hmap
        (literal_byte_lt b0 114 (by simp) v0) (literal_byte_lt b1 119 (by simp) v1)
        (literal_byte_lt b2 120 (by simp) v2)
    simp only [id] at e0 e1 e2
    obtain ⟨_, r0, _, _, d0⟩ := ascii_literal_char c0 a0
    obtain ⟨_, _, w1, _, d1⟩ := ascii_literal_char c1 a1
    obtain ⟨_, _, _, x2, d2⟩ := ascii_literal_char c2 a2
    refine ⟨c0, c1, c2, ?_, ?_, ?_, ?_⟩
    · obtain ⟨data⟩ := s
      simp only at hcs
      rw [hcs]
    · rcases v0 with v | v
      · exact Or.inl (r0 (e0 ▸ v))
      · exact Or.inr (d0 (e0 ▸ v))
    · rcases v1 with v | v
      · exact Or.inl (w1 (e1 ▸ v))
      · exact Or.inr (d1 (e1 ▸ v))
    · rcases v2 with v | v
      · exact Or.inl (x2 (e2 ▸ v))
      · exact Or.inr (d2 (e2 ▸ v))
  · rintro ⟨c0, c1, c2, rfl, h0, h1, h2⟩
    rcases h0 with rfl | rfl <;> rcases h1 with rfl | rfl <;>
      rcases h2 with rfl | rfl <;> rfl

/-! ## Settled properties of the permission literals -/

/-- C11, as stated, fails: `InitPermission` succeeds on the literal `RWX`,
for which `IsValidPerm` is false. -/
theorem InitPermission_accepts_uppercase :
    (∀ unicodeToLower : Char → Char,
        InitPermission unicodeToLower "RWX" = some { R := true, W := true, X := true })
      ∧ IsValidPerm "RWX" = false :=
  ⟨fun _ => rfl, by decide⟩

/-- C11, amended. `InitPermission(s)` succeeds (does not panic) exactly when
`s` is a 3-character literal whose characters are taken from {r,R,-}, {w,W,-},
{x,X,-} in that order (the function lowers `s` before it checks it), which
includes every `s` for which `IsValidPerm(s)` is true, the literals over {r,-},
{w,-}, {x,-}; every other string is rejected with a panic. -/
theorem InitPermission_succeeds_iff (unicodeToLower : Char → Char) (s : String) :
    ((InitPermission unicodeToLower s).isSome = true ↔
        ∃ c0 c1 c2, s = String.mk [c0, c1, c2] ∧ (c0 = 'r' ∨ c0 = 'R' ∨ c0 = '-')
          ∧ (c1 = 'w' ∨ c1 = 'W' ∨ c1 = '-') ∧ (c2 = 'x' ∨ c2 = 'X' ∨ c2 = '-'))
      ∧ (IsValidPerm s = true ↔
        ∃ c0 c1 c2, s = String.mk [c0, c1, c2] ∧ (c0 = 'r' ∨ c0 = '-')
          ∧ (c1 = 'w' ∨ c1 = '-') ∧ (c2 = 'x' ∨ c2 = '-'))
      ∧ (IsValidPerm s = true → (InitPermission unicodeToLower s).isSome = true) := by
  refine ⟨InitPermission_isSome_iff unicodeToLower s, IsValidPerm_iff s, ?_⟩
  · intro h
    obtain ⟨c0, c1, c2, hs, h0, h1, h2⟩ := (IsValidPerm_iff s).1 h
    refine (InitPermission_isSome_iff unicodeToLower s).2 ⟨c0, c1, c2, hs, ?_, ?_, ?_⟩
    · rcases h0 with h | h
      · exact Or.inl h
      · exact Or.inr (Or.inr h)
    · rcases h1 with h | h
      · exact Or.inl h
      · exact Or.inr (Or.inr h)
    · rcases h2 with h | h
      · exact Or.inl h
      · exact Or.inr (Or.inr h)

/-! ## The serializer -/

theorem foldl_rwx (entries : List PolicyRow) (cmdp : CmdPolicy) :
    entries.foldl
      (fun (cmdp : CmdPolicy) r =>
        let cmdp := if r.Perm.R then { cmdp with Read := cmdp.Read ++ [r.Req] } else cmdp
        let cmdp := if r.Perm.W then { cmdp with Write := cmdp.Write ++ [r.Req] } else cmdp
        if r.Perm.X then { cmdp with Exec := cmdp.Exec ++ [r.Req] } else cmdp)
      cmdp
    = { cmdp with
        Read := cmdp.Read ++ (entries.filter (fun r => r.Perm.R)).map (fun r => r.Req)
        Write := cmdp.Write ++ (entries.filter (fun r => r.Perm.W)).map (fun r => r.Req)
        Exec := cmdp.Exec ++ (entries.filter (fun r => r.Perm.X)).map (fun r => r.Req) } := by
  induction entries generalizing cmdp with
  | nil => simp
  | cons r rs ih =>
    rw [List.foldl_cons, ih]
    obtain ⟨req, ⟨x, w, rd⟩, origin⟩ := r
    cases x <;> cases w <;> cases rd <;> simp [List.filter_cons]

theorem foldl_deny (denials : List PolicyRow) (cmdp : CmdPolicy) :
    denials.foldl (fun (cmdp : CmdPolicy) r => { cmdp with Deny := cmdp.Deny ++ [r.Req] }) cmdp
    = { cmdp with Deny := cmdp.Deny ++ denials.map (fun r => r.Req) } := by
  induction denials generalizing cmdp with
  | nil => simp
  | cons r rs ih =>
    rw [List.foldl_cons, ih]
    simp

theorem addCmdPolicy_fst (store : DenyTable) (POLICY_DIR : String) (P : Policy)
    (pid : PolicyIdentifier) (perms : SecurityProfile) :
    (addCmdPolicy store POLICY_DIR P pid perms).1 = cmdPolicyOf store POLICY_DIR pid perms := by
  unfold addCmdPolicy cmdPolicyOf
  simp only [foldl_rwx, foldl_deny]
  simp

theorem addCmdPolicy_snd (store : DenyTable) (POLICY_DIR : String) (P : Policy)
    (pid : PolicyIdentifier) (perms : SecurityProfile) :
    (addCmdPolicy store POLICY_DIR P pid perms).2
      = { P with Max_depth := max P.Max_depth (policyDepth store POLICY_DIR pid) } := by
  unfold addCmdPolicy policyDepth policyDirDenial
  dsimp only
  split
  · rename_i h
    rw [max_eq_right (le_of_lt h)]
  · rename_i h
    rw [max_eq_left (not_lt.mp h)]

/-- What the loop of `SerializePolicy` adds to `P`. -/
theorem serializeLoop_eq (store : DenyTable) (POLICY_DIR : String) :
    ∀ (sps : List SecurityProfile) (pids : List PolicyIdentifier) (P P' : Policy),
      serializeLoop store POLICY_DIR pids sps P = some P' →
      sps.length ≤ pids.length
        ∧ P'.Policies = P.Policies
            ++ (List.zip pids sps).map (fun x => cmdPolicyOf store POLICY_DIR x.1 x.2)
        ∧ P'.Max_depth = (List.zip pids sps).foldl
            (fun m x => max m (policyDepth store POLICY_DIR x.1)) P.Max_depth := by
  intro sps
  induction sps with
  | nil =>
    intro pids P P' h
    cases pids <;> simp [serializeLoop] at h <;> subst h <;> simp
  | cons sp sps ih =>
    intro pids P P' h
    cases pids with
    | nil => simp [serializeLoop] at h
    | cons pid pids =>
      rw [serializeLoop] at h
      obtain ⟨h1, h2, h3⟩ := ih pids _ P' h
      refine ⟨by simpa using h1, ?_, ?_⟩
      · rw [h2, addCmdPolicy_fst, addCmdPolicy_snd]
        simp [cmdPolicyOf]
      · rw [h3, addCmdPolicy_snd]
        simp

theorem serializeLoop_isSome (store : DenyTable) (POLICY_DIR : String) :
    ∀ (sps : List SecurityProfile) (pids : List PolicyIdentifier) (P : Policy),
      sps.length ≤ pids.length → ∃ P', serializeLoop store POLICY_DIR pids sps P = some P' := by
  intro sps
  induction sps with
  | nil =>
    intro pids P _
    cases pids <;> exact ⟨P, by simp [serializeLoop]⟩
  | cons sp sps ih =>
    intro pids P h
    cases pids with
    | nil => simp at h
    | cons pid pids =>
      rw [serializeLoop]
      exact ih pids _ (by simpa using h)

/-! ## Depth of the denials -/

theorem foldl_depth_ge_init {α : Type} (g : α → Int) (l : List α) (m : Int) :
    m ≤ l.foldl (fun m d => if g d > m then g d else m) m := by
  induction l generalizing m with
  | nil => exact le_refl m
  | cons d ds ih =>
    rw [List.foldl_cons]
    refine le_trans ?_ (ih _)
    split
    · rename_i h; exact le_of_lt h
    · exact le_refl m

theorem foldl_depth_ge_mem {α : Type} (g : α → Int) (l : List α) (m : Int) :
    ∀ d ∈ l, g d ≤ l.foldl (fun m d => if g d > m then g d else m) m := by
  induction l generalizing m with
  | nil => intro d hd; exact absurd hd (List.not_mem_nil d)
  | cons e es ih =>
    intro d hd
    rw [List.foldl_cons]
    rcases List.mem_cons.1 hd with rfl | hd
    · refine le_trans ?_ (foldl_depth_ge_init g es _)
      split
      · exact le_refl _
      · rename_i h; exact not_lt.mp h
    · exact ih _ d hd

theorem foldl_depth_attained {α : Type} (g : α → Int) (l : List α) (m : Int) :
    l.foldl (fun m d => if g d > m then g d else m) m = m
      ∨ ∃ d ∈ l, g d = l.foldl (fun m d => if g d > m then g d else m) m := by
  induction l generalizing m with
  | nil => exact Or.inl rfl
  | cons e es ih =>
    rw [List.foldl_cons]
    rcases ih (if g e > m then g e else m) with h | ⟨d, hd, h⟩
    · rw [h]
      split
      · exact Or.inr ⟨e, List.mem_cons_self e es, rfl⟩
      · exact Or.inl rfl
    · exact Or.inr ⟨d, List.mem_cons_of_mem e hd, h⟩

theorem foldl_depth_init {α : Type} (g : α → Int) (l : List α) :
    ∀ m₀ m : Int, m₀ ≤ m →
      l.foldl (fun m d => if g d > m then g d else m) m
        = max m (l.foldl (fun m d => if g d > m then g d else m) m₀) := by
  induction l with
  | nil =>
    intro m₀ m h
    simp [max_eq_left h]
  | cons d ds ih =>
    intro m₀ m h
    rw [List.foldl_cons, List.foldl_cons]
    have hstep : (if g d > m₀ then g d else m₀) ≤ (if g d > m then g d else m) := by
      split <;> split <;> omega
    rw [ih _ _ hstep]
    have hx := foldl_depth_ge_init g ds (if g d > m₀ then g d else m₀)
    have hgd : g d ≤ (if g d > m₀ then g d else m₀) := by split <;> omega
    have hm : m ≤ (if g d > m then g d else m) := by split <;> omega
    have hm' : (if g d > m then g d else m) ≤ max m (g d) := by
      split
      · exact le_max_right _ _
      · exact le_max_left _ _
    apply le_antisymm
    · apply max_le
      · refine le_trans hm' (max_le (le_max_left _ _) ?_)
        exact le_trans (le_trans hgd hx) (le_max_right _ _)
      · exact le_max_right _ _
    · apply max_le
      · exact le_trans hm (le_max_left _ _)
      · exact le_max_right _ _

theorem pathDepth_nonneg (req : String) : 0 ≤ pathDepth req := by
  unfold pathDepth
  exact Int.natCast_nonneg _

theorem maxDenialsDepth_of_ne_nil (denials : List PolicyRow) (h : denials ≠ []) :
    maxDenialsDepth denials
      = denials.foldl
          (fun maxDepth d => if pathDepth d.Req > maxDepth then pathDepth d.Req else maxDepth) 0 := by
  unfold maxDenialsDepth
  rw [if_neg]
  simpa using h

/-- On a non-empty list `maxDenialsDepth` is the largest `pathDepth`. -/
theorem maxDenialsDepth_spec (denials : List PolicyRow) (h : denials ≠ []) :
    (∃ d ∈ denials, pathDepth d.Req = maxDenialsDepth denials)
      ∧ ∀ d ∈ denials, pathDepth d.Req ≤ maxDenialsDepth denials := by
  rw [maxDenialsDepth_of_ne_nil denials h]
  refine ⟨?_, foldl_depth_ge_mem (fun d : PolicyRow => pathDepth d.Req) denials 0⟩
  rcases foldl_depth_attained (fun d : PolicyRow => pathDepth d.Req) denials 0 with h0 | hex
  · cases denials with
    | nil => exact absurd rfl h
    | cons d ds =>
      refine ⟨d, List.mem_cons_self d ds, ?_⟩
      have hle := foldl_depth_ge_mem (fun d : PolicyRow => pathDepth d.Req) (d :: ds) 0 d
        (List.mem_cons_self d ds)
      rw [h0] at hle ⊢
      exact le_antisymm hle (pathDepth_nonneg d.Req)
  · exact hex

theorem length_splitSlash (l : List Char) : (splitSlash l).length = l.count '/' + 1 := by
  induction l with
  | nil => rfl
  | cons c cs ih =>
    unfold splitSlash
    split
    · rename_i h
      rw [h] at ih
      simp at ih
    · rename_i piece pieces h
      rw [h] at ih
      by_cases hc : c = '/'
      · subst hc
        simp only [if_true, List.length_cons, List.count_cons_self] at ih ⊢
        omega
      · rw [if_neg hc, List.count_cons_of_ne (Ne.symm hc)]
        simpa using ih

/-- The depth of a path is the number of `/` characters in it. -/
theorem pathDepth_eq_count (req : String) : pathDepth req = (req.data.count '/' : Int) := by
  unfold pathDepth Split
  rw [List.length_drop, List.length_map, length_splitSlash]
  simp

theorem policyDepth_nonneg (store : DenyTable) (POLICY_DIR : String) (pid : PolicyIdentifier) :
    0 ≤ policyDepth store POLICY_DIR pid := by
  unfold policyDepth
  rw [maxDenialsDepth_of_ne_nil _ (by simp)]
  exact foldl_depth_ge_init _ _ 0

theorem foldl_max_ge_init' {α : Type} (g : α → Int) (l : List α) (m : Int) :
    m ≤ l.foldl (fun m x => max m (g x)) m := by
  induction l generalizing m with
  | nil => exact le_refl m
  | cons d ds ih => exact le_trans (le_max_left m (g d)) (ih _)

theorem foldl_max_ge_mem' {α : Type} (g : α → Int) (l : List α) (m : Int) :
    ∀ x ∈ l, g x ≤ l.foldl (fun m x => max m (g x)) m := by
  induction l generalizing m with
  | nil => intro x hx; exact absurd hx (List.not_mem_nil x)
  | cons e es ih =>
    intro x hx
    rw [List.foldl_cons]
    rcases List.mem_cons.1 hx with rfl | hx
    · exact le_trans (le_max_right m (g x)) (foldl_max_ge_init' g es _)
    · exact ih _ x hx

theorem foldl_max_attained' {α : Type} (g : α → Int) (l : List α) (m : Int) :
    l.foldl (fun m x => max m (g x)) m = m
      ∨ ∃ x ∈ l, g x = l.foldl (fun m x => max m (g x)) m := by
  induction l generalizing m with
  | nil => exact Or.inl rfl
  | cons e es ih =>
    rw [List.foldl_cons]
    rcases ih (max m (g e)) with h | ⟨x, hx, h⟩
    · rw [h]
      rcases max_choice m (g e) with hm | hg
      · exact Or.inl hm
      · exact Or.inr ⟨e, List.mem_cons_self e es, hg.symm⟩
    · exact Or.inr ⟨x, List.mem_cons_of_mem e hx, h⟩

theorem FixDepth_Max_depth_eq (document : Policy) :
    (FixDepth document).Max_depth
      = (document.Policies.flatMap (fun p => p.Deny)).foldl
          (fun max_d deny => if pathDepth deny > max_d then pathDepth deny else max_d) 0 := by
  unfold FixDepth
  dsimp only
  generalize (0 : Int) = m
  induction document.Policies generalizing m with
  | nil => rfl
  | cons p ps ih =>
    rw [List.foldl_cons, List.flatMap_cons, List.foldl_append]
    exact ih _

theorem nonEmptySegments_eq_pathDepth (req : String)
    (h : ∀ part ∈ (Split req).drop 1, part ≠ "") : nonEmptySegments req = pathDepth req := by
  unfold nonEmptySegments pathDepth
  rw [List.filter_eq_self.2]
  intro part hpart
  simpa using h part hpart

theorem cmdPolicyOf_deny_foldl (store : DenyTable) (POLICY_DIR : String)
    (pid : PolicyIdentifier) (perms : SecurityProfile) (m : Int) (hm : 0 ≤ m) :
    (cmdPolicyOf store POLICY_DIR pid perms).Deny.foldl
        (fun max_d deny => if pathDepth deny > max_d then pathDepth deny else max_d) m
      = max m (policyDepth store POLICY_DIR pid) := by
  have hdeny : (cmdPolicyOf store POLICY_DIR pid perms).Deny
      = (GetDenials store pid.Pol ++ [policyDirDenial POLICY_DIR]).map (fun r => r.Req) := by
    simp [cmdPolicyOf, policyDirDenial]
  rw [hdeny, List.foldl_map]
  unfold policyDepth
  rw [maxDenialsDepth_of_ne_nil _ (by simp)]
  exact foldl_depth_init (fun d : PolicyRow => pathDepth d.Req) _ 0 m hm

theorem serialized_depth_foldl (store : DenyTable) (POLICY_DIR : String)
    (l : List (PolicyIdentifier × SecurityProfile)) :
    ∀ m : Int, 0 ≤ m →
      (l.map (fun x => cmdPolicyOf store POLICY_DIR x.1 x.2)).foldl
          (fun max_d p =>
            p.Deny.foldl
              (fun max_d deny => if pathDepth deny > max_d then pathDepth deny else max_d) max_d)
          m
        = l.foldl (fun m x => max m (policyDepth store POLICY_DIR x.1)) m := by
  induction l with
  | nil => intro m _; rfl
  | cons x xs ih =>
    intro m hm
    rw [List.map_cons, List.foldl_cons, List.foldl_cons,
      cmdPolicyOf_deny_foldl store POLICY_DIR x.1 x.2 m hm]
    exact ih _ (le_trans hm (le_max_left _ _))

theorem SerializePolicy_eq (store : DenyTable) (pids : List PolicyIdentifier)
    (sps : List SecurityProfile) (pdir : String) (document : Policy)
    (h : SerializePolicy store pids sps pdir = some document) :
    sps.length ≤ pids.length
      ∧ document.Policies = (List.zip pids sps).map (fun x => cmdPolicyOf store pdir x.1 x.2)
      ∧ document.Max_depth
          = (List.zip pids sps).foldl (fun m x => max m (policyDepth store pdir x.1)) 0 := by
  unfold SerializePolicy at h
  obtain ⟨h1, h2, h3⟩ := serializeLoop_eq store pdir sps pids _ document h
  exact ⟨h1, by simpa using h2, h3⟩

theorem FixDepth_SerializePolicy (store : DenyTable) (pids : List PolicyIdentifier)
    (sps : List SecurityProfile) (pdir : String) (document : Policy)
    (h : SerializePolicy store pids sps pdir = some document) :
    FixDepth document = document := by
  obtain ⟨_, h2, h3⟩ := SerializePolicy_eq store pids sps pdir document h
  have hmax : (FixDepth document).Max_depth = document.Max_depth := by
    unfold FixDepth
    dsimp only
    rw [h2, h3]
    exact serialized_depth_foldl store pdir _ 0 (le_refl 0)
  obtain ⟨policies, max_depth⟩ := document
  unfold FixDepth at hmax ⊢
  simp only at hmax ⊢
  rw [hmax]

/-! ## Settled properties of the serializer -/

/-- C12. For every policy identifier and profile, the deny list built by
`addCmdPolicy` is the stored denials of that policy in order followed by the
policy output directory `POLICY_DIR` as its last element; `SerializePolicy`
returns when every profile has its identifier, and every policy of the document
has a non-empty deny list that contains the policy directory as its last
element. -/
theorem addCmdPolicy_deny (store : DenyTable) (pdir : String) :
    (∀ (P : Policy) (pid : PolicyIdentifier) (perms : SecurityProfile),
        (addCmdPolicy store pdir P pid perms).1.Deny
          = (GetDenials store pid.Pol).map (fun r => r.Req) ++ [pdir])
      ∧ ∀ (pids : List PolicyIdentifier) (sps : List SecurityProfile),
          sps.length ≤ pids.length →
          ∃ document, SerializePolicy store pids sps pdir = some document ∧
            ∀ p ∈ document.Policies,
              p.Deny ≠ [] ∧ pdir ∈ p.Deny ∧ p.Deny.getLast? = some pdir := by
  constructor
  · intro P pid perms
    rw [addCmdPolicy_fst]
    rfl
  · intro pids sps hlen
    obtain ⟨document, hdoc⟩ := serializeLoop_isSome store pdir sps pids
      { Policies := [], Max_depth := 0 } hlen
    refine ⟨document, hdoc, ?_⟩
    intro p hp
    rw [(SerializePolicy_eq store pids sps pdir document hdoc).2.1, List.mem_map] at hp
    obtain ⟨x, _, rfl⟩ := hp
    simp [cmdPolicyOf]

theorem addCmdPolicy_deny_witness :
    (∀ (P : Policy) (pid : PolicyIdentifier) (perms : SecurityProfile),
        (addCmdPolicy sampleDeny "/home/alice/.dmng_profiles" P pid perms).1.Deny
          = (GetDenials sampleDeny pid.Pol).map (fun r => r.Req)
              ++ ["/home/alice/.dmng_profiles"])
      ∧ ([⟨[⟨"/bin/ls", permRX, EXECUTABLE⟩]⟩] : List SecurityProfile).length
          ≤ ([⟨1, "ls", "dev"⟩] : List PolicyIdentifier).length
      ∧ ∃ document,
          SerializePolicy sampleDeny [⟨1, "ls", "dev"⟩] [⟨[⟨"/bin/ls", permRX, EXECUTABLE⟩]⟩]
              "/home/alice/.dmng_profiles" = some document ∧
            ∀ p ∈ document.Policies,
              p.Deny ≠ [] ∧ "/home/alice/.dmng_profiles" ∈ p.Deny
                ∧ p.Deny.getLast? = some "/home/alice/.dmng_profiles" :=
  ⟨(addCmdPolicy_deny sampleDeny "/home/alice/.dmng_profiles").1, by decide,
    (addCmdPolicy_deny sampleDeny "/home/alice/.dmng_profiles").2 [⟨1, "ls", "dev"⟩]
      [⟨[⟨"/bin/ls", permRX, EXECUTABLE⟩]⟩] (by decide)⟩

/-- C13. For every profile, `addCmdPolicy` puts in the read list the paths of
the rows that have R, in the write list those of the rows that have W and in
the exec list those of the rows that have X, each list in the order of the
profile rows; so a row is in a list exactly when it has the bit of that list. -/
theorem addCmdPolicy_read_write_exec (store : DenyTable) (pdir : String) (P : Policy)
    (pid : PolicyIdentifier) (perms : SecurityProfile) :
    (addCmdPolicy store pdir P pid perms).1.Read
        = (perms.Entries.filter (fun r => r.Perm.R)).map (fun r => r.Req)
      ∧ (addCmdPolicy store pdir P pid perms).1.Write
        = (perms.Entries.filter (fun r => r.Perm.W)).map (fun r => r.Req)
      ∧ (addCmdPolicy store pdir P pid perms).1.Exec
        = (perms.Entries.filter (fun r => r.Perm.X)).map (fun r => r.Req) := by
  rw [addCmdPolicy_fst]
  exact ⟨rfl, rfl, rfl⟩

/-- C14, as stated, fails: for the single denial `/etc/ssl/` the function
`maxDenialsDepth` returns 3, while the path has 2 non-empty segments after the
leading `/`. -/
theorem maxDenialsDepth_counts_empty_segments :
    maxDenialsDepth [⟨"/etc/ssl/", {}, ""⟩] = 3 ∧ nonEmptySegments "/etc/ssl/" = 2 := by
  decide

/-- C14, amended. For every non-empty list of denial paths, `maxDenialsDepth`
returns the maximum over the paths of the number of `/`-separated segments
after the first one, empty segments included, which is the number of `/`
characters of the path and, for a path without empty segments after the leading
`/`, the number of its non-empty segments; `SerializePolicy` stores in
`max_depth` the maximum of that value over all policies (0 without policies). -/
theorem maxDenialsDepth_max_segments (denials : List PolicyRow) (hne : denials ≠ []) :
    ((∃ d ∈ denials, pathDepth d.Req = maxDenialsDepth denials)
        ∧ ∀ d ∈ denials, pathDepth d.Req ≤ maxDenialsDepth denials)
      ∧ (∀ req : String, pathDepth req = (req.data.count '/' : Int)
          ∧ ((∀ part ∈ (Split req).drop 1, part ≠ "") → pathDepth req = nonEmptySegments req))
      ∧ ∀ (store : DenyTable) (pids : List PolicyIdentifier) (sps : List SecurityProfile)
          (pdir : String) (document : Policy),
          SerializePolicy store pids sps pdir = some document →
          (∀ x ∈ List.zip pids sps, policyDepth store pdir x.1 ≤ document.Max_depth)
            ∧ (sps ≠ [] → ∃ x ∈ List.zip pids sps,
                policyDepth store pdir x.1 = document.Max_depth)
            ∧ (sps = [] → document.Max_depth = 0) := by
  refine ⟨maxDenialsDepth_spec denials hne, ?_, ?_⟩
  · intro req
    exact ⟨pathDepth_eq_count req, fun h => (nonEmptySegments_eq_pathDepth req h).symm⟩
  · intro store pids sps pdir document hdoc
    obtain ⟨hlen, _, hmax⟩ := SerializePolicy_eq store pids sps pdir document hdoc
    rw [hmax]
    refine ⟨foldl_max_ge_mem' (fun x : PolicyIdentifier × SecurityProfile =>
      policyDepth store pdir x.1) _ 0, ?_, ?_⟩
    · intro hsps
      rcases foldl_max_attained' (fun x : PolicyIdentifier × SecurityProfile =>
        policyDepth store pdir x.1) (List.zip pids sps) 0 with h0 | hex
      · cases sps with
        | nil => exact absurd rfl hsps
        | cons sp sps =>
          cases pids with
          | nil => simp at hlen
          | cons pid pids =>
            refine ⟨(pid, sp), by simp, ?_⟩
            have hle := foldl_max_ge_mem' (fun x : PolicyIdentifier × SecurityProfile =>
              policyDepth store pdir x.1) (List.zip (pid :: pids) (sp :: sps)) 0 (pid, sp)
              (by simp)
            rw [h0] at hle ⊢
            exact le_antisymm hle (policyDepth_nonneg store pdir pid)
      · exact hex
    · intro hsps
      rw [hsps]
      simp

theorem maxDenialsDepth_max_segments_witness :
    ([⟨"/a/b/c", {}, ""⟩] : List PolicyRow) ≠ [] ∧ maxDenialsDepth [⟨"/a/b/c", {}, ""⟩] = 3
      ∧ ∃ d ∈ ([⟨"/a/b/c", {}, ""⟩] : List PolicyRow),
          pathDepth d.Req = maxDenialsDepth [⟨"/a/b/c", {}, ""⟩] :=
  ⟨by decide, by decide,
    (maxDenialsDepth_max_segments [⟨"/a/b/c", {}, ""⟩] (by decide)).1.1⟩

/-- C15. For every policy document, `FixDepth` leaves the policies list
unchanged and sets `max_depth` to a value that depends only on the deny arrays,
whatever `max_depth` held before: the maximum over every deny entry of every
policy of its depth, 0 when there is no deny entry; applied to a document that
`SerializePolicy` produced it leaves the document unchanged. -/
theorem FixDepth_recomputes_max_depth (document : Policy) :
    (FixDepth document).Policies = document.Policies
      ∧ (∀ k : Int, FixDepth { document with Max_depth := k } = FixDepth document)
      ∧ (∀ p ∈ document.Policies, ∀ deny ∈ p.Deny,
          pathDepth deny ≤ (FixDepth document).Max_depth)
      ∧ ((∀ p ∈ document.Policies, p.Deny = []) → (FixDepth document).Max_depth = 0)
      ∧ ((∃ p ∈ document.Policies, p.Deny ≠ []) →
          ∃ p ∈ document.Policies, ∃ deny ∈ p.Deny,
            pathDepth deny = (FixDepth document).Max_depth)
      ∧ ∀ (store : DenyTable) (pids : List PolicyIdentifier) (sps : List SecurityProfile)
          (pdir : String),
          SerializePolicy store pids sps pdir = some document → FixDepth document = document := by
  refine ⟨rfl, fun _ => rfl, ?_, ?_, ?_, ?_⟩
  · intro p hp deny hdeny
    rw [FixDepth_Max_depth_eq]
    exact foldl_depth_ge_mem pathDepth _ 0 deny (List.mem_flatMap.2 ⟨p, hp, hdeny⟩)
  · intro hall
    rw [FixDepth_Max_depth_eq]
    have : document.Policies.flatMap (fun p => p.Deny) = [] := by
      rw [List.flatMap_eq_nil_iff]
      exact hall
    rw [this]
    rfl
  · rintro ⟨p, hp, hne⟩
    rw [FixDepth_Max_depth_eq]
    rcases foldl_depth_attained pathDepth (document.Policies.flatMap (fun p => p.Deny)) 0
      with h0 | ⟨deny, hdeny, heq⟩
    · cases hd : p.Deny with
      | nil => exact absurd hd hne
      | cons deny rest =>
        have hmem : deny ∈ p.Deny := by rw [hd]; exact List.mem_cons_self deny rest
        refine ⟨p, hp, deny, hmem, ?_⟩
        have hle := foldl_depth_ge_mem pathDepth (document.Policies.flatMap (fun p => p.Deny)) 0
          deny (List.mem_flatMap.2 ⟨p, hp, hmem⟩)
        rw [h0] at hle ⊢
        exact le_antisymm hle (pathDepth_nonneg deny)
    · obtain ⟨q, hq, hdq⟩ := List.mem_flatMap.1 hdeny
      exact ⟨q, hq, deny, hdq, heq⟩
  · intro store pids sps pdir h
    exact FixDepth_SerializePolicy store pids sps pdir document h

theorem FixDepth_recomputes_max_depth_witness :
    SerializePolicy sampleDeny [⟨1, "ls", "dev"⟩] [⟨[⟨"/bin/ls", permRX, EXECUTABLE⟩]⟩]
        "/home/alice/.dmng_profiles" = some sampleDocument
      ∧ FixDepth sampleDocument = sampleDocument
      ∧ FixDepth { sampleDocument with Max_depth := 99 } = FixDepth sampleDocument :=
  ⟨by decide,
    (FixDepth_recomputes_max_depth sampleDocument).2.2.2.2.2 sampleDeny [⟨1, "ls", "dev"⟩]
      [⟨[⟨"/bin/ls", permRX, EXECUTABLE⟩]⟩] "/home/alice/.dmng_profiles" (by decide),
    (FixDepth_recomputes_max_depth sampleDocument).2.1 99⟩

/-! ## Settled properties of the store: denials and contexts -/

/-- C16, as stated, fails: `AddDenial` of a pair `(pol, req)` that the table
DENY already holds does not complete, it panics (the table is unchanged). -/
theorem AddDenial_duplicate_does_not_complete :
    (AddDenial sampleDeny 1 "/etc/shadow").completed = false
      ∧ (AddDenial sampleDeny 1 "/etc/shadow").table = sampleDeny := by
  decide

/-- C16, amended. `AddDenial(pol, req)` rejects a duplicate with a panic: when
a DENY row for `(pol, req)` already exists the INSERT fails on
`UNIQUE(pol, req)`, the call panics and the table DENY is unchanged; when no
such row exists the call completes and appends the row; so a table without two
rows for the same `(pol, req)` never gets two. -/
theorem AddDenial_unique (T : DenyTable) (pol : Int) (req : String)
    (huniq : (T.rows.map (fun r => (r.pol, r.req))).Nodup) :
    ((∃ r ∈ T.rows, r.pol = pol ∧ r.req = req) →
        (AddDenial T pol req).completed = false ∧ (AddDenial T pol req).table = T)
      ∧ ((¬ ∃ r ∈ T.rows, r.pol = pol ∧ r.req = req) →
        (AddDenial T pol req).completed = true
          ∧ (AddDenial T pol req).table.rows.map (fun r => (r.pol, r.req))
              = T.rows.map (fun r => (r.pol, r.req)) ++ [(pol, req)])
      ∧ ((AddDenial T pol req).table.rows.map (fun r => (r.pol, r.req))).Nodup := by
  have hany : (T.rows.any (fun r => r.pol == pol && r.req == req)) = true
      ↔ ∃ r ∈ T.rows, r.pol = pol ∧ r.req = req := by
    simp [List.any_eq_true]
  by_cases hex : ∃ r ∈ T.rows, r.pol = pol ∧ r.req = req
  · have h := hany.2 hex
    refine ⟨fun _ => ?_, fun hn => absurd hex hn, ?_⟩
    · unfold AddDenial
      rw [if_pos h]
      exact ⟨rfl, rfl⟩
    · unfold AddDenial
      rw [if_pos h]
      exact huniq
  · have h : ¬ (T.rows.any (fun r => r.pol == pol && r.req == req)) = true :=
      fun h => hex (hany.1 h)
    have hrows : (AddDenial T pol req).table.rows.map (fun r => (r.pol, r.req))
        = T.rows.map (fun r => (r.pol, r.req)) ++ [(pol, req)] := by
      unfold AddDenial
      rw [if_neg h]
      simp
    refine ⟨fun he => absurd he hex, fun _ => ⟨?_, hrows⟩, ?_⟩
    · unfold AddDenial
      rw [if_neg h]
    · rw [hrows, List.nodup_append]
      refine ⟨huniq, by simp, ?_⟩
      intro a ha hb
      rw [List.mem_singleton] at hb
      rw [hb, List.mem_map] at ha
      obtain ⟨r, hr, hpair⟩ := ha
      simp only [Prod.mk.injEq] at hpair
      exact hex ⟨r, hr, hpair.1, hpair.2⟩

theorem AddDenial_unique_witness :
    (sampleDeny.rows.map (fun r => (r.pol, r.req))).Nodup
      ∧ ((∃ r ∈ sampleDeny.rows, r.pol = 1 ∧ r.req = "/etc/shadow") →
          (AddDenial sampleDeny 1 "/etc/shadow").completed = false
            ∧ (AddDenial sampleDeny 1 "/etc/shadow").table = sampleDeny)
      ∧ ((¬ ∃ r ∈ sampleDeny.rows, r.pol = 1 ∧ r.req = "/etc/shadow") →
          (AddDenial sampleDeny 1 "/etc/shadow").completed = true
            ∧ (AddDenial sampleDeny 1 "/etc/shadow").table.rows.map (fun r => (r.pol, r.req))
                = sampleDeny.rows.map (fun r => (r.pol, r.req)) ++ [(1, "/etc/shadow")])
      ∧ ((AddDenial sampleDeny 1 "/etc/shadow").table.rows.map
          (fun r => (r.pol, r.req))).Nodup :=
  ⟨by decide, AddDenial_unique sampleDeny 1 "/etc/shadow" (by decide)⟩

/-- C17. For every store state, command `cmd` and context `ctx`, the calls
`UpdateCacheContext(cmd, ctx)` and `UpdatePolicyContext(cmd, ctx)` complete;
afterwards the cache holds exactly one entry for `cmd` and it maps to `ctx`,
the entries of the other commands are as before, a POLICY row for `(cmd, ctx)`
exists, and every POLICY row that existed before is still there with the same
`pol`. -/
theorem updateContext_sets_active_context (S : ContextStore) (cmd ctx : String) :
    (updateContextStore S cmd ctx).completed = true
      ∧ (updateContextStore S cmd ctx).table.cache.filter (fun r => r.cmd == cmd)
          = [{ cmd := cmd, ctx := ctx }]
      ∧ (updateContextStore S cmd ctx).table.cache.filter (fun r => !(r.cmd == cmd))
          = S.cache.filter (fun r => !(r.cmd == cmd))
      ∧ (∃ p ∈ (updateContextStore S cmd ctx).table.policy.rows, p.Cmd = cmd ∧ p.Ctx = ctx)
      ∧ ∀ p ∈ S.policy.rows, p ∈ (updateContextStore S cmd ctx).table.policy.rows := by
  have hpop : (S.cache.filter (fun r => !(r.cmd == cmd))).any (fun r => r.cmd == cmd) = false := by
    rw [List.any_eq_false]
    intro r hr
    have := (List.mem_filter.1 hr).2
    simpa using this
  have hcache : UpdateCacheContext S.cache cmd ctx
      = { completed := true,
          table := S.cache.filter (fun r => !(r.cmd == cmd)) ++ [{ cmd := cmd, ctx := ctx }] } := by
    unfold UpdateCacheContext
    simp only [hpop]
    rfl
  have hstore : updateContextStore S cmd ctx
      = { completed := true,
          table := { cache := S.cache.filter (fun r => !(r.cmd == cmd))
                      ++ [{ cmd := cmd, ctx := ctx }],
                     policy := UpdatePolicyContext S.policy cmd ctx } } := by
    unfold updateContextStore
    rw [hcache]
    rfl
  rw [hstore]
  refine ⟨rfl, ?_, ?_, ?_, ?_⟩
  · simp only [List.filter_append, List.filter_filter]
    simp
  · simp only [List.filter_append, List.filter_filter]
    simp
  · show ∃ p ∈ (UpdatePolicyContext S.policy cmd ctx).rows, p.Cmd = cmd ∧ p.Ctx = ctx
    unfold UpdatePolicyContext
    split
    · rename_i h
      rw [List.any_eq_true] at h
      obtain ⟨p, hp, hpc⟩ := h
      simp only [Bool.and_eq_true, beq_iff_eq] at hpc
      exact ⟨p, hp, hpc⟩
    · exact ⟨_, List.mem_append_right _ (List.mem_singleton.2 rfl), rfl, rfl⟩
  · intro p hp
    show p ∈ (UpdatePolicyContext S.policy cmd ctx).rows
    unfold UpdatePolicyContext
    split
    · exact hp
    · exact List.mem_append_left _ hp

/-! ## Settled properties of the trie and the builder -/

/-- C18. For every trie and every string `req` that starts with `/proc`,
`addRequirement(req, perm, origin)` leaves the trie unchanged, so a trie that
`CreateTrie` builds only from such paths has an empty profile. -/
theorem addRequirement_ignores_proc (root : Node) (req : String) (perm : Permission)
    (origin : String) (hproc : HasPrefix req "/proc" = true) :
    addRequirement root req perm origin = root
      ∧ ∀ (A : AllowSets) (username command : String) (requirements : List PolicyRow),
          (∀ r ∈ requirements, HasPrefix r.Req "/proc" = true) →
          (CreateTrie A username command requirements).2 = emptyTrie
            ∧ GetSecurityProfile (CreateTrie A username command requirements).2 = [] := by
  have hskip : ∀ (n : Node) (q : String) (p : Permission) (o : String),
      HasPrefix q "/proc" = true → addRequirement n q p o = n := by
    intro n q p o hq
    unfold addRequirement
    rw [if_pos]
    simp [IGNORED_PATHS, hq]
  refine ⟨hskip root req perm origin hproc, ?_⟩
  intro A username command requirements hall
  have htrie : (CreateTrie A username command requirements).2 = emptyTrie := by
    unfold CreateTrie emptyTrie
    dsimp only
    generalize createTrieNode "/" "" {} "" false = t
    induction requirements generalizing t with
    | nil => rfl
    | cons r rs ih =>
      rw [List.foldl_cons, hskip t r.Req r.Perm r.Origin (hall r (List.mem_cons_self r rs))]
      exact ih (fun x hx => hall x (List.mem_cons_of_mem r hx)) t
  rw [htrie]
  exact ⟨rfl, by decide⟩

theorem addRequirement_ignores_proc_witness :
    HasPrefix "/proc/self/status" "/proc" = true
      ∧ addRequirement optHomeTrie.2 "/proc/self/status" permR STRACE_FILE = optHomeTrie.2
      ∧ ∀ (A : AllowSets) (username command : String) (requirements : List PolicyRow),
          (∀ r ∈ requirements, HasPrefix r.Req "/proc" = true) →
          (CreateTrie A username command requirements).2 = emptyTrie
            ∧ GetSecurityProfile (CreateTrie A username command requirements).2 = [] :=
  ⟨by decide,
    addRequirement_ignores_proc optHomeTrie.2 "/proc/self/status" permR STRACE_FILE (by decide)⟩

/-- C19. For every trie and every goal > 0 with `CountPermissionedNodes() <= goal`,
`PruneTrie(goal)` returns true and leaves the trie exactly as it was. -/
theorem PruneTrie_no_need_to_prune (A : AllowSets) (goal : Int) (root : Node)
    (hg : 0 < goal) (hcount : CountPermissionedNodes root ≤ goal) :
    PruneTrie A goal root = some (true, root) := by
  unfold PruneTrie
  rw [if_neg (not_le.mpr hg), if_pos hcount]

theorem PruneTrie_no_need_to_prune_witness :
    (0 : Int) < 3 ∧ CountPermissionedNodes optHomeTrie.2 ≤ 3
      ∧ PruneTrie optHomeTrie.1 3 optHomeTrie.2 = some (true, optHomeTrie.2) :=
  ⟨by decide, by decide,
    PruneTrie_no_need_to_prune optHomeTrie.1 3 optHomeTrie.2 (by decide) (by decide)⟩

/-- C20. Code defect: with goal = 0 `BuildSecurityProfile` prunes with the
maximum 50, not with the 30 that the help text of `--goal` announces.  For the
31 requirements `/lib/f0` ... `/lib/f30` the profile built with goal 0 has the
31 rows unpruned, as with goal 50, whereas goal 30 gives the single row `/lib`. -/
theorem BuildSecurityProfile_default_goal_is_50 :
    (∀ (A : AllowSets) (username CMD : String) (lof : List PolicyRow),
        BuildSecurityProfile A username CMD lof 0 = BuildSecurityProfile A username CMD lof 50)
      ∧ (BuildSecurityProfile initialAllowSets "alice" "cat" (libFiles 31) 0).map
          (fun p => p.Entries.length) = some 31
      ∧ BuildSecurityProfile initialAllowSets "alice" "cat" (libFiles 31) 30
          = some ⟨[⟨"/lib", permRX, PRUNING_RX⟩]⟩ := by
  refine ⟨fun A username CMD lof => rfl, ?_, ?_⟩
  · decide!
  · decide!


/-! ## The flags of `open` and `openat` -/

theorem rwFlagLoop_eq (flags : List String) :
    rwFlagLoop flags
      = if flags.any (fun f => rw_flags.contains f) then some { R := true, W := true } else none := by
  induction flags with
  | nil => rfl
  | cons f fs ih =>
    unfold rwFlagLoop
    by_cases h : rw_flags.contains f = true
    · have h' : f ∈ rw_flags := by simpa using h
      simp [h']
    · simp only [h, if_false, ih, List.any_cons, Bool.false_or]
      simp

theorem roFlagLoop_eq (flags : List String) :
    roFlagLoop flags
      = if flags.any (fun f => ro_flags.contains f) then some { R := true } else none := by
  induction flags with
  | nil => rfl
  | cons f fs ih =>
    unfold roFlagLoop
    by_cases h : ro_flags.contains f = true
    · have h' : f ∈ ro_flags := by simpa using h
      simp [h']
    · simp only [h, if_false, ih, List.any_cons, Bool.false_or]
      simp

/-- C25. For every `|`-separated flags string, `getPermission_open_syscall`
returns `rw-` if any flag is one of O_WRONLY, O_RDWR, O_APPEND, O_CREAT,
whatever its position and whatever other flags are present; otherwise `r--` if
any flag is O_RDONLY or O_EXCL; otherwise no permission; it never sets X. -/
theorem getPermission_open_syscall_spec (flags_arg : String) :
    getPermission_open_syscall flags_arg
        = (if (SplitOn flags_arg "|").any
              (fun f => f = "O_WRONLY" ∨ f = "O_RDWR" ∨ f = "O_APPEND" ∨ f = "O_CREAT") then
            some { R := true, W := true, X := false }
          else if (SplitOn flags_arg "|").any (fun f => f = "O_RDONLY" ∨ f = "O_EXCL") then
            some { R := true, W := false, X := false }
          else none)
      ∧ ∀ perm, getPermission_open_syscall flags_arg = some perm → perm.X = false := by
  have hrw : ∀ l : List String,
      l.any (fun f => rw_flags.contains f)
        = l.any (fun f => decide (f = "O_WRONLY" ∨ f = "O_RDWR" ∨ f = "O_APPEND" ∨ f = "O_CREAT")) := by
    intro l
    congr 1
    funext f
    simp [rw_flags, eq_comm]
  have hro : ∀ l : List String,
      l.any (fun f => ro_flags.contains f)
        = l.any (fun f => decide (f = "O_RDONLY" ∨ f = "O_EXCL")) := by
    intro l
    congr 1
    funext f
    simp [ro_flags, eq_comm]
  have hmain : getPermission_open_syscall flags_arg
        = (if (SplitOn flags_arg "|").any
              (fun f => f = "O_WRONLY" ∨ f = "O_RDWR" ∨ f = "O_APPEND" ∨ f = "O_CREAT") then
            some { R := true, W := true, X := false }
          else if (SplitOn flags_arg "|").any (fun f => f = "O_RDONLY" ∨ f = "O_EXCL") then
            some { R := true, W := false, X := false }
          else none) := by
    unfold getPermission_open_syscall
    dsimp only
    rw [rwFlagLoop_eq, roFlagLoop_eq, hrw, hro]
    by_cases h1 : ((SplitOn flags_arg "|").any
        (fun f => decide (f = "O_WRONLY" ∨ f = "O_RDWR" ∨ f = "O_APPEND" ∨ f = "O_CREAT"))) = true
    · simp only [h1, if_true]
    · have h1' : ((SplitOn flags_arg "|").any
          (fun f => decide (f = "O_WRONLY" ∨ f = "O_RDWR" ∨ f = "O_APPEND" ∨ f = "O_CREAT")))
          = false := by simpa using h1
      rw [h1']
      rfl
  refine ⟨hmain, ?_⟩
  intro perm hperm
  rw [hmain] at hperm
  split at hperm
  · simp only [Option.some.injEq] at hperm
    rw [← hperm]
  · split at hperm
    · simp only [Option.some.injEq] at hperm
      rw [← hperm]
    · exact absurd hperm (by simp)

/-- C26. Code defect: a successful `link` line and a successful `openat` line
whose flags are not recognised each append a row to `requirements`, the empty
`PolicyRow` (empty path, perm `---`): `extractRequirements` appends `pms` for
every line with a recognised syscall, also when it left `pms` unfilled. -/
theorem extractRequirements_appends_empty_row :
    extractRequirements ["link(\"/a\", \"/b\") = 0"] = some [⟨"", {}, ""⟩]
      ∧ extractRequirements ["openat(AT_FDCWD, \"/x\", O_PATH) = 3"] = some [⟨"", {}, ""⟩]
      ∧ getPermission_open_syscall "O_PATH" = none := by
  decide

/-- C29. Code defect: the two-argument line `open("/etc/passwd", O_RDONLY) = 3`
panics with an index out of range: `getSyscallArguments` returns its two
arguments and the case of `open` and `openat` reads `args[2]`. -/
theorem extractRequirements_open_out_of_range :
    getSyscallArguments "open(\"/etc/passwd\", O_RDONLY) = 3"
        = some ["\"/etc/passwd\"", "O_RDONLY"]
      ∧ extractLine "open(\"/etc/passwd\", O_RDONLY) = 3" = none
      ∧ extractRequirements ["open(\"/etc/passwd\", O_RDONLY) = 3"] = none := by
  decide

/-! ## The defects of the RW pass and of the allow-sets -/

/-- C22. Code defect: a node without any `r-_` or `rw-` terminal child does not
stay unchanged in `_pruneRW`.  In the trie of `/dev/bus/usb/f1` (`rw-`) and
`/etc/hostname` (`r--`), pruned with goal 1, the nodes `/dev/bus` (its only
child `usb` has a child) and `/dev` end permissioned with origin PRUNING_RW. -/
theorem pruneRW_marks_node_without_terminal :
    GetSecurityProfile usbHostTrie.2
        = [⟨"/dev/bus/usb/f1", permRW, STRACE_FILE⟩, ⟨"/etc/hostname", permR, STRACE_FILE⟩]
      ∧ (PruneTrie usbHostTrie.1 1 usbHostTrie.2).map (fun r => (r.1, GetSecurityProfile r.2))
        = some (false,
            [⟨"/dev", {}, PRUNING_RW⟩, ⟨"/dev/bus", {}, PRUNING_RW⟩,
              ⟨"/dev/bus/usb/f1", permRW, STRACE_FILE⟩, ⟨"/etc/hostname", permR, STRACE_FILE⟩]) := by
  decide

/-- C27. Code defect: the RW pass gives W to a node that neither had W nor
subsumed a child with W.  The trie holds `/dev/random` and `/dev/urandom`, both
`r--`, and no node with W; after `PruneTrie` with goal 1 the only permissioned
node is `/dev` with perm `rw-`. -/
theorem pruneRW_grants_write_without_writer :
    wPaths devReadTrie.2 = []
      ∧ (PruneTrie devReadTrie.1 1 devReadTrie.2).map (fun r => (r.1, GetSecurityProfile r.2))
        = some (true, [⟨"/dev", permRW, PRUNING_RW⟩]) := by
  decide

/-- C28. Code defect: the profile of a command depends on the commands built
before it in the same process.  Built alone with goal 1 the command `viewer`
keeps its two rows `/tmp/editor/x` and `/tmp/editor/y`; built after the command
`editor` its profile is the single row `/tmp/editor`, because `CreateTrie` has
left `/tmp/editor` and the other directories of `editor` in ALLOW_COARSE_WRITE. -/
theorem BuildProfiles_depends_on_earlier_commands :
    BuildProfiles "alice" 1 [("viewer", viewerRules)] = some [⟨viewerRules⟩]
      ∧ BuildProfiles "alice" 1 [("editor", []), ("viewer", viewerRules)]
        = some [⟨[]⟩, ⟨[⟨"/tmp/editor", { W := true }, PRUNING_RW⟩]⟩]
      ∧ (CreateTrie (CreateTrie initialAllowSets "alice" "editor" []).1 "alice" "viewer"
            viewerRules).1.write
        = ["/dev", "/var", "/sys", "/home/alice/.cache/editor", "/home/alice/.config/editor",
            "/tmp/editor", "/tmp/", "/home/alice/.cache/viewer", "/home/alice/.config/viewer",
            "/tmp/viewer"] := by
  decide

/-! ## The coarsening steps -/

theorem deleteKeys_eq_filter (p : Node → Bool) (l l' : List Node)
    (hkeys : (l.map (fun c => c.name)).Nodup) (hsub : ∀ c ∈ l', c ∈ l) :
    deleteKeys ((l.filter p).map (fun n => n.name)) l' = l'.filter (fun c => !(p c)) := by
  unfold deleteKeys
  apply List.filter_congr
  intro c hc
  congr 1
  rw [Bool.eq_iff_iff, List.contains_iff_exists_mem_beq]
  constructor
  · rintro ⟨i, hi, hbeq⟩
    rw [List.mem_map] at hi
    obtain ⟨c', hc', rfl⟩ := hi
    rw [List.mem_filter] at hc'
    have : c = c' := List.inj_on_of_nodup_map hkeys (hsub c hc) hc'.1 (by simpa using hbeq)
    rw [this]
    exact hc'.2
  · intro h
    exact ⟨c.name, List.mem_map.2 ⟨c, List.mem_filter.2 ⟨hsub c hc, h⟩, rfl⟩, by simp⟩

theorem map_name__pruneRXConnections (cs : List Node) :
    (_pruneRXConnections cs).map (fun c => c.name) = cs.map (fun c => c.name) := by
  rw [_pruneRXConnections_eq, List.map_map]
  apply List.map_congr_left
  intro c _
  simp only [Function.comp]
  split
  · exact _pruneRX_name c
  · rfl

theorem map_name__pruneRWConnections (cs : List Node) :
    (_pruneRWConnections cs).map (fun c => c.name) = cs.map (fun c => c.name) := by
  rw [_pruneRWConnections_eq, List.map_map]
  apply List.map_congr_left
  intro c _
  simp only [Function.comp]
  split
  · exact _pruneRW_name c
  · rfl

theorem pruneRXRoot_of_two (r : Node) (h : 2 ≤ (r.connections.filter isRXTerminal).length) :
    pruneRXRoot r
      = { r with
          perm := { r.perm with
                    R := watermarkR (r.connections.filter isRXTerminal)
                    X := watermarkX (r.connections.filter isRXTerminal) }
          permissioned := true
          origin := PRUNING_RX
          connections :=
            deleteKeys ((r.connections.filter isRXTerminal).map (fun n => n.name))
              r.connections } := by
  have hle : ¬ (r.connections.filter isRXTerminal).length ≤ 1 := by omega
  unfold pruneRXRoot
  exact if_neg hle

theorem pruneRXRoot_of_le_one (r : Node) (h : (r.connections.filter isRXTerminal).length ≤ 1) :
    pruneRXRoot r = r := by
  unfold pruneRXRoot
  exact if_pos h

theorem pruneRWRoot_of_two (r : Node)
    (h : 2 ≤ (r.connections.filter isRNTerminal).length
      + (r.connections.filter isRWTerminal).length) :
    pruneRWRoot r
      = { r with
          perm := { R := watermarkR (r.connections.filter isRNTerminal)
                    X := watermarkX (r.connections.filter isRNTerminal)
                    W := true }
          permissioned := true
          origin := PRUNING_RW
          connections :=
            deleteKeys ((r.connections.filter isRWTerminal).map (fun n => n.name))
              (deleteKeys ((r.connections.filter isRNTerminal).map (fun n => n.name))
                r.connections) } := by
  have hle : ¬ (r.connections.filter isRNTerminal).length
      + (r.connections.filter isRWTerminal).length ≤ 1 := by omega
  unfold pruneRWRoot
  exact if_neg hle

/-- C21, as stated, fails: the node `/opt/app` has perm `rw-` and two childless
children with perm `r-x`; `_pruneRX` leaves it with perm `rwx`, the W bit it
had, not with W = false. -/
theorem pruneRX_keeps_write_bit_of_parent :
    GetSecurityProfile optAppTrie.2
        = [⟨"/opt/app", permRW, USER_INPUT⟩, ⟨"/opt/app/a", permRX, STRACE_FILE⟩,
            ⟨"/opt/app/b", permRX, STRACE_FILE⟩]
      ∧ (PruneTrie optAppTrie.1 1 optAppTrie.2).map (fun r => (r.1, GetSecurityProfile r.2))
        = some (true, [⟨"/opt/app", { R := true, W := true, X := true }, PRUNING_RX⟩]) := by
  decide

/-- C21, amended. RX coarsening step: for every non-leaf node that, after its
children were processed, has at least 2 childless children whose perm matches
mask `_-_`, `_pruneRX` leaves the node permissioned with origin PRUNING_RX and
perm (R = some such child has R, W = the W bit the node had, X = some such
child has X), and removes exactly those children. -/
theorem _pruneRX_coarsening_step (n : Node) (hne : n.connections ≠ [])
    (hkeys : (n.connections.map (fun c => c.name)).Nodup)
    (h2 : 2 ≤ ((_pruneRXConnections n.connections).filter isRXTerminal).length) :
    (_pruneRX n).permissioned = true ∧ (_pruneRX n).origin = PRUNING_RX
      ∧ (_pruneRX n).perm
        = { R := ((_pruneRXConnections n.connections).filter isRXTerminal).any (fun c => c.perm.R)
            W := n.perm.W
            X := ((_pruneRXConnections n.connections).filter isRXTerminal).any (fun c => c.perm.X) }
      ∧ (_pruneRX n).connections
        = (_pruneRXConnections n.connections).filter (fun c => !(isRXTerminal c))
      ∧ (_pruneRX n).name = n.name ∧ (_pruneRX n).path = n.path := by
  have hlen : ¬ (n.connections.length == 0) = true := by
    cases hc : n.connections with
    | nil => exact absurd hc hne
    | cons c cs => simp
  rw [_pruneRX_eq, if_neg hlen, pruneRXRoot_of_two _ h2]
  refine ⟨rfl, rfl, rfl, ?_, rfl, rfl⟩
  exact deleteKeys_eq_filter isRXTerminal _ _
    (by rw [map_name__pruneRXConnections]; exact hkeys) (fun c hc => hc)

theorem _pruneRX_coarsening_step_witness :
    libNode.connections ≠ [] ∧ (libNode.connections.map (fun c => c.name)).Nodup
      ∧ 2 ≤ ((_pruneRXConnections libNode.connections).filter isRXTerminal).length
      ∧ libTrie.2.connections.map (fun c => c.path) = [libNode.path]
      ∧ (PruneTrie libTrie.1 1 libTrie.2).map (fun r => (r.1, GetSecurityProfile r.2))
        = some (true, [⟨"/lib", permRX, PRUNING_RX⟩])
      ∧ (_pruneRX libNode).permissioned = true ∧ (_pruneRX libNode).origin = PRUNING_RX
      ∧ (_pruneRX libNode).perm
        = { R := ((_pruneRXConnections libNode.connections).filter isRXTerminal).any
                  (fun c => c.perm.R)
            W := libNode.perm.W
            X := ((_pruneRXConnections libNode.connections).filter isRXTerminal).any
                  (fun c => c.perm.X) }
      ∧ (_pruneRX libNode).connections
        = (_pruneRXConnections libNode.connections).filter (fun c => !(isRXTerminal c))
      ∧ (_pruneRX libNode).name = libNode.name ∧ (_pruneRX libNode).path = libNode.path :=
  ⟨List.ne_nil_of_length_pos (by decide), by decide, by decide, by decide, by decide,
    _pruneRX_coarsening_step libNode (List.ne_nil_of_length_pos (by decide)) (by decide)
      (by decide)⟩

/-- C23. RW coarsening step with two or more terminals: for every non-leaf node
processed by `_pruneRW` whose childless children matching `r-_` or `rw-` number
at least 2, the node ends permissioned with origin PRUNING_RW and perm (R = some
`r-_` child has R, W = true, X = some `r-_` child has X), and exactly those
`r-_` and `rw-` terminal children are deleted. -/
theorem _pruneRW_coarsening_step (n : Node) (hne : n.connections ≠ [])
    (hkeys : (n.connections.map (fun c => c.name)).Nodup)
    (h2 : 2 ≤ ((_pruneRWConnections n.connections).filter isRNTerminal).length
      + ((_pruneRWConnections n.connections).filter isRWTerminal).length) :
    (_pruneRW n).permissioned = true ∧ (_pruneRW n).origin = PRUNING_RW
      ∧ (_pruneRW n).perm
        = { R := ((_pruneRWConnections n.connections).filter isRNTerminal).any (fun c => c.perm.R)
            W := true
            X := ((_pruneRWConnections n.connections).filter isRNTerminal).any (fun c => c.perm.X) }
      ∧ (_pruneRW n).connections
        = (_pruneRWConnections n.connections).filter
            (fun c => !(isRNTerminal c) && !(isRWTerminal c))
      ∧ (_pruneRW n).name = n.name ∧ (_pruneRW n).path = n.path := by
  have hlen : ¬ (n.connections.length == 0) = true := by
    cases hc : n.connections with
    | nil => exact absurd hc hne
    | cons c cs => simp
  have hk : ((_pruneRWConnections n.connections).map (fun c => c.name)).Nodup := by
    rw [map_name__pruneRWConnections]
    exact hkeys
  rw [_pruneRW_eq, if_neg hlen, pruneRWRoot_of_two _ h2]
  refine ⟨rfl, rfl, rfl, ?_, rfl, rfl⟩
  show deleteKeys _ (deleteKeys _ (_pruneRWConnections n.connections)) = _
  rw [deleteKeys_eq_filter isRNTerminal _ _ hk (fun c hc => hc),
    deleteKeys_eq_filter isRWTerminal _ _ hk (fun c hc => (List.mem_filter.1 hc).1),
    List.filter_filter]
  apply List.filter_congr
  intro c _
  rw [Bool.and_comm]

theorem _pruneRW_coarsening_step_witness :
    devMixedNode.connections ≠ [] ∧ (devMixedNode.connections.map (fun c => c.name)).Nodup
      ∧ 2 ≤ ((_pruneRWConnections devMixedNode.connections).filter isRNTerminal).length
          + ((_pruneRWConnections devMixedNode.connections).filter isRWTerminal).length
      ∧ devMixedTrie.2.connections.map (fun c => c.path) = [devMixedNode.path]
      ∧ (PruneTrie devMixedTrie.1 1 devMixedTrie.2).map (fun r => (r.1, GetSecurityProfile r.2))
        = some (true, [⟨"/dev", permRW, PRUNING_RW⟩])
      ∧ (_pruneRW devMixedNode).permissioned = true ∧ (_pruneRW devMixedNode).origin = PRUNING_RW
      ∧ (_pruneRW devMixedNode).perm
        = { R := ((_pruneRWConnections devMixedNode.connections).filter isRNTerminal).any
                  (fun c => c.perm.R)
            W := true
            X := ((_pruneRWConnections devMixedNode.connections).filter isRNTerminal).any
                  (fun c => c.perm.X) }
      ∧ (_pruneRW devMixedNode).connections
        = (_pruneRWConnections devMixedNode.connections).filter
            (fun c => !(isRNTerminal c) && !(isRWTerminal c))
      ∧ (_pruneRW devMixedNode).name = devMixedNode.name
      ∧ (_pruneRW devMixedNode).path = devMixedNode.path :=
  ⟨List.ne_nil_of_length_pos (by decide), by decide, by decide, by decide, by decide,
    _pruneRW_coarsening_step devMixedNode (List.ne_nil_of_length_pos (by decide)) (by decide)
      (by decide)⟩

/-! ## The RX pass and the W bit -/

theorem allNodesConnections_eq_flatMap (cs : List Node) :
    allNodesConnections cs = cs.flatMap allNodes := by
  induction cs with
  | nil => rfl
  | cons c cs ih => simp [allNodesConnections, ih]

theorem filter_map_flatMap {α β γ : Type} (f : α → List β) (p : β → Bool) (g : β → γ)
    (l : List α) :
    ((l.flatMap f).filter p).map g = l.flatMap (fun a => ((f a).filter p).map g) := by
  induction l with
  | nil => rfl
  | cons a l ih => simp [List.flatMap_cons, List.filter_append, ih]

theorem wPaths_eq (n : Node) :
    wPaths n = (if n.perm.W then [n.path] else []) ++ n.connections.flatMap wPaths := by
  unfold wPaths
  rw [allNodes_eq, allNodesConnections_eq_flatMap, List.filter_cons]
  have h := filter_map_flatMap allNodes (fun m => m.perm.W) (fun m => m.path) n.connections
  cases hW : n.perm.W
  · simp only [Bool.false_eq_true, if_false, List.nil_append]
    exact h
  · simp only [if_true, List.map_cons, List.singleton_append]
    rw [h]

theorem pathBits_eq (n : Node) :
    pathBits n = (n.path, n.perm.W) :: n.connections.flatMap pathBits := by
  unfold pathBits
  rw [allNodes_eq, allNodesConnections_eq_flatMap, List.map_cons, List.map_flatMap]

theorem keysUnique_eq (n : Node) :
    keysUnique n
      = (decide ((n.connections.map (fun c => c.name)).Nodup)
          && keysUniqueConnections n.connections) := by
  cases n
  simp [keysUnique]

theorem keysUniqueConnections_iff (cs : List Node) :
    keysUniqueConnections cs = true ↔ ∀ c ∈ cs, keysUnique c = true := by
  induction cs with
  | nil => simp [keysUniqueConnections]
  | cons c cs ih => simp [keysUniqueConnections, ih]

theorem keysUnique_iff (n : Node) :
    keysUnique n = true ↔
      (n.connections.map (fun c => c.name)).Nodup ∧ ∀ c ∈ n.connections, keysUnique c = true := by
  rw [keysUnique_eq, Bool.and_eq_true, decide_eq_true_eq, keysUniqueConnections_iff]

theorem PermissionMatch_rx_mask (p : Permission) (h : p.PermissionMatch "_-_" = some true) :
    p.W = false := by
  obtain ⟨x, w, r⟩ := p
  cases w
  · rfl
  · cases x <;> cases r <;> exact absurd h (by decide)

theorem isRXTerminal_wPaths (c : Node) (h : isRXTerminal c = true) : wPaths c = [] := by
  unfold isRXTerminal at h
  simp only [Bool.and_eq_true, Bool.not_eq_true', bne_eq_false_iff_eq, beq_iff_eq] at h
  obtain ⟨hleaf, hmatch⟩ := h
  have hnil : c.connections = [] := List.length_eq_zero.1 (by simpa using hleaf)
  have hW : c.perm.W = false := PermissionMatch_rx_mask c.perm hmatch
  rw [wPaths_eq, hnil, hW]
  rfl

theorem flatMap_filter_of_nil {α β : Type} (p : α → Bool) (g : α → List β) (l : List α)
    (h : ∀ a ∈ l, p a = false → g a = []) : (l.filter p).flatMap g = l.flatMap g := by
  induction l with
  | nil => rfl
  | cons a l ih =>
    have ih' := ih (fun b hb => h b (List.mem_cons_of_mem a hb))
    rw [List.filter_cons]
    cases hp : p a
    · simp only [Bool.false_eq_true, if_false, List.flatMap_cons]
      rw [ih', h a (List.mem_cons_self a l) hp, List.nil_append]
    · simp only [if_true, List.flatMap_cons]
      rw [ih']

theorem wPaths_pruneRXRoot (r : Node) (hkeys : (r.connections.map (fun c => c.name)).Nodup) :
    wPaths (pruneRXRoot r) = wPaths r := by
  by_cases h : (r.connections.filter isRXTerminal).length ≤ 1
  · rw [pruneRXRoot_of_le_one r h]
  · rw [pruneRXRoot_of_two r (by omega), wPaths_eq, wPaths_eq r]
    congr 1
    show (deleteKeys _ r.connections).flatMap wPaths = _
    rw [deleteKeys_eq_filter isRXTerminal _ _ hkeys (fun c hc => hc)]
    apply flatMap_filter_of_nil
    intro c _ hc
    exact isRXTerminal_wPaths c (by simpa using hc)

theorem flatMap_map_congr {α β : Type} (f : α → α) (g : α → List β) (l : List α)
    (h : ∀ a ∈ l, g (f a) = g a) : (l.map f).flatMap g = l.flatMap g := by
  induction l with
  | nil => rfl
  | cons a l ih =>
    rw [List.map_cons, List.flatMap_cons, List.flatMap_cons, h a (List.mem_cons_self a l),
      ih (fun b hb => h b (List.mem_cons_of_mem a hb))]

theorem wPaths__pruneRX :
    ∀ n : Node, keysUnique n = true → wPaths (_pruneRX n) = wPaths n := by
  intro n
  induction n using Node.induction with
  | h n ih =>
    intro hk
    obtain ⟨hnames, hchildren⟩ := (keysUnique_iff n).1 hk
    rw [_pruneRX_eq]
    split
    · rfl
    · rw [wPaths_pruneRXRoot _ (by
        show ((_pruneRXConnections n.connections).map (fun c => c.name)).Nodup
        rw [map_name__pruneRXConnections]
        exact hnames)]
      rw [wPaths_eq, wPaths_eq n]
      congr 1
      show (_pruneRXConnections n.connections).flatMap wPaths = _
      rw [_pruneRXConnections_eq]
      apply flatMap_map_congr
      intro c hc
      split
      · exact ih c hc (hchildren c hc)
      · rfl

theorem wPaths_PruneRX (A : AllowSets) (goal : Int) :
    ∀ n : Node, keysUnique n = true → wPaths (PruneRX A goal n).2 = wPaths n := by
  intro n
  induction n using Node.induction with
  | h n ih =>
    intro hk
    obtain ⟨_, hchildren⟩ := (keysUnique_iff n).1 hk
    rw [PruneRX_snd, wPaths_eq, wPaths_eq n]
    congr 1
    show (n.connections.map (pruneRXChild A goal)).flatMap wPaths = _
    apply flatMap_map_congr
    intro c hc
    unfold pruneRXChild
    split
    · exact wPaths__pruneRX c (hchildren c hc)
    · split
      · exact ih c hc (hchildren c hc)
      · rfl

theorem sublist_flatMap_of_sublist {α β : Type} (g : α → List β) (l₁ l₂ : List α)
    (h : l₁.Sublist l₂) : (l₁.flatMap g).Sublist (l₂.flatMap g) := by
  induction h with
  | slnil => exact List.Sublist.refl _
  | cons a _ ih =>
    rw [List.flatMap_cons]
    exact List.Sublist.trans ih (List.sublist_append_right _ _)
  | cons₂ a _ ih =>
    rw [List.flatMap_cons, List.flatMap_cons]
    exact List.Sublist.append (List.Sublist.refl _) ih

theorem sublist_flatMap_map {α β : Type} (f : α → α) (g : α → List β) (l : List α)
    (h : ∀ a ∈ l, (g (f a)).Sublist (g a)) : ((l.map f).flatMap g).Sublist (l.flatMap g) := by
  induction l with
  | nil => exact List.Sublist.refl _
  | cons a l ih =>
    rw [List.map_cons, List.flatMap_cons, List.flatMap_cons]
    exact List.Sublist.append (h a (List.mem_cons_self a l))
      (ih (fun b hb => h b (List.mem_cons_of_mem a hb)))

theorem pathBits_pruneRXRoot (r : Node) : (pathBits (pruneRXRoot r)).Sublist (pathBits r) := by
  by_cases h : (r.connections.filter isRXTerminal).length ≤ 1
  · rw [pruneRXRoot_of_le_one r h]
  · rw [pruneRXRoot_of_two r (by omega), pathBits_eq, pathBits_eq r]
    refine List.Sublist.cons₂ _ ?_
    apply sublist_flatMap_of_sublist
    show (deleteKeys _ r.connections).Sublist r.connections
    unfold deleteKeys
    exact List.filter_sublist _

theorem pathBits__pruneRX : ∀ n : Node, (pathBits (_pruneRX n)).Sublist (pathBits n) := by
  intro n
  induction n using Node.induction with
  | h n ih =>
    rw [_pruneRX_eq]
    split
    · exact List.Sublist.refl _
    · refine List.Sublist.trans (pathBits_pruneRXRoot _) ?_
      rw [pathBits_eq, pathBits_eq n]
      refine List.Sublist.cons₂ _ ?_
      show ((_pruneRXConnections n.connections).flatMap pathBits).Sublist _
      rw [_pruneRXConnections_eq]
      apply sublist_flatMap_map
      intro c hc
      split
      · exact ih c hc
      · exact List.Sublist.refl _

theorem pathBits_PruneRX (A : AllowSets) (goal : Int) :
    ∀ n : Node, (pathBits (PruneRX A goal n).2).Sublist (pathBits n) := by
  intro n
  induction n using Node.induction with
  | h n ih =>
    rw [PruneRX_snd, pathBits_eq, pathBits_eq n]
    refine List.Sublist.cons₂ _ ?_
    show ((n.connections.map (pruneRXChild A goal)).flatMap pathBits).Sublist _
    apply sublist_flatMap_map
    intro c hc
    unfold pruneRXChild
    split
    · exact pathBits__pruneRX c
    · split
      · exact ih c hc
      · exact List.Sublist.refl _

/-! ## Tries built by `CreateTrie` have distinct keys -/

theorem name_addRequirementLoop (last_name : String) (perm : Permission) (origin : String)
    (names : List String) (incremental_path : String) (currnode : Node) :
    (addRequirementLoop last_name perm origin names incremental_path currnode).name
      = currnode.name := by
  cases names with
  | nil => rfl
  | cons name rest =>
    cases hfind : lookupChild name currnode.connections with
    | some child =>
      obtain ⟨c, _, _, _, heq⟩ := addRequirementLoop_found last_name perm origin name rest
        incremental_path currnode child hfind
      rw [heq]
    | none =>
      obtain ⟨c, _, _, _, heq⟩ := addRequirementLoop_missing last_name perm origin name rest
        incremental_path currnode hfind
      rw [heq]

theorem map_name_storeChild (name : String) (child : Node) (cs : List Node)
    (h : child.name = name) :
    (storeChild name child cs).map (fun c => c.name) = cs.map (fun c => c.name) := by
  induction cs with
  | nil => rfl
  | cons c cs ih =>
    unfold storeChild
    split
    · rename_i hc
      have : c.name = name := by simpa using hc
      simp [h, this]
    · simp [ih]

theorem keysUnique_of_connections (c c' : Node) (h : c.connections = c'.connections)
    (hk : keysUnique c' = true) : keysUnique c = true := by
  rw [keysUnique_eq] at hk ⊢
  rw [h]
  exact hk

theorem keysUnique_addRequirementLoop (last_name : String) (perm : Permission)
    (origin : String) :
    ∀ (names : List String) (incremental_path : String) (currnode : Node),
      keysUnique currnode = true →
      keysUnique (addRequirementLoop last_name perm origin names incremental_path currnode)
        = true := by
  intro names
  induction names with
  | nil =>
    intro ip node hk
    exact hk
  | cons name rest ih =>
    intro ip node hk
    obtain ⟨hnames, hchildren⟩ := (keysUnique_iff node).1 hk
    cases hfind : lookupChild name node.connections with
    | some child =>
      have hmem : child ∈ node.connections := List.mem_of_find?_eq_some hfind
      have hname : child.name = name := by
        have := List.find?_some hfind
        simpa using this
      obtain ⟨c, _, h2, h3, heq⟩ :=
        addRequirementLoop_found last_name perm origin name rest ip node child hfind
      have hc : keysUnique c = true := keysUnique_of_connections c child h3 (hchildren child hmem)
      have hres := ih c.path c hc
      have hresname : (addRequirementLoop last_name perm origin rest c.path c).name = name := by
        rw [name_addRequirementLoop, h2, hname]
      rw [heq, keysUnique_iff]
      constructor
      · show ((storeChild name _ node.connections).map (fun c : Node => c.name)).Nodup
        rw [map_name_storeChild name _ _ hresname]
        exact hnames
      · intro x hx
        rcases mem_storeChild _ _ _ x hx with hx | hx
        · rw [hx]
          exact hres
        · exact hchildren x hx
    | none =>
      obtain ⟨c, _, h2, h3, heq⟩ :=
        addRequirementLoop_missing last_name perm origin name rest ip node hfind
      have hc : keysUnique c = true := by
        rw [keysUnique_eq, h3]
        rfl
      have hres := ih (ip ++ "/" ++ name) c hc
      have hresname :
          (addRequirementLoop last_name perm origin rest (ip ++ "/" ++ name) c).name = name := by
        rw [name_addRequirementLoop, h2]
      have hfresh : name ∉ node.connections.map (fun c => c.name) := by
        intro hin
        rw [List.mem_map] at hin
        obtain ⟨x, hx, hxn⟩ := hin
        have hnone := List.find?_eq_none.1 hfind x hx
        exact hnone (by simpa using hxn)
      rw [heq, keysUnique_iff]
      constructor
      · show ((node.connections ++ [_]).map (fun c : Node => c.name)).Nodup
        rw [List.map_append, List.nodup_append]
        refine ⟨hnames, by simp, ?_⟩
        intro a ha hb
        simp only [List.map_cons, List.map_nil, List.mem_singleton] at hb
        rw [hb, hresname] at ha
        exact hfresh ha
      · intro x hx
        rcases List.mem_append.1 hx with hx | hx
        · exact hchildren x hx
        · rw [List.mem_singleton] at hx
          rw [hx]
          exact hres

theorem keysUnique_addRequirement (root : Node) (req : String) (perm : Permission)
    (origin : String) (hk : keysUnique root = true) :
    keysUnique (addRequirement root req perm origin) = true := by
  unfold addRequirement
  split
  · exact hk
  · exact keysUnique_addRequirementLoop _ perm origin _ root.path root hk

/-- Every trie that `CreateTrie` builds has distinct keys in each of its maps. -/
theorem keysUnique_CreateTrie (A : AllowSets) (username command : String)
    (requirements : List PolicyRow) :
    keysUnique (CreateTrie A username command requirements).2 = true := by
  unfold CreateTrie
  dsimp only
  generalize hroot : createTrieNode "/" "" {} "" false = root
  have hk : keysUnique root = true := by rw [← hroot]; rfl
  clear hroot
  induction requirements generalizing root with
  | nil => exact hk
  | cons r rs ih =>
    rw [List.foldl_cons]
    exact ih _ (keysUnique_addRequirement root r.Req r.Perm r.Origin hk)

/-- C24. W is not coarsened in pass 1: for every trie with distinct keys (as
every trie built by `CreateTrie`) and every goal, the paths of the nodes whose
perm has W are the same before and after `PruneRX`, in the same order, and the
path and W bit of every node that survives are those of a node of the trie
before the pass; so the pass deletes no node with W and changes no W bit. -/
theorem PruneRX_keeps_write_bits (A : AllowSets) (goal : Int) (root : Node)
    (hkeys : keysUnique root = true) :
    wPaths (PruneRX A goal root).2 = wPaths root
      ∧ (pathBits (PruneRX A goal root).2).Sublist (pathBits root)
      ∧ ∀ (A' : AllowSets) (username command : String) (requirements : List PolicyRow),
          keysUnique (CreateTrie A' username command requirements).2 = true :=
  ⟨wPaths_PruneRX A goal root hkeys, pathBits_PruneRX A goal root,
    fun A' username command requirements =>
      keysUnique_CreateTrie A' username command requirements⟩

theorem PruneRX_keeps_write_bits_witness :
    keysUnique optAppTrie.2 = true
      ∧ wPaths optAppTrie.2 = ["/opt/app"]
      ∧ wPaths (PruneRX optAppTrie.1 1 optAppTrie.2).2 = wPaths optAppTrie.2
      ∧ (pathBits (PruneRX optAppTrie.1 1 optAppTrie.2).2).Sublist (pathBits optAppTrie.2) :=
  ⟨by decide, by decide,
    (PruneRX_keeps_write_bits optAppTrie.1 1 optAppTrie.2 (by decide)).1,
    (PruneRX_keeps_write_bits optAppTrie.1 1 optAppTrie.2 (by decide)).2.1⟩

/-! ## The path invariant -/

theorem path_addRequirementLoop (last_name : String) (perm : Permission) (origin : String)
    (names : List String) (incremental_path : String) (currnode : Node) :
    (addRequirementLoop last_name perm origin names incremental_path currnode).path
      = currnode.path := by
  cases names with
  | nil => rfl
  | cons name rest =>
    cases hfind : lookupChild name currnode.connections with
    | some child =>
      obtain ⟨c, _, _, _, heq⟩ := addRequirementLoop_found last_name perm origin name rest
        incremental_path currnode child hfind
      rw [heq]
    | none =>
      obtain ⟨c, _, _, _, heq⟩ := addRequirementLoop_missing last_name perm origin name rest
        incremental_path currnode hfind
      rw [heq]

theorem path_addRequirement (root : Node) (req : String) (perm : Permission) (origin : String) :
    (addRequirement root req perm origin).path = root.path := by
  unfold addRequirement
  split
  · rfl
  · exact path_addRequirementLoop _ perm origin _ root.path root

theorem path_CreateTrie (A : AllowSets) (username command : String)
    (requirements : List PolicyRow) :
    (CreateTrie A username command requirements).2.path = "" := by
  unfold CreateTrie
  dsimp only
  generalize hroot : createTrieNode "/" "" {} "" false = root
  have hp : root.path = "" := by rw [← hroot]; rfl
  clear hroot
  induction requirements generalizing root with
  | nil => exact hp
  | cons r rs ih =>
    rw [List.foldl_cons]
    exact ih _ (by rw [path_addRequirement]; exact hp)

theorem PruneTrie_pathsConsistent (A : AllowSets) (goal : Int) (hg : 0 < goal) (root : Node)
    (hwf : pathsConsistent root = true) :
    ∃ b root', PruneTrie A goal root = some (b, root')
      ∧ pathsConsistent root' = true ∧ root'.path = root.path := by
  have hrx := pathsConsistent_PruneRX A goal root hwf
  have hrw := pathsConsistent_PruneRW A goal _ hrx
  have prx : (PruneRX A goal root).2.path = root.path := by rw [PruneRX_snd]
  have prw : (PruneRW A goal (PruneRX A goal root).2).2.path = root.path := by
    rw [PruneRW_snd]
    exact prx
  unfold PruneTrie
  rw [if_neg (not_le.mpr hg)]
  by_cases h1 : goal ≥ CountPermissionedNodes root
  · rw [if_pos h1]
    exact ⟨true, root, rfl, hwf, rfl⟩
  · rw [if_neg h1]
    by_cases h2 : (PruneRX A goal root).1 = true
    · simp only [h2, if_true]
      exact ⟨true, _, rfl, hrx, prx⟩
    · simp only [h2]
      by_cases h3 : (PruneRW A goal (PruneRX A goal root).2).1 = true
      · simp only [h3, if_true]
        exact ⟨true, _, rfl, hrw, prw⟩
      · simp only [h3]
        exact ⟨false, _, rfl, hrw, prw⟩

theorem nodesWithNames_eq (pre : List String) (n : Node) :
    nodesWithNames pre n = (pre, n) :: nodesWithNamesConnections pre n.connections := by
  cases n
  simp [nodesWithNames]

theorem mem_nodesWithNamesConnections (pre : List String) (cs : List Node)
    (x : List String × Node) :
    x ∈ nodesWithNamesConnections pre cs ↔
      ∃ c ∈ cs, x ∈ nodesWithNames (pre ++ [c.name]) c := by
  induction cs with
  | nil => simp [nodesWithNamesConnections]
  | cons c cs ih => simp [nodesWithNamesConnections, ih]

theorem mem_nodesWithNames (pre : List String) (n : Node) (x : List String × Node) :
    x ∈ nodesWithNames pre n ↔
      x = (pre, n) ∨ ∃ c ∈ n.connections, x ∈ nodesWithNames (pre ++ [c.name]) c := by
  rw [nodesWithNames_eq, List.mem_cons, mem_nodesWithNamesConnections]

theorem pathOfNames_append (pre : List String) (name : String) :
    pathOfNames (pre ++ [name]) = pathOfNames pre ++ "/" ++ name := by
  unfold pathOfNames
  rw [List.foldl_append]
  rfl

theorem path_of_mem_nodesWithNames :
    ∀ n : Node, pathsConsistent n = true → ∀ pre : List String, n.path = pathOfNames pre →
      ∀ x ∈ nodesWithNames pre n, x.2.path = pathOfNames x.1 := by
  intro n
  induction n using Node.induction with
  | h n ih =>
    intro hwf pre hpre x hx
    rcases (mem_nodesWithNames pre n x).1 hx with rfl | ⟨c, hc, hxc⟩
    · exact hpre
    · obtain ⟨hpath, hcwf⟩ := (pathsConsistent_iff n).1 hwf c hc
      refine ih c hc hcwf (pre ++ [c.name]) ?_ x hxc
      rw [pathOfNames_append, hpath, hpre]

theorem name_of_mem_nodesWithNames :
    ∀ n : Node, ∀ pre : List String, (∀ nk, pre.getLast? = some nk → n.name = nk) →
      ∀ x ∈ nodesWithNames pre n, ∀ nk, x.1.getLast? = some nk → x.2.name = nk := by
  intro n
  induction n using Node.induction with
  | h n ih =>
    intro pre hpre x hx
    rcases (mem_nodesWithNames pre n x).1 hx with rfl | ⟨c, hc, hxc⟩
    · exact hpre
    · refine ih c hc (pre ++ [c.name]) ?_ x hxc
      intro nk hnk
      rw [List.getLast?_append, List.getLast?_singleton] at hnk
      simpa using hnk

theorem GetSecurityProfile_eq (n : Node) :
    GetSecurityProfile n
      = (if n.permissioned then [{ Req := n.path, Perm := n.perm, Origin := n.origin }] else [])
          ++ GetSecurityProfileConnections n.connections := by
  cases n
  simp [GetSecurityProfile]

theorem mem_GetSecurityProfileConnections (cs : List Node) (row : PolicyRow) :
    row ∈ GetSecurityProfileConnections cs ↔ ∃ c ∈ cs, row ∈ GetSecurityProfile c := by
  induction cs with
  | nil => simp [GetSecurityProfileConnections]
  | cons c cs ih => simp [GetSecurityProfileConnections, ih]

theorem mem_GetSecurityProfile :
    ∀ n : Node, ∀ (pre : List String) (row : PolicyRow), row ∈ GetSecurityProfile n →
      ∃ x ∈ nodesWithNames pre n, x.2.permissioned = true
        ∧ row = { Req := x.2.path, Perm := x.2.perm, Origin := x.2.origin } := by
  intro n
  induction n using Node.induction with
  | h n ih =>
    intro pre row hrow
    rw [GetSecurityProfile_eq, List.mem_append] at hrow
    rcases hrow with hrow | hrow
    · by_cases hp : n.permissioned = true
      · rw [if_pos hp, List.mem_singleton] at hrow
        exact ⟨(pre, n), (mem_nodesWithNames pre n _).2 (Or.inl rfl), hp, hrow⟩
      · rw [if_neg hp] at hrow
        exact absurd hrow (List.not_mem_nil row)
    · obtain ⟨c, hc, hrc⟩ := (mem_GetSecurityProfileConnections _ row).1 hrow
      obtain ⟨x, hx, hxp, hxr⟩ := ih c hc (pre ++ [c.name]) row hrc
      exact ⟨x, (mem_nodesWithNames pre n x).2 (Or.inr ⟨c, hc, hx⟩), hxp, hxr⟩

/-- C30. Path invariant: in every trie built from the empty root by
`addRequirement` (as `CreateTrie` does) and then pruned by `PruneTrie` with a
goal > 0, each node reached from the root through the child names n1, ..., nk
has path `"/" + n1 + "/" + ... + "/" + nk` and name nk, and every row returned
by `GetSecurityProfile` carries the path, perm and origin of a permissioned
node, the path being the one of the names that lead to it. -/
theorem PruneTrie_path_invariant (A A' : AllowSets) (username command : String)
    (requirements : List PolicyRow) (goal : Int) (hg : 0 < goal) :
    ∃ b root', PruneTrie A' goal (CreateTrie A username command requirements).2 = some (b, root')
      ∧ (∀ x ∈ nodesWithNames [] root',
          x.2.path = pathOfNames x.1 ∧ ∀ nk, x.1.getLast? = some nk → x.2.name = nk)
      ∧ ∀ row ∈ GetSecurityProfile root',
          ∃ x ∈ nodesWithNames [] root', x.2.permissioned = true
            ∧ row = { Req := pathOfNames x.1, Perm := x.2.perm, Origin := x.2.origin } := by
  obtain ⟨b, root', hprune, hwf, hpath⟩ := PruneTrie_pathsConsistent A' goal hg _
    (pathsConsistent_CreateTrie A username command requirements)
  rw [path_CreateTrie] at hpath
  have hpaths := path_of_mem_nodesWithNames root' hwf [] hpath
  refine ⟨b, root', hprune, ?_, ?_⟩
  · intro x hx
    refine ⟨hpaths x hx, ?_⟩
    exact name_of_mem_nodesWithNames root' [] (fun nk h => by simp at h) x hx
  · intro row hrow
    obtain ⟨x, hx, hxp, hxr⟩ := mem_GetSecurityProfile root' [] row hrow
    refine ⟨x, hx, hxp, ?_⟩
    rw [hxr, hpaths x hx]

theorem PruneTrie_path_invariant_witness :
    (0 : Int) < 1
      ∧ (PruneTrie libTrie.1 1 libTrie.2).map
          (fun r => (nodesWithNames [] r.2).map (fun x => (x.1, x.2.path, x.2.name)))
        = some [([], "", "/"), (["lib"], "/lib", "lib")]
      ∧ ∃ b root', PruneTrie libTrie.1 1
            (CreateTrie initialAllowSets "alice" "cat"
              [⟨"/lib/a", permRX, SHARED_LIBS⟩, ⟨"/lib/b", permRX, SHARED_LIBS⟩,
                ⟨"/lib/c", permRX, SHARED_LIBS⟩]).2 = some (b, root')
          ∧ (∀ x ∈ nodesWithNames [] root',
              x.2.path = pathOfNames x.1 ∧ ∀ nk, x.1.getLast? = some nk → x.2.name = nk)
          ∧ ∀ row ∈ GetSecurityProfile root',
              ∃ x ∈ nodesWithNames [] root', x.2.permissioned = true
                ∧ row = { Req := pathOfNames x.1, Perm := x.2.perm, Origin := x.2.origin } :=
  ⟨by decide, by decide,
    PruneTrie_path_invariant initialAllowSets libTrie.1 "alice" "cat"
      [⟨"/lib/a", permRX, SHARED_LIBS⟩, ⟨"/lib/b", permRX, SHARED_LIBS⟩,
        ⟨"/lib/c", permRX, SHARED_LIBS⟩] 1 (by decide)⟩

end Dmng
